import Mathlib

/-!
# A recursive-descent calculator: lexer, parser and evaluator

Shallow embedding of `lexer.c` and `rd_calculator_parser.c`.

* The input buffer is a `List Nat` of byte values; the terminating NUL is implicit: reading at
  index `buf.length` yields `0`, reading beyond it is an out-of-bounds read (`Err.oob`).
* The globals `token` and `stream` form the `State` that every routine receives and returns.
  Pointers into the buffer are indices.
* `int` is `Int` kept in `[-2^31, 2^31)` by `wrap32`; `uint32_t` is `Nat` reduced `% 2^32`.
* `char` is signed (the parser is x86/GCC-only by its inline assembly), so a byte above 127
  stored into `token.kind` (an `unsigned int` enum) is sign-extended.
* `exit`/`fatal` end the run with `Err.abort`; the `idiv` instruction raises a divide error
  (`Err.trap`) on a zero divisor or an unrepresentable quotient.
* Recursion through `parse_expr` and the loop of `parse_bin` are bounded by a fuel counter;
  `parse_expr_str` supplies `length + 2`, which is shown to be always enough.
-/

namespace Calc

/-! ## Data model (`common.h`) -/

/-- Ways a run can end without a value. -/
inductive Err where
  | abort
  | trap
  | oob
  | fuel
  deriving DecidableEq

/-- Token kind of an unsigned integer literal; `TOKEN_UINT = 128`. -/
abbrev TOKEN_UINT : Nat := 128

/-- Token kind of a name; `TOKEN_NAME` follows `TOKEN_UINT`. -/
abbrev TOKEN_NAME : Nat := 129

/-- The `Token` struct: `start` and `end_` are indices into the buffer; `val` is the
`uint32_t` member of the anonymous union (the `name` member is never written). -/
structure Token where
  kind : Nat
  start : Nat
  end_ : Nat
  val : Nat
  deriving DecidableEq

/-- The two globals of `lexer.c`: the current token and the read cursor. -/
structure State where
  token : Token
  stream : Nat
  deriving DecidableEq

/-- Zero-initialised globals, as at program start. -/
def State.zero : State := { token := { kind := 0, start := 0, end_ := 0, val := 0 }, stream := 0 }

/-! ## Character classes (`ctype.h`, "C" locale) -/

/-- The `isspace` class: space, `\t`, `\n`, `\v`, `\f`, `\r`. -/
def isspace (c : Nat) : Bool := c == 32 || (9 ≤ c && c ≤ 13)

/-- The `isdigit` class, also the ten digit `case` labels of `next_token`. -/
def isdigit (c : Nat) : Bool := 48 ≤ c && c ≤ 57

/-- The `isalnum` class. -/
def isalnum (c : Nat) : Bool := isdigit c || (65 ≤ c && c ≤ 90) || (97 ≤ c && c ≤ 122)

/-- The `case` labels `'A'..'Z'`, `'a'..'z'`, `'_'` of `next_token`. -/
def is_name_start (c : Nat) : Bool := (65 ≤ c && c ≤ 90) || (97 ≤ c && c ≤ 122) || c == 95

/-- The conversion in `token.kind = *stream++`: a (signed) `char` stored into the
`unsigned int` enum. -/
def char_to_kind (c : Nat) : Nat := if c < 128 then c else c + 4294967040

/-- The conversion in `char op = token.kind`: truncation to a signed `char`. -/
def kind_to_char (k : Nat) : Int := if k % 256 < 128 then (k % 256 : Nat) else (k % 256 : Nat) - 256

/-! ## Machine arithmetic -/

/-- Reduction of an integer to the signed 32-bit range (two's complement wrap). -/
def wrap32 (x : Int) : Int := (x + 2147483648) % 4294967296 - 2147483648

/-- The conversion in `val = token.val`: a `uint32_t` read as `int`. -/
def to_int32 (n : Nat) : Int := if n < 2147483648 then (n : Int) else (n : Int) - 4294967296

/-! ## Lexer (`lexer.c`) -/

/-- The loop `while (isspace(*stream)) stream++;` run on the unread input: how many
characters it skips. The empty list is the terminator, which is not a space. -/
def skip_space : List Nat → Nat
  | [] => 0
  | c :: cs => if isspace c then skip_space cs + 1 else 0

/-- The digit loop `while (isdigit(*stream)) { val = val * 10 + *stream - '0'; ++stream; }`
on the unread input, from accumulator `val`: the final accumulator and the number of
characters consumed. -/
def scan_uint : List Nat → Nat → Nat × Nat
  | [], val => (val, 0)
  | c :: cs, val =>
    if isdigit c then
      let r := scan_uint cs ((val * 10 + c - 48) % 4294967296)
      (r.1, r.2 + 1)
    else (val, 0)

/-- The loop `while (isalnum(*stream) || *stream == '_') ++stream;` on the unread input:
how many characters it consumes. -/
def scan_name : List Nat → Nat
  | [] => 0
  | c :: cs => if isalnum c || c == 95 then scan_name cs + 1 else 0

/-- Put the next token into the global `token`. Fails only when the cursor is already past
the terminator, where `*stream` would read outside the buffer. -/
def next_token (buf : List Nat) (st : State) : Except Err State :=
  if buf.length < st.stream then .error .oob
  else
    let start := st.stream + skip_space (buf.drop st.stream)
    let rest := buf.drop start
    let c := rest.headD 0
    if isdigit c then
      let r := scan_uint rest 0
      .ok { token := { kind := TOKEN_UINT, start := start, end_ := start + r.2, val := r.1 },
            stream := start + r.2 }
    else if is_name_start c then
      let n := scan_name rest
      .ok { token := { kind := TOKEN_NAME, start := start, end_ := start + n,
                       val := st.token.val },
            stream := start + n }
    else
      .ok { token := { kind := char_to_kind c, start := start, end_ := start + 1,
                       val := st.token.val },
            stream := start + 1 }

/-! ## Parser and evaluator (`rd_calculator_parser.c`) -/

/-- Result of a parsing routine: the value and the updated globals. -/
abbrev Res := Except Err (Int × State)

/-- Whether the current token has the given kind. -/
def is_token (st : State) (kind : Nat) : Bool := st.token.kind == kind

/-- Consume the current token if it has the given kind. -/
def match_token (buf : List Nat) (st : State) (kind : Nat) : Except Err (Bool × State) :=
  if is_token st kind then
    match next_token buf st with
    | .ok st1 => .ok (true, st1)
    | .error e => .error e
  else .ok (false, st)

/-- Consume the current token if it has the given kind, `exit(1)` otherwise. -/
def expect_token (buf : List Nat) (st : State) (kind : Nat) : Except Err (Bool × State) :=
  if is_token st kind then
    match next_token buf st with
    | .ok st1 => .ok (true, st1)
    | .error e => .error e
  else .error .abort

/-- Point the cursor at the start of `s` and scan the first token. -/
def init_stream (s : List Nat) (st : State) : Except Err State :=
  next_token s { st with stream := 0 }

/-- The rule `<uint_par> = UINT | "(" <expr> ")"`; `parse_expr` is the forward-declared
routine. -/
def parse_uint_par (buf : List Nat) (parse_expr : State → Res) (st : State) : Res :=
  if is_token st TOKEN_UINT then
    match next_token buf st with
    | .ok st1 => .ok (to_int32 st.token.val, st1)
    | .error e => .error e
  else
    match match_token buf st 40 with
    | .error e => .error e
    | .ok (true, st1) =>
      match parse_expr st1 with
      | .error e => .error e
      | .ok (val, st2) =>
        match expect_token buf st2 41 with
        | .error e => .error e
        | .ok (_, st3) => .ok (val, st3)
    | .ok (false, _) => .error .abort

/-- The rule `<un_minus> = ["-"], <uint_par>`. -/
def parse_un_minus (buf : List Nat) (parse_expr : State → Res) (st : State) : Res :=
  if is_token st 45 then
    match next_token buf st with
    | .error e => .error e
    | .ok st1 =>
      match parse_uint_par buf parse_expr st1 with
      | .error e => .error e
      | .ok (val, st2) => .ok (wrap32 (-val), st2)
  else parse_uint_par buf parse_expr st

/-- Whether the current token is one of `kinds`. -/
def token_is_one_of (st : State) : List Nat → Bool
  | [] => false
  | k :: ks => if is_token st k then true else token_is_one_of st ks

/-- The value `apply_op` leaves in `eax`: 32-bit `addl`, `subl`, `imul`, and for every other
operator `cdq; idiv`, which raises a divide error when the divisor is zero or the quotient
does not fit in 32 bits. -/
def apply_op (op : Int) (l r : Int) : Except Err Int :=
  if op = 43 then .ok (wrap32 (l + r))
  else if op = 45 then .ok (wrap32 (l - r))
  else if op = 42 then .ok (wrap32 (l * r))
  else if r = 0 then .error .trap
  else if Int.tdiv l r < -2147483648 ∨ 2147483647 < Int.tdiv l r then .error .trap
  else .ok (Int.tdiv l r)

/-- The `while` loop of `parse_bin`, with `val` the running value; `fuel` bounds the
number of iterations. -/
def parse_bin_loop (buf : List Nat) (higher : State → Res) (ops : List Nat) :
    Nat → Int → State → Res
  | 0, _, _ => .error .fuel
  | fuel + 1, val, st =>
    if token_is_one_of st ops then
      match next_token buf st with
      | .error e => .error e
      | .ok st1 =>
        match higher st1 with
        | .error e => .error e
        | .ok (rval, st2) =>
          match apply_op (kind_to_char st.token.kind) val rval with
          | .error e => .error e
          | .ok v => parse_bin_loop buf higher ops fuel v st2
    else .ok (val, st)

/-- Generic left fold over the operators `ops` with operands parsed by `higher`. -/
def parse_bin (buf : List Nat) (higher : State → Res) (ops : List Nat) (fuel : Nat)
    (st : State) : Res :=
  match higher st with
  | .error e => .error e
  | .ok (val, st1) => parse_bin_loop buf higher ops fuel val st1

/-- The multiplicative tier: operators `*` and `/` over `parse_un_minus`. -/
def parse_bin_mul_add (buf : List Nat) (parse_expr : State → Res) (fuel : Nat)
    (st : State) : Res :=
  parse_bin buf (parse_un_minus buf parse_expr) [42, 47] fuel st

/-- The additive tier: operators `+` and `-` over `parse_bin_mul_add`. -/
def parse_bin_add_sub (buf : List Nat) (parse_expr : State → Res) (fuel : Nat)
    (st : State) : Res :=
  parse_bin buf (parse_bin_mul_add buf parse_expr fuel) [43, 45] fuel st

/-- The rule `<expr> = <bin_add_sub>`; `fuel` bounds the nesting of recursive calls and the
iterations of each loop below. -/
def parse_expr (buf : List Nat) : Nat → State → Res
  | 0, _ => .error .fuel
  | fuel + 1, st => parse_bin_add_sub buf (parse_expr buf fuel) (fuel + 1) st

/-- Evaluate the NUL-terminated string `s`, starting from globals `g`. -/
def parse_expr_str (s : List Nat) (g : State) : Res :=
  match init_stream s g with
  | .error e => .error e
  | .ok st => parse_expr s (s.length + 2) st

/-- What the caller of `parse_expr_str` observes: the returned integer or how the run ended. -/
def outcome (s : List Nat) (g : State) : Except Err Int :=
  match parse_expr_str s g with
  | .error e => .error e
  | .ok (v, _) => .ok v

/-! ## Specification vocabulary -/

/-- Every character of the run is white space. -/
def AllSpace (ws : List Nat) : Prop := ∀ c ∈ ws, isspace c = true

/-- Every character of the run is a decimal digit. -/
def AllDigit (ds : List Nat) : Prop := ∀ c ∈ ds, isdigit c = true

/-- The accumulator of the digit loop after the digits `ds`, from `v`. -/
def acc_uint (ds : List Nat) (v : Nat) : Nat :=
  ds.foldl (fun a c => (a * 10 + c - 48) % 4294967296) v

/-- The decimal value of a string of ASCII digits, most significant digit first. -/
def decimal (ds : List Nat) : Nat := Nat.ofDigits 10 (ds.reverse.map (fun c => c - 48))

/-- Horner evaluation without reduction. -/
def horner (ds : List Nat) (v : Nat) : Nat := ds.foldl (fun a c => a * 10 + (c - 48)) v

/-- The first character that is not white space (`0` at the terminator). -/
def first_char (rest : List Nat) : Nat := (rest.drop (skip_space rest)).headD 0

/-- The kind of the token that begins with character `c`. -/
def kind_of_first (c : Nat) : Nat :=
  if isdigit c then TOKEN_UINT else if is_name_start c then TOKEN_NAME else char_to_kind c

/-- State `st` results from a `next_token` call made when the unread input was `rest`. -/
def Lexed (buf : List Nat) (st : State) (rest : List Nat) : Prop :=
  ∃ st0 : State, st0.stream ≤ buf.length ∧ buf.drop st0.stream = rest ∧
    next_token buf st0 = .ok st

/-- The four binary operators. -/
inductive Op where
  | add | sub | mul | div
  deriving DecidableEq

/-- The character of an operator. -/
def Op.char : Op → Nat
  | .add => 43 | .sub => 45 | .mul => 42 | .div => 47

/-- The precedence tier of an operator: 2 multiplicative, 3 additive. -/
def Op.tier : Op → Nat
  | .add => 3 | .sub => 3 | .mul => 2 | .div => 2

/-- Expression trees: a literal with its decimal value, a parenthesised expression, a unary
minus, a binary operation. Which trees the grammar produces is fixed by `Renders`. -/
inductive Expr where
  | lit (n : Nat)
  | paren (e : Expr)
  | neg (e : Expr)
  | bin (op : Op) (l r : Expr)

/-- The grammar tier of the root. -/
def Expr.level : Expr → Nat
  | .lit _ => 0 | .paren _ => 0 | .neg _ => 1 | .bin op _ _ => op.tier

/-- Number of nodes. -/
def Expr.size : Expr → Nat
  | .lit _ => 1 | .paren e => e.size + 1 | .neg e => e.size + 1
  | .bin _ l r => l.size + r.size + 1

/-- Number of operators of tier `t` on the left spine. -/
def Expr.ops (t : Nat) : Expr → Nat
  | .bin op l _ => if op.tier = t then Expr.ops t l + 1 else 0
  | _ => 0

/-- Reference meaning of one binary operation on signed 32-bit values, trapping on a zero
divisor and on `-2^31 / -1`. -/
def arith (op : Op) (a b : Int) : Except Err Int :=
  match op with
  | .add => .ok (wrap32 (a + b))
  | .sub => .ok (wrap32 (a - b))
  | .mul => .ok (wrap32 (a * b))
  | .div => if b = 0 ∨ (a = -2147483648 ∧ b = -1) then .error .trap else .ok (Int.tdiv a b)

/-- Reference evaluation with the divide trap: operands are evaluated left to right and the
first trapping division ends the evaluation. -/
def Expr.eval : Expr → Except Err Int
  | .lit n => .ok (to_int32 (n % 4294967296))
  | .paren e => e.eval
  | .neg e =>
    match e.eval with
    | .ok v => .ok (wrap32 (-v))
    | .error x => .error x
  | .bin op l r =>
    match l.eval with
    | .error x => .error x
    | .ok a =>
      match r.eval with
      | .error x => .error x
      | .ok b => arith op a b

/-- The string `s` is a rendering of the tree `e` by the grammar
`uint_par = UINT | "(" expr ")"`, `un_minus = ["-"] uint_par`, a left-associated chain of
`*` `/` over `un_minus`, a left-associated chain of `+` `-` over those. White space may
precede every token. The operand of a unary minus is a primary (level 0); the left operand
of an operator is of its own tier or higher in precedence, the right operand strictly higher. -/
inductive Renders : Expr → List Nat → Prop
  | lit (ws ds : List Nat) : AllSpace ws → ds ≠ [] → AllDigit ds →
      Renders (.lit (decimal ds)) (ws ++ ds)
  | paren (w1 w2 s : List Nat) (e : Expr) : AllSpace w1 → AllSpace w2 → Renders e s →
      Renders (.paren e) (w1 ++ 40 :: (s ++ (w2 ++ [41])))
  | neg (w s : List Nat) (p : Expr) : AllSpace w → p.level = 0 → Renders p s →
      Renders (.neg p) (w ++ 45 :: s)
  | bin (op : Op) (l r : Expr) (s1 w s2 : List Nat) : AllSpace w → l.level ≤ op.tier →
      r.level < op.tier → Renders l s1 → Renders r s2 →
      Renders (.bin op l r) (s1 ++ (w ++ op.char :: s2))

/-- Signed 32-bit range. -/
def InRange (v : Int) : Prop := -2147483648 ≤ v ∧ v ≤ 2147483647

/-- Pair a value with the final state. -/
def ret (r : Except Err Int) (st : State) : Res :=
  match r with
  | .ok v => .ok (v, st)
  | .error x => .error x

/-- Continue with the value, or stop with the error. -/
def and_then (r : Except Err Int) (k : Int → Res) : Res :=
  match r with
  | .ok v => k v
  | .error x => .error x

/-- What each grammar routine does on a tree read between states `st1` and `st2`. -/
def Parsed (buf : List Nat) (n : Nat) (e : Expr) (st1 st2 : State) : Prop :=
  (e.level = 0 → parse_uint_par buf (parse_expr buf n) st1 = ret e.eval st2) ∧
  (e.level ≤ 1 → parse_un_minus buf (parse_expr buf n) st1 = ret e.eval st2) ∧
  (e.level ≤ 2 → ∀ f, parse_bin_mul_add buf (parse_expr buf n) (f + e.ops 2) st1 =
    and_then e.eval (fun v =>
      parse_bin_loop buf (parse_un_minus buf (parse_expr buf n)) [42, 47] f v st2)) ∧
  (token_is_one_of st2 [42, 47] = false → ∀ F f, e.size ≤ F →
    parse_bin buf (parse_bin_mul_add buf (parse_expr buf n) F) [43, 45] (f + e.ops 3) st1 =
    and_then e.eval (fun v =>
      parse_bin_loop buf (parse_bin_mul_add buf (parse_expr buf n) F) [43, 45] f v st2))

/-- The reference meaning of an operator on two signed 32-bit values: `+ - *` wrap, `/`
truncates toward zero. -/
def Op.apply : Op → Int → Int → Int
  | .add, a, b => wrap32 (a + b)
  | .sub, a, b => wrap32 (a - b)
  | .mul, a, b => wrap32 (a * b)
  | .div, a, b => Int.tdiv a b

/-- The value of a tree under the reference semantics: a literal is read modulo `2^32` as a
signed integer, unary minus wraps, binary operators act by `Op.apply`. -/
def Expr.value : Expr → Int
  | .lit n => to_int32 (n % 4294967296)
  | .paren e => e.value
  | .neg e => wrap32 (-e.value)
  | .bin op l r => op.apply l.value r.value

/-- No division in the tree has a zero divisor or the operands `-2^31` and `-1`. -/
def Expr.NoTrap : Expr → Prop
  | .lit _ => True
  | .paren e => e.NoTrap
  | .neg e => e.NoTrap
  | .bin op l r => l.NoTrap ∧ r.NoTrap ∧
      (op = .div → r.value ≠ 0 ∧ ¬ (l.value = -2147483648 ∧ r.value = -1))

/-- The string `E` is a rendering of the tree `e`, possibly followed by white space. -/
def Denotes (E : List Nat) (e : Expr) : Prop :=
  ∃ s ws, Renders e s ∧ AllSpace ws ∧ E = s ++ ws

/-- The string `E` is a well-formed expression of the grammar. -/
def WellFormed (E : List Nat) : Prop := ∃ e, Denotes E e

/-- The `int` read from the literal with digits `ds`. -/
def lit_val (ds : List Nat) : Int := to_int32 (decimal ds % 4294967296)

/-- A non-empty string of decimal digits. -/
def IsLiteral (ds : List Nat) : Prop := ds ≠ [] ∧ AllDigit ds

instance (ws : List Nat) : Decidable (AllSpace ws) := by
  unfold AllSpace; infer_instance

instance (ds : List Nat) : Decidable (AllDigit ds) := by
  unfold AllDigit; infer_instance

instance (ds : List Nat) : Decidable (IsLiteral ds) := by
  unfold IsLiteral; infer_instance

/-- Decision procedure for `Expr.NoTrap`. -/
def Expr.decNoTrap : (e : Expr) → Decidable e.NoTrap
  | .lit _ => isTrue trivial
  | .paren e => Expr.decNoTrap e
  | .neg e => Expr.decNoTrap e
  | .bin _ l r =>
    @instDecidableAnd _ _ (Expr.decNoTrap l)
      (@instDecidableAnd _ _ (Expr.decNoTrap r) inferInstance)

instance (e : Expr) : Decidable e.NoTrap := Expr.decNoTrap e

/-- Routine `f2` agrees with `f1` wherever `f1` does not run out of fuel. -/
def Ext (f1 f2 : State → Res) : Prop := ∀ st, f1 st ≠ .error .fuel → f2 st = f1 st

/-- Routine `f` never moves the cursor backwards nor past the position behind the
terminator. -/
def Prog (buf : List Nat) (f : State → Res) : Prop :=
  ∀ st v st1, st.stream ≤ buf.length + 1 → f st = .ok (v, st1) →
    st.stream ≤ st1.stream ∧ st1.stream ≤ buf.length + 1

/-- Routine `f` does not run out of fuel from cursors at or after `c`. -/
def Fueled (buf : List Nat) (f : State → Res) (c : Nat) : Prop :=
  ∀ st, c ≤ st.stream → st.stream ≤ buf.length + 1 → f st ≠ .error .fuel

/-- The token that `next_token` reads from the unread input `r`: its kind, its value when it
is a literal, and the number of characters consumed, leading white space included. -/
def scan_token (r : List Nat) : Nat × Option Nat × Nat :=
  let k := skip_space r
  let rest := r.drop k
  let c := rest.headD 0
  if isdigit c then (TOKEN_UINT, some (scan_uint rest 0).1, k + (scan_uint rest 0).2)
  else if is_name_start c then (TOKEN_NAME, none, k + scan_name rest)
  else (char_to_kind c, none, k + 1)

/-- The first `n` tokens of the unread input `r` (kind, and value of a literal), ending
with the terminator token. -/
def toks : Nat → List Nat → List (Nat × Option Nat)
  | 0, _ => []
  | n + 1, r =>
    ((scan_token r).1, (scan_token r).2.1) ::
      (if (scan_token r).2.2 ≤ r.length then toks n (r.drop (scan_token r).2.2) else [])

/-- Two unread inputs with the same token sequence. -/
def TokEq (r1 r2 : List Nat) : Prop := ∀ n, toks n r1 = toks n r2

/-- States of two runs, on buffers `b1` and `b2`, that the parser cannot tell apart: same
current token kind, same value if it is a literal, same tokens ahead. -/
def Sim (b1 b2 : List Nat) (s1 s2 : State) : Prop :=
  s1.token.kind = s2.token.kind ∧
  (s1.token.kind = TOKEN_UINT → s1.token.val = s2.token.val) ∧
  ((b1.length < s1.stream ∧ b2.length < s2.stream) ∨
   (s1.stream ≤ b1.length ∧ s2.stream ≤ b2.length ∧
     TokEq (b1.drop s1.stream) (b2.drop s2.stream)))

/-- Results of two runs that agree: the same error, or the same value in similar states. -/
def RelRes (b1 b2 : List Nat) (r1 r2 : Res) : Prop :=
  match r1, r2 with
  | .ok (v1, s1), .ok (v2, s2) => v1 = v2 ∧ Sim b1 b2 s1 s2
  | .error e1, .error e2 => e1 = e2
  | _, _ => False

/-- Routines of two runs that map similar states to agreeing results. -/
def SimFun (b1 b2 : List Nat) (f1 f2 : State → Res) : Prop :=
  ∀ s1 s2, Sim b1 b2 s1 s2 → RelRes b1 b2 (f1 s1) (f2 s2)

/-- The cursor after `i` successive `next_token` calls that start at cursor `c`. -/
def cursor_from (s : List Nat) : Nat → Nat → Nat
  | 0, c => c
  | i + 1, c =>
    match next_token s { State.zero with stream := c } with
    | .ok st => cursor_from s i st.stream
    | .error _ => c

/-- Position `p` of the string `s` is a token boundary: some token of `s`, read by
successive `next_token` calls from the start, has its lexeme start or end at `p`. -/
def IsTokenBoundary (s : List Nat) (p : Nat) : Prop :=
  ∃ i st, next_token s { State.zero with stream := cursor_from s i 0 } = .ok st ∧
    (p = st.token.start ∨ p = st.token.end_)

/-- The string `r` with the run `ws` inserted at position `q`. -/
def ins (r ws : List Nat) (q : Nat) : List Nat := r.take q ++ ws ++ r.drop q

/-- Every character of the run continues a name. -/
def AllName (a : List Nat) : Prop := ∀ c ∈ a, (isalnum c || c == 95) = true

/-- The first character of `y` ends a lexeme whenever the first character of `x` does. -/
def Stable (x y : List Nat) : Prop := y.headD 0 = x.headD 0 ∨ isspace (y.headD 0) = true

/-- The cursor is at or before the terminator, unless the current token is the terminator
token, in which case the cursor is one past it. -/
def Inv (buf : List Nat) (st : State) : Prop :=
  st.stream ≤ buf.length ∨ (st.token.kind = 0 ∧ st.stream = buf.length + 1)

/-- Routine `f`, started in a state satisfying `Inv`, never reads outside the buffer and
returns a state satisfying `Inv`. -/
def InBounds (buf : List Nat) (f : State → Res) : Prop :=
  ∀ st, Inv buf st → f st ≠ .error .oob ∧ ∀ v st1, f st = .ok (v, st1) → Inv buf st1

/-! ## Lexer and parser lemmas -/

theorem skip_space_append (ws t : List Nat) (h : AllSpace ws) :
    skip_space (ws ++ t) = ws.length + skip_space t := by
  induction ws with
  | nil => simp
  | cons c cs ih =>
    have hc : isspace c = true := h c (List.mem_cons_self _ _)
    have hcs : AllSpace cs := fun x hx => h x (List.mem_cons_of_mem _ hx)
    simp [skip_space, hc, ih hcs]
    omega

theorem skip_space_head (t : List Nat) (h : isspace (t.headD 0) = false) : skip_space t = 0 := by
  cases t with
  | nil => rfl
  | cons c cs => simp at h; simp [skip_space, h]

theorem skip_space_le (t : List Nat) : skip_space t ≤ t.length := by
  induction t with
  | nil => simp [skip_space]
  | cons c cs ih => simp only [skip_space]; split <;> simp; omega

theorem skip_space_stop (t : List Nat) : isspace ((t.drop (skip_space t)).headD 0) = false := by
  induction t with
  | nil => simp [skip_space, isspace]
  | cons c cs ih =>
    simp only [skip_space]
    by_cases hc : isspace c = true
    · simpa [hc] using ih
    · simp [hc]

theorem scan_uint_append (ds t : List Nat) (v : Nat) (hd : AllDigit ds)
    (ht : isdigit (t.headD 0) = false) :
    scan_uint (ds ++ t) v = (acc_uint ds v, ds.length) := by
  induction ds generalizing v with
  | nil =>
    cases t with
    | nil => simp [scan_uint, acc_uint]
    | cons c cs => simp at ht; simp [scan_uint, acc_uint, ht]
  | cons c cs ih =>
    have hc : isdigit c = true := hd c (List.mem_cons_self _ _)
    have hcs : AllDigit cs := fun x hx => hd x (List.mem_cons_of_mem _ hx)
    simp [scan_uint, hc, ih _ hcs, acc_uint]

theorem horner_eq (ds : List Nat) (v : Nat) :
    horner ds v = v * 10 ^ ds.length + decimal ds := by
  induction ds generalizing v with
  | nil => simp [horner, decimal]
  | cons c cs ih =>
    have h1 : horner (c :: cs) v = horner cs (v * 10 + (c - 48)) := rfl
    rw [h1, ih]
    simp only [decimal, List.reverse_cons, List.map_append, List.map_cons, List.map_nil,
      Nat.ofDigits_append, Nat.ofDigits_singleton, List.length_map, List.length_reverse,
      List.length_cons]
    ring

theorem acc_uint_eq (ds : List Nat) (v : Nat) (hd : AllDigit ds) :
    acc_uint ds v % 4294967296 = horner ds v % 4294967296 := by
  induction ds generalizing v with
  | nil => simp [acc_uint, horner]
  | cons c cs ih =>
    have hc : isdigit c = true := hd c (List.mem_cons_self _ _)
    have hcs : AllDigit cs := fun x hx => hd x (List.mem_cons_of_mem _ hx)
    have h1 : acc_uint (c :: cs) v = acc_uint cs ((v * 10 + c - 48) % 4294967296) := rfl
    have h2 : horner (c :: cs) v = horner cs (v * 10 + (c - 48)) := rfl
    have h3 : v * 10 + c - 48 = v * 10 + (c - 48) := by
      simp [isdigit] at hc; omega
    rw [h1, h2, ih _ hcs, h3, horner_eq, horner_eq]
    simp [Nat.add_mod, Nat.mul_mod]

theorem acc_uint_lt (ds : List Nat) (v : Nat) (hv : v < 4294967296) :
    acc_uint ds v < 4294967296 := by
  induction ds generalizing v with
  | nil => simpa [acc_uint] using hv
  | cons c cs ih =>
    have h1 : acc_uint (c :: cs) v = acc_uint cs ((v * 10 + c - 48) % 4294967296) := rfl
    rw [h1]
    exact ih _ (Nat.mod_lt _ (by norm_num))

theorem acc_uint_zero (ds : List Nat) (hd : AllDigit ds) :
    acc_uint ds 0 = decimal ds % 4294967296 := by
  have h := acc_uint_eq ds 0 hd
  rw [Nat.mod_eq_of_lt (acc_uint_lt ds 0 (by norm_num)), horner_eq] at h
  simpa using h

theorem drop_add_of_drop (buf x y : List Nat) (a : Nat) (ha : a ≤ buf.length)
    (h : buf.drop a = x ++ y) : buf.drop (a + x.length) = y ∧ a + x.length ≤ buf.length := by
  constructor
  · rw [← List.drop_drop, h]; simp
  · have := congrArg List.length h
    simp at this
    omega

theorem next_token_ok (buf : List Nat) (st : State) (h : st.stream ≤ buf.length) :
    ∃ st1, next_token buf st = .ok st1 := by
  unfold next_token
  rw [if_neg (by omega)]
  dsimp only
  split
  · exact ⟨_, rfl⟩
  · split <;> exact ⟨_, rfl⟩

theorem lexed_next (buf : List Nat) (st st1 : State) (h : st.stream ≤ buf.length)
    (hn : next_token buf st = .ok st1) : Lexed buf st1 (buf.drop st.stream) :=
  ⟨st, h, rfl, hn⟩

theorem lexed_kind (buf : List Nat) (st : State) (rest : List Nat) (h : Lexed buf st rest) :
    st.token.kind = kind_of_first (first_char rest) := by
  obtain ⟨st0, hle, hd, hn⟩ := h
  unfold next_token at hn
  rw [if_neg (by omega)] at hn
  dsimp only at hn
  rw [← List.drop_drop, hd] at hn
  unfold kind_of_first first_char
  split at hn
  · next h1 => cases hn; exact (if_pos h1).symm
  · split at hn
    · next h1 h2 => cases hn; rw [if_neg h1, if_pos h2]
    · next h1 h2 => cases hn; rw [if_neg h1, if_neg h2]

theorem first_char_append (ws t : List Nat) (h : AllSpace ws) :
    first_char (ws ++ t) = first_char t := by
  unfold first_char
  rw [skip_space_append ws t h, ← List.drop_drop]
  simp

theorem first_char_cons (c : Nat) (t : List Nat) (h : isspace c = false) :
    first_char (c :: t) = c := by
  simp [first_char, skip_space, h]

theorem first_char_nil : first_char [] = 0 := rfl

/-- A single-character token: the cursor ends right behind it. -/
theorem lexed_sym (buf : List Nat) (st : State) (ws t : List Nat) (c : Nat)
    (h : Lexed buf st (ws ++ c :: t)) (hws : AllSpace ws) (h1 : isspace c = false)
    (h2 : isdigit c = false) (h3 : is_name_start c = false) :
    st.token.kind = char_to_kind c ∧ st.stream ≤ buf.length ∧ buf.drop st.stream = t := by
  have hk := lexed_kind buf st _ h
  rw [first_char_append ws _ hws, first_char_cons c t h1] at hk
  obtain ⟨st0, hle, hd, hn⟩ := h
  have e1 : skip_space (buf.drop st0.stream) = ws.length := by
    rw [hd, skip_space_append ws _ hws, skip_space_head]
    · rfl
    · simpa using h1
  have e2 := drop_add_of_drop buf ws (c :: t) st0.stream hle hd
  have e3 := drop_add_of_drop buf [c] t (st0.stream + ws.length) e2.2 (by simpa using e2.1)
  unfold next_token at hn
  rw [if_neg (by omega)] at hn
  dsimp only at hn
  rw [e1, e2.1] at hn
  simp [h2, h3] at hn
  subst hn
  refine ⟨by simp [kind_of_first, h2, h3], ?_, ?_⟩
  · simpa using e3.2
  · simpa using e3.1

/-- An unsigned literal: kind, value and cursor. -/
theorem lexed_uint (buf : List Nat) (st : State) (ws ds t : List Nat)
    (h : Lexed buf st (ws ++ (ds ++ t))) (hws : AllSpace ws) (hne : ds ≠ [])
    (hds : AllDigit ds) (ht : isdigit (t.headD 0) = false) :
    st.token.kind = TOKEN_UINT ∧ st.token.val = decimal ds % 4294967296 ∧
      st.stream ≤ buf.length ∧ buf.drop st.stream = t := by
  obtain ⟨st0, hle, hd, hn⟩ := h
  obtain ⟨d, ds1, rfl⟩ := List.exists_cons_of_ne_nil hne
  have hdg : isdigit d = true := hds d (List.mem_cons_self _ _)
  have hsp : isspace d = false := by
    simp [isdigit] at hdg; simp [isspace]; omega
  have e1 : skip_space (buf.drop st0.stream) = ws.length := by
    rw [hd, skip_space_append ws _ hws, skip_space_head]
    · rfl
    · simpa using hsp
  have e2 := drop_add_of_drop buf ws ((d :: ds1) ++ t) st0.stream hle hd
  have e3 := drop_add_of_drop buf (d :: ds1) t (st0.stream + ws.length) e2.2 e2.1
  unfold next_token at hn
  rw [if_neg (by omega)] at hn
  dsimp only at hn
  rw [e1, e2.1, scan_uint_append _ _ _ hds ht] at hn
  simp [hdg] at hn
  subst hn
  refine ⟨rfl, ?_, ?_, ?_⟩
  · simpa using acc_uint_zero _ hds
  · simpa using e3.2
  · simpa using e3.1

theorem wrap32_range (x : Int) : InRange (wrap32 x) := by
  unfold InRange wrap32; omega

theorem to_int32_range (n : Nat) (h : n < 4294967296) : InRange (to_int32 n) := by
  unfold InRange to_int32; split <;> omega

theorem tdiv_overflow (a b : Int) (ha : InRange a) (hb : InRange b) (h0 : b ≠ 0) :
    (Int.tdiv a b < -2147483648 ∨ 2147483647 < Int.tdiv a b) ↔ (a = -2147483648 ∧ b = -1) := by
  unfold InRange at ha hb
  constructor
  · intro h
    have h1 : (Int.tdiv a b).natAbs = a.natAbs / b.natAbs := Int.natAbs_tdiv a b
    have h2 : a.natAbs / b.natAbs ≤ a.natAbs := Nat.div_le_self _ _
    have h3 : a.natAbs ≤ 2147483648 := by omega
    have h4 : (Int.tdiv a b).natAbs = 2147483648 := by omega
    have h5 : a.natAbs = 2147483648 := by omega
    have h6 : a = -2147483648 := by omega
    have h7 : b.natAbs = 1 := by
      rw [h4, h5] at h1
      have hbpos : 0 < b.natAbs := by omega
      by_contra hne
      have : 2 ≤ b.natAbs := by omega
      have : 2147483648 / b.natAbs ≤ 2147483648 / 2 := Nat.div_le_div_left this (by norm_num)
      omega
    refine ⟨h6, ?_⟩
    rcases Int.natAbs_eq b with hb1 | hb1
    · rw [h7] at hb1
      subst h6
      rw [hb1] at h
      simp at h
    · rw [h7] at hb1; exact hb1
  · rintro ⟨rfl, rfl⟩
    right; decide

theorem tdiv_range (a b : Int) (ha : InRange a) (hb : InRange b) (h0 : b ≠ 0)
    (h : ¬ (a = -2147483648 ∧ b = -1)) : InRange (Int.tdiv a b) := by
  have := (tdiv_overflow a b ha hb h0).not.mpr h
  unfold InRange; omega

theorem arith_range (op : Op) (a b v : Int) (ha : InRange a) (hb : InRange b)
    (h : arith op a b = .ok v) : InRange v := by
  cases op <;> simp only [arith] at h
  · cases h; exact wrap32_range _
  · cases h; exact wrap32_range _
  · cases h; exact wrap32_range _
  · split at h
    · cases h
    · next hc =>
      cases h
      rw [not_or] at hc
      exact tdiv_range a b ha hb hc.1 hc.2

theorem eval_range (e : Expr) (v : Int) (h : e.eval = .ok v) : InRange v := by
  induction e generalizing v with
  | lit n => simp only [Expr.eval] at h; cases h; exact to_int32_range _ (Nat.mod_lt _ (by norm_num))
  | paren e ih => exact ih v h
  | neg e ih =>
    simp only [Expr.eval] at h
    split at h
    · cases h; exact wrap32_range _
    · cases h
  | bin op l r ihl ihr =>
    simp only [Expr.eval] at h
    split at h
    · cases h
    · next a ha =>
      split at h
      · cases h
      · next b hb => exact arith_range op a b v (ihl a ha) (ihr b hb) h

theorem apply_op_arith (op : Op) (a b : Int) (ha : InRange a) (hb : InRange b) :
    apply_op (kind_to_char op.char) a b = arith op a b := by
  cases op
  · simp [apply_op, arith, kind_to_char, Op.char]
  · simp [apply_op, arith, kind_to_char, Op.char]
  · simp [apply_op, arith, kind_to_char, Op.char]
  · have hk : kind_to_char Op.div.char = 47 := by decide
    rw [hk]
    simp only [apply_op, arith]
    norm_num
    by_cases h0 : b = 0
    · simp [h0]
    · have := tdiv_overflow a b ha hb h0
      simp only [h0, if_false, false_or]
      by_cases hc : a = -2147483648 ∧ b = -1
      · rw [if_pos (this.mpr hc), if_pos hc]
      · rw [if_neg (this.not.mpr hc), if_neg hc]

theorem loop_exit (buf : List Nat) (higher : State → Res) (ops : List Nat) (f : Nat) (v : Int)
    (st : State) (h : token_is_one_of st ops = false) :
    parse_bin_loop buf higher ops (f + 1) v st = .ok (v, st) := by
  simp [parse_bin_loop, h]

theorem loop_step (buf : List Nat) (higher : State → Res) (ops : List Nat) (f : Nat) (v : Int)
    (st st1 st2 : State) (r : Except Err Int) (h : token_is_one_of st ops = true)
    (hn : next_token buf st = .ok st1) (hh : higher st1 = ret r st2) :
    parse_bin_loop buf higher ops (f + 1) v st =
      and_then r (fun rv =>
        match apply_op (kind_to_char st.token.kind) v rv with
        | .error e => .error e
        | .ok x => parse_bin_loop buf higher ops f x st2) := by
  simp only [parse_bin_loop, h, if_true, hn, hh]
  cases r <;> rfl

theorem one_of_iff (st : State) (a b : Nat) :
    token_is_one_of st [a, b] = true ↔ st.token.kind = a ∨ st.token.kind = b := by
  simp only [token_is_one_of, is_token]
  by_cases h1 : st.token.kind = a
  · simp [h1]
  · by_cases h2 : st.token.kind = b <;> simp [h1, h2]

theorem one_of_false (st : State) (a b : Nat) (h1 : st.token.kind ≠ a) (h2 : st.token.kind ≠ b) :
    token_is_one_of st [a, b] = false := by
  rw [← Bool.not_eq_true, one_of_iff]
  simp [h1, h2]

theorem ops_lt_size (t : Nat) (e : Expr) : e.ops t < e.size := by
  induction e with
  | lit n => simp [Expr.ops, Expr.size]
  | paren e ih => simp [Expr.ops, Expr.size]
  | neg e ih => simp [Expr.ops, Expr.size]
  | bin op l r ihl ihr =>
    simp only [Expr.ops, Expr.size]
    split <;> omega

theorem ops_of_level (t : Nat) (e : Expr) (h : e.level < t) : e.ops t = 0 := by
  cases e with
  | bin op l r =>
    simp only [Expr.level] at h
    simp only [Expr.ops]
    rw [if_neg (by omega)]
  | _ => rfl

theorem renders_size (e : Expr) (s : List Nat) (h : Renders e s) : e.size ≤ s.length := by
  induction h with
  | lit ws ds _ hne _ =>
    have : 0 < ds.length := List.length_pos.mpr hne
    simp [Expr.size]; omega
  | paren w1 w2 s e _ _ _ ih => simp [Expr.size]; omega
  | neg w s p _ _ _ ih => simp [Expr.size]; omega
  | bin op l r s1 w s2 _ _ _ _ _ ihl ihr => simp [Expr.size]; omega

/-- From the primary rule to the unary rule, when no minus sign is in front. -/
theorem lift_unary (buf : List Nat) (pe : State → Res) (st1 : State) (R : Res)
    (h : parse_uint_par buf pe st1 = R) (hk : st1.token.kind ≠ 45) :
    parse_un_minus buf pe st1 = R := by
  simp [parse_un_minus, is_token, hk, h]

/-- From the unary rule to the multiplicative tier. -/
theorem lift_mul (buf : List Nat) (pe : State → Res) (st1 st2 : State) (r : Except Err Int)
    (h : parse_un_minus buf pe st1 = ret r st2) (f : Nat) :
    parse_bin_mul_add buf pe f st1 =
      and_then r (fun v => parse_bin_loop buf (parse_un_minus buf pe) [42, 47] f v st2) := by
  simp only [parse_bin_mul_add, parse_bin, h]
  cases r <;> rfl

/-- A multiplicative chain followed by a token that is neither `*` nor `/`. -/
theorem mul_closed (buf : List Nat) (pe : State → Res) (st1 st2 : State) (r : Except Err Int)
    (k F : Nat)
    (h : ∀ f, parse_bin_mul_add buf pe (f + k) st1 =
      and_then r (fun v => parse_bin_loop buf (parse_un_minus buf pe) [42, 47] f v st2))
    (hx : token_is_one_of st2 [42, 47] = false) (hF : k < F) :
    parse_bin_mul_add buf pe F st1 = ret r st2 := by
  obtain ⟨f, rfl⟩ : ∃ f, F = (f + 1) + k := ⟨F - k - 1, by omega⟩
  rw [h (f + 1)]
  cases r with
  | error x => rfl
  | ok v => simp only [and_then, ret]; exact loop_exit _ _ _ _ _ _ hx

/-- From the multiplicative tier to the additive tier. -/
theorem lift_add (buf : List Nat) (higher : State → Res) (st1 st2 : State)
    (r : Except Err Int) (h : higher st1 = ret r st2) (f : Nat) :
    parse_bin buf higher [43, 45] f st1 =
      and_then r (fun v => parse_bin_loop buf higher [43, 45] f v st2) := by
  simp only [parse_bin, h]
  cases r <;> rfl

theorem kind_of_first_small (c k : Nat) (h : kind_of_first c = k) (hk : k < 128) : c = k := by
  unfold kind_of_first at h
  split at h
  · simp [TOKEN_UINT] at h; omega
  · split at h
    · simp [TOKEN_NAME] at h; omega
    · unfold char_to_kind at h; split at h <;> omega

theorem not_digit_head (w : List Nat) (c : Nat) (t : List Nat) (hw : AllSpace w)
    (hc : isdigit c = false) : isdigit ((w ++ c :: t).headD 0) = false := by
  cases w with
  | nil => simpa using hc
  | cons x xs =>
    have hx : isspace x = true := hw x (List.mem_cons_self _ _)
    simp [isspace] at hx
    simp [isdigit]
    omega

theorem parsed_of_mul (buf : List Nat) (n : Nat) (e : Expr) (st1 st2 : State)
    (hlv : e.level ≤ 2)
    (hA : e.level = 0 → parse_uint_par buf (parse_expr buf n) st1 = ret e.eval st2)
    (hB : e.level ≤ 1 → parse_un_minus buf (parse_expr buf n) st1 = ret e.eval st2)
    (hC : ∀ f, parse_bin_mul_add buf (parse_expr buf n) (f + e.ops 2) st1 =
      and_then e.eval (fun v =>
        parse_bin_loop buf (parse_un_minus buf (parse_expr buf n)) [42, 47] f v st2)) :
    Parsed buf n e st1 st2 := by
  refine ⟨hA, hB, fun _ => hC, ?_⟩
  intro hx F f hF
  have h0 : e.ops 3 = 0 := ops_of_level 3 e (by omega)
  have hlt := ops_lt_size 2 e
  rw [h0, Nat.add_zero]
  exact lift_add buf _ st1 st2 e.eval
    (mul_closed buf _ st1 st2 e.eval (e.ops 2) F hC hx (by omega)) f

theorem parsed_of_unary (buf : List Nat) (n : Nat) (e : Expr) (st1 st2 : State)
    (hlv : e.level ≤ 1)
    (hA : e.level = 0 → parse_uint_par buf (parse_expr buf n) st1 = ret e.eval st2)
    (hB : parse_un_minus buf (parse_expr buf n) st1 = ret e.eval st2) :
    Parsed buf n e st1 st2 := by
  refine parsed_of_mul buf n e st1 st2 (by omega) hA (fun _ => hB) ?_
  intro f
  rw [ops_of_level 2 e (by omega), Nat.add_zero]
  exact lift_mul buf _ st1 st2 e.eval hB f

theorem chain_step (buf : List Nat) (higher : State → Res) (ops : List Nat) (f : Nat)
    (st2l st3 st2 : State) (op : Op) (l r : Expr)
    (hone : token_is_one_of st2l ops = true) (hk : st2l.token.kind = op.char)
    (hn : next_token buf st2l = .ok st3) (hh : higher st3 = ret r.eval st2) :
    and_then l.eval (fun v => parse_bin_loop buf higher ops (f + 1) v st2l) =
      and_then (Expr.bin op l r).eval (fun v => parse_bin_loop buf higher ops f v st2) := by
  cases hl : l.eval with
  | error x => simp [and_then, Expr.eval, hl]
  | ok a =>
    simp only [and_then]
    rw [loop_step buf higher ops f a st2l st3 st2 r.eval hone hn hh]
    cases hr : r.eval with
    | error x => simp [and_then, Expr.eval, hl, hr]
    | ok b =>
      simp only [and_then, Expr.eval, hl, hr, hk,
        apply_op_arith op a b (eval_range l a hl) (eval_range r b hr)]
      cases arith op a b <;> rfl

theorem op_char_class (op : Op) :
    isspace op.char = false ∧ isdigit op.char = false ∧ is_name_start op.char = false ∧
      char_to_kind op.char = op.char := by
  cases op <;> decide

theorem op_char_tier (op : Op) :
    (op.tier = 2 → (op.char = 42 ∨ op.char = 47)) ∧
    (op.tier = 3 → (op.char = 43 ∨ op.char = 45)) ∧ (op.tier = 2 ∨ op.tier = 3) := by
  cases op <;> decide

theorem parse_uint_par_paren (buf : List Nat) (pe : State → Res) (st st1 : State)
    (hk : st.token.kind = 40) (hn : next_token buf st = .ok st1) :
    parse_uint_par buf pe st =
      match pe st1 with
      | .error e => .error e
      | .ok (val, st2) =>
        match expect_token buf st2 41 with
        | .error e => .error e
        | .ok (_, st3) => .ok (val, st3) := by
  simp [parse_uint_par, is_token, hk, match_token, hn]

theorem parse_renders (buf : List Nat) (e : Expr) (s : List Nat) (hR : Renders e s) :
    ∀ (n : Nat) (rest : List Nat) (st1 : State), e.size ≤ n →
      isdigit (rest.headD 0) = false → Lexed buf st1 (s ++ rest) →
      ∃ st2, Lexed buf st2 rest ∧ Parsed buf n e st1 st2 := by
  induction hR with
  | lit ws ds hws hne hds =>
    intro n rest st1 _ hr hL
    rw [List.append_assoc] at hL
    obtain ⟨hk, hv, hle, hdrop⟩ := lexed_uint buf st1 ws ds rest hL hws hne hds hr
    obtain ⟨st2, hn2⟩ := next_token_ok buf st1 hle
    have hL2 : Lexed buf st2 rest := hdrop ▸ lexed_next buf st1 st2 hle hn2
    have hA : parse_uint_par buf (parse_expr buf n) st1 = ret (Expr.lit (decimal ds)).eval st2 := by
      simp [parse_uint_par, is_token, hk, hn2, hv, Expr.eval, ret]
    exact ⟨st2, hL2, parsed_of_unary buf n _ st1 st2 (by simp [Expr.level]) (fun _ => hA)
      (lift_unary buf _ st1 _ hA (by rw [hk]; decide))⟩
  | paren w1 w2 s e hw1 hw2 _ ih =>
    intro n rest st1 hn hr hL
    have e1 : (w1 ++ 40 :: (s ++ (w2 ++ [41]))) ++ rest = w1 ++ 40 :: (s ++ (w2 ++ 41 :: rest)) := by
      simp
    rw [e1] at hL
    obtain ⟨hk, hle, hdrop⟩ := lexed_sym buf st1 w1 _ 40 hL hw1 (by decide) (by decide) (by decide)
    have hk40 : st1.token.kind = 40 := hk
    obtain ⟨st1a, hn1⟩ := next_token_ok buf st1 hle
    have hL1 : Lexed buf st1a (s ++ (w2 ++ 41 :: rest)) := hdrop ▸ lexed_next buf st1 st1a hle hn1
    obtain ⟨m, rfl⟩ : ∃ m, n = m + 1 := ⟨n - 1, by simp [Expr.size] at hn; omega⟩
    have hm : e.size ≤ m := by simp [Expr.size] at hn; omega
    obtain ⟨st2a, hL2a, hP⟩ := ih m (w2 ++ 41 :: rest) st1a hm
      (not_digit_head w2 41 rest hw2 (by decide)) hL1
    obtain ⟨hk2, hle2, hdrop2⟩ := lexed_sym buf st2a w2 rest 41 hL2a hw2 (by decide) (by decide)
      (by decide)
    have hk41 : st2a.token.kind = 41 := hk2
    obtain ⟨st2, hn2⟩ := next_token_ok buf st2a hle2
    have hL2 : Lexed buf st2 rest := hdrop2 ▸ lexed_next buf st2a st2 hle2 hn2
    have hops := ops_lt_size 3 e
    have hD := hP.2.2.2 (one_of_false st2a 42 47 (by omega) (by omega)) (m + 1)
      ((m - e.ops 3) + 1) (by omega)
    have hfu : (m - e.ops 3) + 1 + e.ops 3 = m + 1 := by omega
    rw [hfu] at hD
    have hpe : parse_expr buf (m + 1) st1a = ret e.eval st2a := by
      show parse_bin buf (parse_bin_mul_add buf (parse_expr buf m) (m + 1)) [43, 45] (m + 1) st1a
        = _
      rw [hD]
      cases e.eval with
      | error x => rfl
      | ok v =>
        simp only [and_then, ret]
        exact loop_exit _ _ _ _ _ _ (one_of_false st2a 43 45 (by omega) (by omega))
    have hA : parse_uint_par buf (parse_expr buf (m + 1)) st1 = ret (Expr.paren e).eval st2 := by
      rw [parse_uint_par_paren buf _ st1 st1a hk40 hn1, hpe]
      simp only [Expr.eval]
      cases e.eval with
      | error x => simp [ret]
      | ok v => simp [ret, expect_token, is_token, hk41, hn2]
    exact ⟨st2, hL2, parsed_of_unary buf _ _ st1 st2 (by simp [Expr.level]) (fun _ => hA)
      (lift_unary buf _ st1 _ hA (by omega))⟩
  | neg w s p hw hp _ ih =>
    intro n rest st1 hn hr hL
    have e1 : (w ++ 45 :: s) ++ rest = w ++ 45 :: (s ++ rest) := by simp
    rw [e1] at hL
    obtain ⟨hk, hle, hdrop⟩ := lexed_sym buf st1 w _ 45 hL hw (by decide) (by decide) (by decide)
    have hk45 : st1.token.kind = 45 := hk
    obtain ⟨st1a, hn1⟩ := next_token_ok buf st1 hle
    have hL1 : Lexed buf st1a (s ++ rest) := hdrop ▸ lexed_next buf st1 st1a hle hn1
    obtain ⟨st2, hL2, hP⟩ := ih n rest st1a (by simp [Expr.size] at hn; omega) hr hL1
    have hA := hP.1 hp
    have hB : parse_un_minus buf (parse_expr buf n) st1 = ret (Expr.neg p).eval st2 := by
      simp only [parse_un_minus, is_token, hk45, hn1, hA, Expr.eval]
      cases p.eval <;> simp [ret]
    exact ⟨st2, hL2, parsed_of_unary buf n _ st1 st2 (by simp [Expr.level])
      (fun h => by simp [Expr.level] at h) hB⟩
  | bin op l r s1 w s2 hw hl hr' _ _ ihl ihr =>
    intro n rest st1 hn hr hL
    obtain ⟨c1, c2, c3, c4⟩ := op_char_class op
    obtain ⟨t2, t3, t23⟩ := op_char_tier op
    have e1 : (s1 ++ (w ++ op.char :: s2)) ++ rest = s1 ++ (w ++ op.char :: (s2 ++ rest)) := by
      simp
    rw [e1] at hL
    have hsz : l.size ≤ n ∧ r.size ≤ n := by simp [Expr.size] at hn; omega
    obtain ⟨st2l, hLl, hPl⟩ := ihl n (w ++ op.char :: (s2 ++ rest)) st1 hsz.1
      (not_digit_head w op.char _ hw c2) hL
    obtain ⟨hk, hle, hdrop⟩ := lexed_sym buf st2l w _ op.char hLl hw c1 c2 c3
    rw [c4] at hk
    obtain ⟨st3, hn3⟩ := next_token_ok buf st2l hle
    have hL3 : Lexed buf st3 (s2 ++ rest) := hdrop ▸ lexed_next buf st2l st3 hle hn3
    obtain ⟨st2, hL2, hPr⟩ := ihr n rest st3 hsz.2 hr hL3
    refine ⟨st2, hL2, ?_⟩
    rcases t23 with ht | ht
    · -- multiplicative operator
      have hone : token_is_one_of st2l [42, 47] = true := by
        rw [one_of_iff, hk]; exact t2 ht
      have hB := hPr.2.1 (by omega)
      have hC := hPl.2.2.1 (by omega)
      refine parsed_of_mul buf n _ st1 st2 (by simp [Expr.level, ht])
        (fun h => by simp [Expr.level, ht] at h) (fun h => by simp [Expr.level, ht] at h) ?_
      intro f
      have e2 : f + (Expr.bin op l r).ops 2 = (f + 1) + l.ops 2 := by
        simp [Expr.ops, ht]; omega
      rw [e2, hC (f + 1)]
      exact chain_step buf _ _ f st2l st3 st2 op l r hone hk hn3 hB
    · -- additive operator
      have hone : token_is_one_of st2l [43, 45] = true := by
        rw [one_of_iff, hk]; exact t3 ht
      have hnot : token_is_one_of st2l [42, 47] = false := by
        apply one_of_false <;> rw [hk] <;> rcases t3 ht with h | h <;> rw [h] <;> decide
      refine ⟨fun h => by simp [Expr.level, ht] at h, fun h => by simp [Expr.level, ht] at h,
        fun h => by simp [Expr.level, ht] at h, ?_⟩
      intro hx F f hF
      have hszF : l.size ≤ F ∧ r.size ≤ F := by simp [Expr.size] at hF; omega
      have hD := hPl.2.2.2 hnot F (f + 1) hszF.1
      have hC := hPr.2.2.1 (by omega)
      have hlt := ops_lt_size 2 r
      have hcl := mul_closed buf _ st3 st2 r.eval (r.ops 2) F hC hx (by omega)
      have e2 : f + (Expr.bin op l r).ops 3 = (f + 1) + l.ops 3 := by
        simp [Expr.ops, ht]; omega
      rw [e2, hD]
      exact chain_step buf _ _ f st2l st3 st2 op l r hone hk hn3 hcl

theorem arith_apply (op : Op) (a b : Int)
    (h : op = .div → b ≠ 0 ∧ ¬ (a = -2147483648 ∧ b = -1)) :
    arith op a b = .ok (op.apply a b) := by
  cases op
  · rfl
  · rfl
  · rfl
  · obtain ⟨h4, h5⟩ := h rfl
    simp [arith, Op.apply, h4, h5]

theorem eval_of_no_trap (e : Expr) (h : e.NoTrap) : e.eval = .ok e.value := by
  induction e with
  | lit n => rfl
  | paren e ih => exact ih h
  | neg e ih => simp only [Expr.eval, ih h, Expr.value]
  | bin op l r ihl ihr =>
    obtain ⟨h1, h2, h3⟩ := h
    simp only [Expr.eval, ihl h1, ihr h2, Expr.value]
    exact arith_apply op _ _ h3

theorem allSpace_nil : AllSpace [] := fun _ h => by simp at h

theorem allSpace_append (a b : List Nat) (ha : AllSpace a) (hb : AllSpace b) :
    AllSpace (a ++ b) := by
  intro c hc
  rcases List.mem_append.mp hc with h | h
  · exact ha c h
  · exact hb c h

theorem allSpace_one : AllSpace [32] := fun c h => by
  simp at h; subst h; rfl

theorem first_char_space (ws : List Nat) (h : AllSpace ws) : first_char ws = 0 := by
  have := first_char_append ws [] h
  simpa using this

theorem head_space_not_digit (ws : List Nat) (h : AllSpace ws) :
    isdigit (ws.headD 0) = false := by
  cases ws with
  | nil => rfl
  | cons x xs =>
    have hx : isspace x = true := h x (List.mem_cons_self _ _)
    simp [isspace] at hx
    simp [isdigit]
    omega

theorem lexed_init (s : List Nat) (g : State) :
    ∃ st1, init_stream s g = .ok st1 ∧ Lexed s st1 s := by
  obtain ⟨st1, h⟩ := next_token_ok s { g with stream := 0 } (Nat.zero_le _)
  exact ⟨st1, h, ⟨{ g with stream := 0 }, Nat.zero_le _, rfl, h⟩⟩

theorem lexed_not_op (buf : List Nat) (st : State) (rest : List Nat) (k : Nat)
    (h : Lexed buf st rest) (hk : k < 128) (hc : first_char rest ≠ k) : st.token.kind ≠ k := by
  intro hx
  have := lexed_kind buf st rest h
  rw [hx] at this
  exact hc (kind_of_first_small _ k this.symm hk)

/-- A rendering followed by input whose first token is not a binary operator evaluates to
the reference value of the tree. -/
theorem outcome_renders (e : Expr) (s rest : List Nat) (g : State) (hR : Renders e s)
    (hd : isdigit (rest.headD 0) = false)
    (h1 : first_char rest ≠ 42) (h2 : first_char rest ≠ 47)
    (h3 : first_char rest ≠ 43) (h4 : first_char rest ≠ 45) :
    outcome (s ++ rest) g = e.eval := by
  obtain ⟨st1, hi, hL1⟩ := lexed_init (s ++ rest) g
  have hsz := renders_size e s hR
  obtain ⟨st2, hL2, hP⟩ := parse_renders (s ++ rest) e s hR ((s ++ rest).length + 1) rest st1
    (by simp; omega) hd hL1
  have hops := ops_lt_size 3 e
  have hD := hP.2.2.2
    (one_of_false st2 42 47 (lexed_not_op _ _ _ 42 hL2 (by decide) h1)
      (lexed_not_op _ _ _ 47 hL2 (by decide) h2))
    ((s ++ rest).length + 2) (((s ++ rest).length + 1 - e.ops 3) + 1) (by simp; omega)
  have hfu : ((s ++ rest).length + 1 - e.ops 3) + 1 + e.ops 3 = (s ++ rest).length + 2 := by
    simp; omega
  rw [hfu] at hD
  have hpe : parse_expr (s ++ rest) ((s ++ rest).length + 2) st1 = ret e.eval st2 := by
    show parse_bin (s ++ rest) (parse_bin_mul_add (s ++ rest)
      (parse_expr (s ++ rest) ((s ++ rest).length + 1)) ((s ++ rest).length + 2)) [43, 45]
      ((s ++ rest).length + 2) st1 = _
    rw [hD]
    cases e.eval with
    | error x => rfl
    | ok v =>
      simp only [and_then, ret]
      exact loop_exit _ _ _ _ _ _
        (one_of_false st2 43 45 (lexed_not_op _ _ _ 43 hL2 (by decide) h3)
          (lexed_not_op _ _ _ 45 hL2 (by decide) h4))
  unfold outcome parse_expr_str
  rw [hi]
  simp only [hpe]
  cases e.eval <;> rfl

/-- A well-formed string evaluates to the reference value of its tree. -/
theorem outcome_denotes (E : List Nat) (e : Expr) (g : State) (h : Denotes E e) :
    outcome E g = e.eval := by
  obtain ⟨s, ws, hR, hws, rfl⟩ := h
  have hf := first_char_space ws hws
  exact outcome_renders e s ws g hR (head_space_not_digit ws hws)
    (by rw [hf]; decide) (by rw [hf]; decide) (by rw [hf]; decide) (by rw [hf]; decide)

theorem renders_lit (ds : List Nat) (h : IsLiteral ds) : Renders (.lit (decimal ds)) ds := by
  simpa using Renders.lit [] ds allSpace_nil h.1 h.2

theorem renders_lit_sp (ds : List Nat) (h : IsLiteral ds) :
    Renders (.lit (decimal ds)) (32 :: ds) := by
  simpa using Renders.lit [32] ds allSpace_one h.1 h.2

theorem eval_lit (ds : List Nat) : (Expr.lit (decimal ds)).eval = .ok (lit_val ds) := rfl

theorem lit_val_range (ds : List Nat) : InRange (lit_val ds) :=
  to_int32_range _ (Nat.mod_lt _ (by norm_num))

theorem lit_val_wrap (ds : List Nat) : lit_val ds = wrap32 (decimal ds) := by
  unfold lit_val to_int32 wrap32
  split <;> omega

theorem wrap32_modEq (x : Int) : wrap32 x ≡ x [ZMOD 4294967296] := by
  unfold wrap32 Int.ModEq
  omega

theorem wrap32_congr (a b : Int) (h : a ≡ b [ZMOD 4294967296]) : wrap32 a = wrap32 b := by
  unfold Int.ModEq at h
  unfold wrap32
  omega

theorem outcome_lit_bin (op : Op) (da db : List Nat) (g : State) (ha : IsLiteral da)
    (hb : IsLiteral db) :
    outcome (da ++ [32, op.char, 32] ++ db) g = arith op (lit_val da) (lit_val db) := by
  have hR : Renders (.bin op (.lit (decimal da)) (.lit (decimal db)))
      (da ++ ([32] ++ op.char :: (32 :: db))) :=
    Renders.bin op _ _ _ [32] _ allSpace_one (by cases op <;> simp [Expr.level, Op.tier])
      (by cases op <;> simp [Expr.level, Op.tier]) (renders_lit da ha) (renders_lit_sp db hb)
  have h := outcome_denotes _ _ g ⟨_, [], hR, allSpace_nil, rfl⟩
  simpa [Expr.eval, lit_val] using h

/-- The routine `parse_expr` on a rendering followed by a token that is not a binary
operator. -/
theorem parse_expr_renders (buf : List Nat) (e : Expr) (s rest : List Nat) (m : Nat)
    (st1 : State) (hR : Renders e s) (hm : e.size ≤ m)
    (hd : isdigit (rest.headD 0) = false) (hL : Lexed buf st1 (s ++ rest))
    (h1 : first_char rest ≠ 42) (h2 : first_char rest ≠ 47)
    (h3 : first_char rest ≠ 43) (h4 : first_char rest ≠ 45) :
    ∃ st2, Lexed buf st2 rest ∧ parse_expr buf (m + 1) st1 = ret e.eval st2 := by
  obtain ⟨st2, hL2, hP⟩ := parse_renders buf e s hR m rest st1 hm hd hL
  refine ⟨st2, hL2, ?_⟩
  have hops := ops_lt_size 3 e
  have hD := hP.2.2.2
    (one_of_false st2 42 47 (lexed_not_op _ _ _ 42 hL2 (by decide) h1)
      (lexed_not_op _ _ _ 47 hL2 (by decide) h2))
    (m + 1) ((m - e.ops 3) + 1) (by omega)
  have hfu : (m - e.ops 3) + 1 + e.ops 3 = m + 1 := by omega
  rw [hfu] at hD
  show parse_bin buf (parse_bin_mul_add buf (parse_expr buf m) (m + 1)) [43, 45] (m + 1) st1 = _
  rw [hD]
  cases e.eval with
  | error x => rfl
  | ok v =>
    simp only [and_then, ret]
    exact loop_exit _ _ _ _ _ _
      (one_of_false st2 43 45 (lexed_not_op _ _ _ 43 hL2 (by decide) h3)
        (lexed_not_op _ _ _ 45 hL2 (by decide) h4))

theorem denotes_paren (E : List Nat) (e : Expr) (h : Denotes E e) :
    Denotes (40 :: (E ++ [41])) (.paren e) := by
  obtain ⟨s, ws, hR, hws, rfl⟩ := h
  exact ⟨_, [], Renders.paren [] ws s e allSpace_nil hws hR, allSpace_nil, by simp⟩

theorem denotes_parens (k : Nat) (E : List Nat) (e : Expr) (h : Denotes E e) :
    ∃ e1, Denotes (List.replicate k 40 ++ E ++ List.replicate k 41) e1 ∧ e1.eval = e.eval := by
  induction k with
  | zero => exact ⟨e, by simpa using h, rfl⟩
  | succ k ih =>
    obtain ⟨e1, h1, h2⟩ := ih
    refine ⟨.paren e1, ?_, h2⟩
    have := denotes_paren _ e1 h1
    rw [List.replicate_succ, List.replicate_succ']
    simpa using this

/-- A token that starts no primary and is no minus sign makes `parse_expr` abort. -/
theorem parse_expr_abort (buf : List Nat) (n : Nat) (st : State)
    (h1 : st.token.kind ≠ 128) (h2 : st.token.kind ≠ 40) (h3 : st.token.kind ≠ 45) :
    parse_expr buf (n + 1) st = .error .abort := by
  have hA : parse_uint_par buf (parse_expr buf n) st = .error .abort := by
    simp [parse_uint_par, is_token, match_token, h1, h2]
  have hB := lift_unary buf _ st _ hA h3
  show parse_bin buf (parse_bin_mul_add buf (parse_expr buf n) (n + 1)) [43, 45] (n + 1) st = _
  simp [parse_bin, parse_bin_mul_add, hB]

theorem outcome_blank (ws : List Nat) (g : State) (h : AllSpace ws) :
    outcome ws g = .error .abort := by
  obtain ⟨st1, hi, hL1⟩ := lexed_init ws g
  have hf := first_char_space ws h
  have hk := lexed_kind ws st1 ws hL1
  rw [hf] at hk
  have hk0 : st1.token.kind = 0 := hk
  unfold outcome parse_expr_str
  rw [hi]
  simp only []
  rw [parse_expr_abort ws _ st1 (by omega) (by omega) (by omega)]

/-- An opening parenthesis, a well-formed expression and then the end of the input. -/
theorem outcome_unclosed (E : List Nat) (e : Expr) (g : State) (h : Denotes E e) :
    outcome (40 :: E) g =
      match e.eval with
      | .ok _ => .error .abort
      | .error x => .error x := by
  obtain ⟨s, ws, hR, hws, rfl⟩ := h
  obtain ⟨st1, hi, hL1⟩ := lexed_init (40 :: (s ++ ws)) g
  have hL1' : Lexed (40 :: (s ++ ws)) st1 ([] ++ 40 :: (s ++ ws)) := hL1
  obtain ⟨hk, hle, hdrop⟩ := lexed_sym _ st1 [] _ 40 hL1' allSpace_nil (by decide) (by decide)
    (by decide)
  have hk40 : st1.token.kind = 40 := hk
  obtain ⟨st1a, hn1⟩ := next_token_ok _ st1 hle
  have hL1a : Lexed (40 :: (s ++ ws)) st1a (s ++ ws) := by
    have := lexed_next _ st1 st1a hle hn1
    rw [hdrop] at this
    exact this
  have hsz := renders_size e s hR
  have hf := first_char_space ws hws
  obtain ⟨st2, hL2, hpe⟩ := parse_expr_renders (40 :: (s ++ ws)) e s ws
    ((40 :: (s ++ ws)).length) st1a hR (by simp; omega) (head_space_not_digit ws hws) hL1a
    (by rw [hf]; decide) (by rw [hf]; decide) (by rw [hf]; decide) (by rw [hf]; decide)
  have hk2 := lexed_kind _ st2 ws hL2
  rw [hf] at hk2
  have hk0 : st2.token.kind = 0 := hk2
  have hA : parse_uint_par (40 :: (s ++ ws))
      (parse_expr (40 :: (s ++ ws)) ((40 :: (s ++ ws)).length + 1)) st1 =
      match e.eval with
      | .ok _ => .error .abort
      | .error x => .error x := by
    rw [parse_uint_par_paren _ _ st1 st1a hk40 hn1, hpe]
    cases e.eval with
    | error x => simp [ret]
    | ok v => simp [ret, expect_token, is_token, hk0]
  have hB := lift_unary _ _ st1 _ hA (by omega)
  unfold outcome parse_expr_str
  rw [hi]
  simp only []
  have hC : parse_expr (40 :: (s ++ ws)) ((40 :: (s ++ ws)).length + 2) st1 =
      match e.eval with
      | .ok _ => .error .abort
      | .error x => .error x := by
    show parse_bin _ (parse_bin_mul_add _ (parse_expr _ ((40 :: (s ++ ws)).length + 1)) _)
      [43, 45] _ st1 = _
    simp only [parse_bin, parse_bin_mul_add, hB]
    cases e.eval <;> rfl
  rw [hC]
  cases e.eval <;> rfl

theorem next_token_literal (d : List Nat) (st : State) (h : IsLiteral d) (hs : st.stream = 0) :
    next_token d st = .ok
      { token := { kind := TOKEN_UINT, start := 0, end_ := d.length,
                   val := decimal d % 4294967296 },
        stream := d.length } := by
  obtain ⟨hne, hds⟩ := h
  obtain ⟨c, cs, rfl⟩ := List.exists_cons_of_ne_nil hne
  have hdg : isdigit c = true := hds c (List.mem_cons_self _ _)
  have hsp : isspace c = false := by
    simp [isdigit] at hdg; simp [isspace]; omega
  have hsc := scan_uint_append (c :: cs) [] 0 hds rfl
  rw [List.append_nil] at hsc
  have hk : skip_space (c :: cs) = 0 := by simp [skip_space, hsp]
  unfold next_token
  rw [hs, if_neg (by simp)]
  simp only [List.drop_zero, Nat.zero_add]
  rw [hk]
  simp only [List.drop_zero, List.headD_cons, hdg, if_true, hsc, Nat.zero_add,
    acc_uint_zero _ hds]

theorem level_lit (n : Nat) (op : Op) : (Expr.lit n).level ≤ op.tier ∧ (Expr.lit n).level < op.tier := by
  cases op <;> simp [Expr.level, Op.tier]

theorem outcome_sub_sub (da db dc : List Nat) (g : State) (ha : IsLiteral da)
    (hb : IsLiteral db) (hc : IsLiteral dc) :
    outcome (da ++ [32, 45, 32] ++ db ++ [32, 45, 32] ++ dc) g
      = .ok (wrap32 (wrap32 (lit_val da - lit_val db) - lit_val dc)) := by
  have hR : Renders (.bin .sub (.bin .sub (.lit (decimal da)) (.lit (decimal db)))
      (.lit (decimal dc))) ((da ++ ([32] ++ 45 :: (32 :: db))) ++ ([32] ++ 45 :: (32 :: dc))) :=
    Renders.bin .sub _ _ _ [32] _ allSpace_one (by simp [Expr.level, Op.tier]) (by simp [Expr.level, Op.tier])
      (Renders.bin .sub _ _ _ [32] _ allSpace_one (by simp [Expr.level, Op.tier]) (by simp [Expr.level, Op.tier])
        (renders_lit da ha) (renders_lit_sp db hb))
      (renders_lit_sp dc hc)
  have h := outcome_denotes _ _ g ⟨_, [], hR, allSpace_nil, rfl⟩
  simpa [Expr.eval, arith, lit_val] using h

theorem outcome_add_mul (da db dc : List Nat) (g : State) (ha : IsLiteral da)
    (hb : IsLiteral db) (hc : IsLiteral dc) :
    outcome (da ++ [32, 43, 32] ++ db ++ [32, 42, 32] ++ dc) g
      = .ok (wrap32 (lit_val da + wrap32 (lit_val db * lit_val dc))) := by
  have hR : Renders (.bin .add (.lit (decimal da))
      (.bin .mul (.lit (decimal db)) (.lit (decimal dc))))
      (da ++ ([32] ++ 43 :: ((32 :: db) ++ ([32] ++ 42 :: (32 :: dc))))) :=
    Renders.bin .add _ _ _ [32] _ allSpace_one (by simp [Expr.level, Op.tier]) (by simp [Expr.level, Op.tier])
      (renders_lit da ha)
      (Renders.bin .mul _ _ _ [32] _ allSpace_one (by simp [Expr.level, Op.tier]) (by simp [Expr.level, Op.tier])
        (renders_lit_sp db hb) (renders_lit_sp dc hc))
  have h := outcome_denotes _ _ g ⟨_, [], hR, allSpace_nil, rfl⟩
  simpa [Expr.eval, arith, lit_val] using h

theorem outcome_mul_add_mul (da db dc dd : List Nat) (g : State) (ha : IsLiteral da)
    (hb : IsLiteral db) (hc : IsLiteral dc) (hd : IsLiteral dd) :
    outcome (da ++ [32, 42, 32] ++ db ++ [32, 43, 32] ++ dc ++ [32, 42, 32] ++ dd) g
      = .ok (wrap32 (wrap32 (lit_val da * lit_val db) + wrap32 (lit_val dc * lit_val dd))) := by
  have hR : Renders (.bin .add (.bin .mul (.lit (decimal da)) (.lit (decimal db)))
      (.bin .mul (.lit (decimal dc)) (.lit (decimal dd))))
      ((da ++ ([32] ++ 42 :: (32 :: db))) ++
        ([32] ++ 43 :: ((32 :: dc) ++ ([32] ++ 42 :: (32 :: dd))))) :=
    Renders.bin .add _ _ _ [32] _ allSpace_one (by simp [Expr.level, Op.tier]) (by simp [Expr.level, Op.tier])
      (Renders.bin .mul _ _ _ [32] _ allSpace_one (by simp [Expr.level, Op.tier]) (by simp [Expr.level, Op.tier])
        (renders_lit da ha) (renders_lit_sp db hb))
      (Renders.bin .mul _ _ _ [32] _ allSpace_one (by simp [Expr.level, Op.tier]) (by simp [Expr.level, Op.tier])
        (renders_lit_sp dc hc) (renders_lit_sp dd hd))
  have h := outcome_denotes _ _ g ⟨_, [], hR, allSpace_nil, rfl⟩
  simpa [Expr.eval, arith, lit_val] using h

theorem outcome_bin_neg (op : Op) (da db : List Nat) (g : State) (ha : IsLiteral da)
    (hb : IsLiteral db) :
    outcome (da ++ [32, op.char, 32, 45] ++ db) g
      = arith op (lit_val da) (wrap32 (-(lit_val db))) := by
  have hR : Renders (.bin op (.lit (decimal da)) (.neg (.lit (decimal db))))
      (da ++ ([32] ++ op.char :: ([32] ++ 45 :: db))) :=
    Renders.bin op _ _ _ [32] _ allSpace_one (level_lit _ op).1
      (by cases op <;> simp [Expr.level, Op.tier]) (renders_lit da ha)
      (Renders.neg [32] _ _ allSpace_one rfl (renders_lit db hb))
  have h := outcome_denotes _ _ g ⟨_, [], hR, allSpace_nil, rfl⟩
  simpa [Expr.eval, lit_val] using h

theorem outcome_neg_lit (da : List Nat) (g : State) (ha : IsLiteral da) :
    outcome (45 :: da) g = .ok (wrap32 (-(lit_val da))) := by
  have hR : Renders (.neg (.lit (decimal da))) ([] ++ 45 :: da) :=
    Renders.neg [] _ _ allSpace_nil rfl (renders_lit da ha)
  have h := outcome_denotes _ _ g ⟨_, [], hR, allSpace_nil, rfl⟩
  simpa [Expr.eval, lit_val] using h

theorem outcome_literal (d : List Nat) (g : State) (h : IsLiteral d) :
    outcome d g = .ok (lit_val d) := by
  have h := outcome_denotes _ _ g ⟨_, [], renders_lit d h, allSpace_nil, rfl⟩
  simpa [Expr.eval, lit_val] using h

theorem eval_error_trap (e : Expr) (x : Err) (h : e.eval = .error x) : x = .trap := by
  induction e with
  | lit n => simp [Expr.eval] at h
  | paren e ih => exact ih h
  | neg e ih =>
    simp only [Expr.eval] at h
    split at h
    · cases h
    · next y hy => cases h; exact ih hy
  | bin op l r ihl ihr =>
    simp only [Expr.eval] at h
    split at h
    · next y hy => cases h; exact ihl hy
    · split at h
      · next y hy => cases h; exact ihr hy
      · cases op <;> simp only [arith] at h
        · cases h
        · cases h
        · cases h
        · split at h
          · cases h; rfl
          · cases h

theorem outcome_trailing (E t : List Nat) (e : Expr) (g : State) (h : Denotes E e)
    (h1 : first_char t ≠ 42) (h2 : first_char t ≠ 47)
    (h3 : first_char t ≠ 43) (h4 : first_char t ≠ 45) :
    outcome (E ++ [32] ++ t) g = e.eval := by
  obtain ⟨s, ws, hR, hws, rfl⟩ := h
  have hsp : AllSpace (ws ++ [32]) := allSpace_append _ _ hws allSpace_one
  have hf : first_char ((ws ++ [32]) ++ t) = first_char t := first_char_append _ t hsp
  have hd : isdigit (((ws ++ [32]) ++ t).headD 0) = false := by
    have := not_digit_head ws 32 t hws (by decide)
    simpa using this
  have := outcome_renders e s ((ws ++ [32]) ++ t) g hR hd (by rw [hf]; exact h1)
    (by rw [hf]; exact h2) (by rw [hf]; exact h3) (by rw [hf]; exact h4)
  simpa using this

/-! ## Fuel: more is harmless, `length + 2` is enough -/

theorem ext_uint_par (buf : List Nat) (pe1 pe2 : State → Res) (h : Ext pe1 pe2) :
    Ext (parse_uint_par buf pe1) (parse_uint_par buf pe2) := by
  intro st hne
  unfold parse_uint_par at hne ⊢
  split
  · rfl
  · cases hm : match_token buf st 40 with
    | error e => rfl
    | ok p =>
      obtain ⟨b, st1⟩ := p
      cases b with
      | false => rfl
      | true =>
        simp only [hm, if_neg (by assumption : ¬ _)] at hne
        have hx : pe1 st1 ≠ .error .fuel := by
          intro hf; rw [hf] at hne; exact hne rfl
        simp only [h st1 hx]

theorem ext_un_minus (buf : List Nat) (pe1 pe2 : State → Res) (h : Ext pe1 pe2) :
    Ext (parse_un_minus buf pe1) (parse_un_minus buf pe2) := by
  intro st hne
  have hu := ext_uint_par buf pe1 pe2 h
  unfold parse_un_minus at hne ⊢
  split
  · next hk =>
    rw [if_pos hk] at hne
    cases hn : next_token buf st with
    | error e => rfl
    | ok st1 =>
      simp only [hn] at hne ⊢
      have hx : parse_uint_par buf pe1 st1 ≠ .error .fuel := by
        intro hf; rw [hf] at hne; exact hne rfl
      rw [hu st1 hx]
  · next hk =>
    rw [if_neg hk] at hne
    exact hu st hne

theorem ext_loop (buf : List Nat) (h1 h2 : State → Res) (ops : List Nat) (h : Ext h1 h2) :
    ∀ (f1 f2 : Nat) (v : Int) (st : State), f1 ≤ f2 →
      parse_bin_loop buf h1 ops f1 v st ≠ .error .fuel →
      parse_bin_loop buf h2 ops f2 v st = parse_bin_loop buf h1 ops f1 v st := by
  intro f1
  induction f1 with
  | zero => intro f2 v st _ hne; exact absurd rfl hne
  | succ f1 ih =>
    intro f2 v st hle hne
    obtain ⟨f2, rfl⟩ : ∃ k, f2 = k + 1 := ⟨f2 - 1, by omega⟩
    simp only [parse_bin_loop] at hne ⊢
    split
    · next hk =>
      rw [if_pos hk] at hne
      cases hn : next_token buf st with
      | error e => rfl
      | ok st1 =>
        simp only [hn] at hne ⊢
        have hx : h1 st1 ≠ .error .fuel := by
          intro hf; rw [hf] at hne; exact hne rfl
        rw [h st1 hx]
        cases hh : h1 st1 with
        | error e => rfl
        | ok p =>
          obtain ⟨rv, st2⟩ := p
          simp only [hh] at hne ⊢
          cases ha : apply_op (kind_to_char st.token.kind) v rv with
          | error e => rfl
          | ok x =>
            simp only [ha] at hne ⊢
            exact ih f2 x st2 (by omega) hne
    · rfl

theorem ext_bin (buf : List Nat) (h1 h2 : State → Res) (ops : List Nat) (f1 f2 : Nat)
    (h : Ext h1 h2) (hle : f1 ≤ f2) :
    Ext (parse_bin buf h1 ops f1) (parse_bin buf h2 ops f2) := by
  intro st hne
  unfold parse_bin at hne ⊢
  have hx : h1 st ≠ .error .fuel := by
    intro hf; rw [hf] at hne; exact hne rfl
  rw [h st hx]
  cases hh : h1 st with
  | error e => rfl
  | ok p =>
    obtain ⟨v, st1⟩ := p
    simp only [hh] at hne ⊢
    exact ext_loop buf h1 h2 ops h f1 f2 v st1 hle hne

theorem ext_parse_expr (buf : List Nat) (n : Nat) :
    Ext (parse_expr buf n) (parse_expr buf (n + 1)) := by
  induction n with
  | zero => intro st hne; exact absurd rfl hne
  | succ n ih =>
    exact ext_bin buf _ _ [43, 45] (n + 1) (n + 2)
      (ext_bin buf _ _ [42, 47] (n + 1) (n + 2) (ext_un_minus buf _ _ ih) (by omega))
      (by omega)

theorem parse_expr_more_fuel (buf : List Nat) (n k : Nat) (st : State)
    (h : parse_expr buf n st ≠ .error .fuel) :
    parse_expr buf (n + k) st = parse_expr buf n st := by
  induction k with
  | zero => rfl
  | succ k ih =>
    have := ext_parse_expr buf (n + k) st (by rw [ih]; exact h)
    rw [← ih, ← this]
    rfl

theorem scan_uint_le (r : List Nat) (v : Nat) : (scan_uint r v).2 ≤ r.length := by
  induction r generalizing v with
  | nil => simp [scan_uint]
  | cons c cs ih =>
    simp only [scan_uint]
    split
    · have := ih ((v * 10 + c - 48) % 4294967296)
      simp only [List.length_cons]; omega
    · simp

theorem scan_uint_pos (r : List Nat) (v : Nat) (h : isdigit (r.headD 0) = true) :
    1 ≤ (scan_uint r v).2 := by
  cases r with
  | nil => simp [isdigit] at h
  | cons c cs =>
    simp only [List.headD_cons] at h
    simp [scan_uint, h]

theorem scan_name_le (r : List Nat) : scan_name r ≤ r.length := by
  induction r with
  | nil => simp [scan_name]
  | cons c cs ih =>
    simp only [scan_name]
    split
    · simp only [List.length_cons]; omega
    · simp

theorem scan_name_pos (r : List Nat) (h : is_name_start (r.headD 0) = true) :
    1 ≤ scan_name r := by
  cases r with
  | nil => simp [is_name_start] at h
  | cons c cs =>
    simp only [List.headD_cons] at h
    have : (isalnum c || c == 95) = true := by
      simp only [is_name_start, isalnum, isdigit, Bool.or_eq_true, Bool.and_eq_true,
        decide_eq_true_eq, beq_iff_eq] at h ⊢
      omega
    simp [scan_name, this]

/-- Every successful `next_token` moves the cursor forward, at most to the position behind
the terminator. -/
theorem next_token_stream (buf : List Nat) (st st1 : State) (h : next_token buf st = .ok st1) :
    st.stream < st1.stream ∧ st1.stream ≤ buf.length + 1 ∧ st.stream ≤ buf.length := by
  unfold next_token at h
  split at h
  · cases h
  · next hle =>
    have hk := skip_space_le (buf.drop st.stream)
    rw [List.length_drop] at hk
    dsimp only at h
    split at h
    · next hd =>
      have h1 := scan_uint_pos _ 0 hd
      have h2 := scan_uint_le (List.drop (st.stream + skip_space (List.drop st.stream buf)) buf) 0
      rw [List.length_drop] at h2
      cases h
      dsimp only
      omega
    · split at h
      · next hd hn =>
        have h1 := scan_name_pos _ hn
        have h2 := scan_name_le (List.drop (st.stream + skip_space (List.drop st.stream buf)) buf)
        rw [List.length_drop] at h2
        cases h
        dsimp only
        omega
      · cases h
        dsimp only
        omega

theorem match_token_true (buf : List Nat) (st st1 : State) (k : Nat)
    (h : match_token buf st k = .ok (true, st1)) :
    st.token.kind = k ∧ next_token buf st = .ok st1 := by
  unfold match_token at h
  split at h
  · next hk =>
    cases hn : next_token buf st with
    | error e => simp [hn] at h
    | ok st2 =>
      simp only [hn] at h
      cases h
      exact ⟨by simpa [is_token] using hk, rfl⟩
  · cases h

theorem expect_token_ok (buf : List Nat) (st st1 : State) (k : Nat) (b : Bool)
    (h : expect_token buf st k = .ok (b, st1)) :
    st.token.kind = k ∧ next_token buf st = .ok st1 := by
  unfold expect_token at h
  split at h
  · next hk =>
    cases hn : next_token buf st with
    | error e => simp [hn] at h
    | ok st2 =>
      simp only [hn] at h
      cases h
      exact ⟨by simpa [is_token] using hk, rfl⟩
  · cases h

theorem prog_uint_par (buf : List Nat) (pe : State → Res) (h : Prog buf pe) :
    Prog buf (parse_uint_par buf pe) := by
  intro st v st3 hst hr
  unfold parse_uint_par at hr
  split at hr
  · cases hn : next_token buf st with
    | error e => simp [hn] at hr
    | ok st1 =>
      simp only [hn] at hr
      cases hr
      have := next_token_stream buf st _ hn
      omega
  · cases hm : match_token buf st 40 with
    | error e => simp [hm] at hr
    | ok p =>
      obtain ⟨b, st1⟩ := p
      cases b with
      | false => simp [hm] at hr
      | true =>
        simp only [hm] at hr
        have h1 := next_token_stream buf st st1 (match_token_true buf st st1 40 hm).2
        cases hp : pe st1 with
        | error e => simp [hp] at hr
        | ok p =>
          obtain ⟨val, st2⟩ := p
          simp only [hp] at hr
          have h2 := h st1 val st2 (by omega) hp
          cases he : expect_token buf st2 41 with
          | error e => simp [he] at hr
          | ok q =>
            obtain ⟨b2, st3a⟩ := q
            simp only [he] at hr
            cases hr
            have := next_token_stream buf st2 _ (expect_token_ok buf st2 _ 41 b2 he).2
            omega

theorem prog_un_minus (buf : List Nat) (pe : State → Res) (h : Prog buf pe) :
    Prog buf (parse_un_minus buf pe) := by
  intro st v st3 hst hr
  have hu := prog_uint_par buf pe h
  unfold parse_un_minus at hr
  split at hr
  · cases hn : next_token buf st with
    | error e => simp [hn] at hr
    | ok st1 =>
      simp only [hn] at hr
      have h1 := next_token_stream buf st st1 hn
      cases hp : parse_uint_par buf pe st1 with
      | error e => simp [hp] at hr
      | ok p =>
        obtain ⟨val, st2⟩ := p
        simp only [hp] at hr
        cases hr
        have := hu st1 val _ (by omega) hp
        omega
  · exact hu st v st3 hst hr

theorem prog_loop (buf : List Nat) (higher : State → Res) (ops : List Nat)
    (h : Prog buf higher) :
    ∀ (f : Nat) (v : Int) (st : State) (v1 : Int) (st1 : State),
      st.stream ≤ buf.length + 1 → parse_bin_loop buf higher ops f v st = .ok (v1, st1) →
      st.stream ≤ st1.stream ∧ st1.stream ≤ buf.length + 1 := by
  intro f
  induction f with
  | zero => intro v st v1 st1 _ hr; simp [parse_bin_loop] at hr
  | succ f ih =>
    intro v st v1 st1 hst hr
    simp only [parse_bin_loop] at hr
    split at hr
    · cases hn : next_token buf st with
      | error e => simp [hn] at hr
      | ok st2 =>
        simp only [hn] at hr
        have h1 := next_token_stream buf st st2 hn
        cases hp : higher st2 with
        | error e => simp [hp] at hr
        | ok p =>
          obtain ⟨rv, st3⟩ := p
          simp only [hp] at hr
          have h2 := h st2 rv st3 (by omega) hp
          cases ha : apply_op (kind_to_char st.token.kind) v rv with
          | error e => simp [ha] at hr
          | ok x =>
            simp only [ha] at hr
            have := ih x st3 v1 st1 (by omega) hr
            omega
    · cases hr
      omega

theorem prog_bin (buf : List Nat) (higher : State → Res) (ops : List Nat) (f : Nat)
    (h : Prog buf higher) : Prog buf (parse_bin buf higher ops f) := by
  intro st v st2 hst hr
  unfold parse_bin at hr
  cases hp : higher st with
  | error e => simp [hp] at hr
  | ok p =>
    obtain ⟨v0, st1⟩ := p
    simp only [hp] at hr
    have h1 := h st v0 st1 hst hp
    have := prog_loop buf higher ops h f v0 st1 v st2 (by omega) hr
    omega

theorem prog_parse_expr (buf : List Nat) (n : Nat) : Prog buf (parse_expr buf n) := by
  induction n with
  | zero => intro st v st1 _ hr; simp [parse_expr] at hr
  | succ n ih =>
    exact prog_bin buf _ [43, 45] (n + 1)
      (prog_bin buf _ [42, 47] (n + 1) (prog_un_minus buf _ ih))

theorem next_token_error (buf : List Nat) (st : State) (e : Err)
    (h : next_token buf st = .error e) : e = .oob ∧ buf.length < st.stream := by
  unfold next_token at h
  split at h
  · next hlt => cases h; exact ⟨rfl, hlt⟩
  · dsimp only at h
    split at h
    · cases h
    · split at h <;> cases h

theorem apply_op_error (op l r : Int) (e : Err) (h : apply_op op l r = .error e) :
    e = .trap := by
  unfold apply_op at h
  split at h
  · cases h
  · split at h
    · cases h
    · split at h
      · cases h
      · split at h
        · cases h; rfl
        · split at h
          · cases h; rfl
          · cases h

theorem fueled_mono (buf : List Nat) (f : State → Res) (c c1 : Nat) (h : Fueled buf f c)
    (hc : c ≤ c1) : Fueled buf f c1 :=
  fun st h1 h2 => h st (by omega) h2

theorem fueled_uint_par (buf : List Nat) (pe : State → Res) (c : Nat)
    (h : Fueled buf pe (c + 1)) : Fueled buf (parse_uint_par buf pe) c := by
  intro st hc hst hr
  unfold parse_uint_par at hr
  split at hr
  · cases hn : next_token buf st with
    | error e =>
      simp only [hn] at hr
      have := (next_token_error buf st e hn).1
      cases hr
      cases this
    | ok st1 => simp [hn] at hr
  · cases hm : match_token buf st 40 with
    | error e =>
      simp only [hm] at hr
      cases hr
      unfold match_token at hm
      split at hm
      · cases hn : next_token buf st with
        | error e =>
          have := (next_token_error buf st e hn).1
          simp only [hn] at hm
          cases hm
          cases this
        | ok st1 => simp [hn] at hm
      · cases hm
    | ok p =>
      obtain ⟨b, st1⟩ := p
      cases b with
      | false => simp [hm] at hr
      | true =>
        simp only [hm] at hr
        have h1 := next_token_stream buf st st1 (match_token_true buf st st1 40 hm).2
        have hx := h st1 (by omega) (by omega)
        cases hp : pe st1 with
        | error e =>
          simp only [hp] at hr
          cases hr
          exact hx hp
        | ok q =>
          obtain ⟨val, st2⟩ := q
          simp only [hp] at hr
          cases he : expect_token buf st2 41 with
          | error e =>
            simp only [he] at hr
            cases hr
            unfold expect_token at he
            split at he
            · cases hn : next_token buf st2 with
              | error e =>
                have := (next_token_error buf st2 e hn).1
                simp only [hn] at he
                cases he
                cases this
              | ok st3 => simp [hn] at he
            · cases he
          | ok q2 => simp [he] at hr

theorem fueled_un_minus (buf : List Nat) (pe : State → Res) (c : Nat)
    (h : Fueled buf pe (c + 1)) : Fueled buf (parse_un_minus buf pe) c := by
  intro st hc hst hr
  have hu := fueled_uint_par buf pe c h
  unfold parse_un_minus at hr
  split at hr
  · cases hn : next_token buf st with
    | error e =>
      simp only [hn] at hr
      have := (next_token_error buf st e hn).1
      cases hr
      cases this
    | ok st1 =>
      simp only [hn] at hr
      have h1 := next_token_stream buf st st1 hn
      cases hp : parse_uint_par buf pe st1 with
      | error e =>
        simp only [hp] at hr
        cases hr
        exact hu st1 (by omega) (by omega) hp
      | ok q => simp [hp] at hr
  · exact hu st hc hst hr

theorem fueled_loop (buf : List Nat) (higher : State → Res) (ops : List Nat) (c : Nat)
    (hp : Prog buf higher) (h : Fueled buf higher (c + 1)) :
    ∀ (f : Nat) (v : Int) (st : State), c ≤ st.stream → st.stream ≤ buf.length + 1 →
      buf.length + 2 ≤ f + st.stream → parse_bin_loop buf higher ops f v st ≠ .error .fuel := by
  intro f
  induction f with
  | zero => intro v st _ h2 h3; omega
  | succ f ih =>
    intro v st h1 h2 h3 hr
    simp only [parse_bin_loop] at hr
    split at hr
    · cases hn : next_token buf st with
      | error e =>
        simp only [hn] at hr
        have := (next_token_error buf st e hn).1
        cases hr
        cases this
      | ok st1 =>
        simp only [hn] at hr
        have hs := next_token_stream buf st st1 hn
        cases hh : higher st1 with
        | error e =>
          simp only [hh] at hr
          cases hr
          exact h st1 (by omega) (by omega) hh
        | ok q =>
          obtain ⟨rv, st2⟩ := q
          simp only [hh] at hr
          have hs2 := hp st1 rv st2 (by omega) hh
          cases ha : apply_op (kind_to_char st.token.kind) v rv with
          | error e =>
            simp only [ha] at hr
            have := apply_op_error _ _ _ e ha
            cases hr
            cases this
          | ok x =>
            simp only [ha] at hr
            exact ih x st2 (by omega) (by omega) (by omega) hr
    · cases hr

theorem fueled_bin (buf : List Nat) (higher : State → Res) (ops : List Nat) (c f : Nat)
    (hp : Prog buf higher) (h : Fueled buf higher c) (hf : buf.length + 2 ≤ f + c) :
    Fueled buf (parse_bin buf higher ops f) c := by
  intro st h1 h2 hr
  unfold parse_bin at hr
  cases hh : higher st with
  | error e =>
    simp only [hh] at hr
    cases hr
    exact h st h1 h2 hh
  | ok q =>
    obtain ⟨v, st1⟩ := q
    simp only [hh] at hr
    have hs := hp st v st1 h2 hh
    exact fueled_loop buf higher ops c hp (fueled_mono buf higher c (c + 1) h (by omega)) f v
      st1 (by omega) (by omega) (by omega) hr

theorem fueled_parse_expr (buf : List Nat) (n : Nat) :
    Fueled buf (parse_expr buf n) (buf.length + 2 - n) := by
  induction n with
  | zero => intro st h1 h2; omega
  | succ n ih =>
    have hpe := prog_parse_expr buf n
    have h1 : Fueled buf (parse_expr buf n) ((buf.length + 2 - (n + 1)) + 1) :=
      fueled_mono buf _ _ _ ih (by omega)
    have h2 := fueled_un_minus buf _ _ h1
    have h3 := fueled_bin buf _ [42, 47] _ (n + 1) (prog_un_minus buf _ hpe) h2 (by omega)
    exact fueled_bin buf _ [43, 45] _ (n + 1) (prog_bin buf _ [42, 47] (n + 1)
      (prog_un_minus buf _ hpe)) h3 (by omega)

/-- The fuel supplied by `parse_expr_str` is never exhausted. -/
theorem parse_expr_fueled (buf : List Nat) (st : State) (h : st.stream ≤ buf.length + 1) :
    parse_expr buf (buf.length + 2) st ≠ .error .fuel :=
  fueled_parse_expr buf (buf.length + 2) st (by omega) h

/-! ## The parser only sees the token sequence -/

theorem next_token_scan (buf : List Nat) (st : State) (h : st.stream ≤ buf.length) :
    next_token buf st = .ok
      { token := { kind := (scan_token (buf.drop st.stream)).1,
                   start := st.stream + skip_space (buf.drop st.stream),
                   end_ := st.stream + (scan_token (buf.drop st.stream)).2.2,
                   val := ((scan_token (buf.drop st.stream)).2.1).getD st.token.val },
        stream := st.stream + (scan_token (buf.drop st.stream)).2.2 } := by
  unfold next_token scan_token
  rw [if_neg (by omega)]
  dsimp only
  rw [← List.drop_drop]
  split
  · simp [Nat.add_assoc]
  · split <;> simp [Nat.add_assoc]

theorem scan_kind_uint (r : List Nat) (h : (scan_token r).1 = TOKEN_UINT) :
    ∃ v, (scan_token r).2.1 = some v := by
  unfold scan_token at h ⊢
  dsimp only at h ⊢
  split
  · exact ⟨_, rfl⟩
  · next h1 =>
    rw [if_neg h1] at h
    split at h
    · simp [TOKEN_NAME, TOKEN_UINT] at h
    · simp only [char_to_kind, TOKEN_UINT] at h
      split at h <;> omega

theorem toks_one (r : List Nat) : toks 1 r = [((scan_token r).1, (scan_token r).2.1)] := by
  simp [toks]

theorem tokEq_head (r1 r2 : List Nat) (h : TokEq r1 r2) :
    (scan_token r1).1 = (scan_token r2).1 ∧ (scan_token r1).2.1 = (scan_token r2).2.1 := by
  have := h 1
  rw [toks_one, toks_one] at this
  simpa using this

theorem tokEq_tail (r1 r2 : List Nat) (h : TokEq r1 r2) :
    ((scan_token r1).2.2 ≤ r1.length ↔ (scan_token r2).2.2 ≤ r2.length) ∧
    ((scan_token r1).2.2 ≤ r1.length →
      TokEq (r1.drop (scan_token r1).2.2) (r2.drop (scan_token r2).2.2)) := by
  have h2 := h 2
  simp only [toks, toks_one] at h2
  have hiff : (scan_token r1).2.2 ≤ r1.length ↔ (scan_token r2).2.2 ≤ r2.length := by
    by_cases c1 : (scan_token r1).2.2 ≤ r1.length <;>
      by_cases c2 : (scan_token r2).2.2 ≤ r2.length <;> simp [c1, c2] at h2 ⊢
  refine ⟨hiff, fun c1 n => ?_⟩
  have hn := h (n + 1)
  simp only [toks, if_pos c1, if_pos (hiff.mp c1)] at hn
  exact (List.cons.inj hn).2

theorem tokEq_refl (r : List Nat) : TokEq r r := fun _ => rfl

/-- Similar states stay similar across `next_token`. -/
theorem sim_next (b1 b2 : List Nat) (s1 s2 : State) (h : Sim b1 b2 s1 s2) :
    (next_token b1 s1 = .error .oob ∧ next_token b2 s2 = .error .oob) ∨
    ∃ t1 t2, next_token b1 s1 = .ok t1 ∧ next_token b2 s2 = .ok t2 ∧ Sim b1 b2 t1 t2 := by
  obtain ⟨_, _, hc⟩ := h
  rcases hc with ⟨h1, h2⟩ | ⟨h1, h2, ht⟩
  · left
    simp [next_token, h1, h2]
  · right
    refine ⟨_, _, next_token_scan b1 s1 h1, next_token_scan b2 s2 h2, ?_⟩
    obtain ⟨hk, hv⟩ := tokEq_head _ _ ht
    obtain ⟨hiff, htl⟩ := tokEq_tail _ _ ht
    refine ⟨hk, ?_, ?_⟩
    · intro hu
      obtain ⟨v, hv1⟩ := scan_kind_uint _ hu
      dsimp only
      rw [← hv, hv1]
      rfl
    · dsimp only
      have l1 : (b1.drop s1.stream).length = b1.length - s1.stream := List.length_drop _ _
      have l2 : (b2.drop s2.stream).length = b2.length - s2.stream := List.length_drop _ _
      by_cases c1 : (scan_token (b1.drop s1.stream)).2.2 ≤ (b1.drop s1.stream).length
      · right
        have c2 := hiff.mp c1
        have e1 := htl c1
        rw [List.drop_drop] at e1
        rw [List.drop_drop] at e1
        exact ⟨by omega, by omega, e1⟩
      · left
        have c2 : ¬ (scan_token (b2.drop s2.stream)).2.2 ≤ (b2.drop s2.stream).length :=
          fun hx => c1 (hiff.mpr hx)
        exact ⟨by omega, by omega⟩

theorem relRes_error (b1 b2 : List Nat) (e : Err) : RelRes b1 b2 (.error e) (.error e) := rfl

theorem sim_token_is_one_of (b1 b2 : List Nat) (s1 s2 : State) (h : Sim b1 b2 s1 s2)
    (ops : List Nat) : token_is_one_of s1 ops = token_is_one_of s2 ops := by
  induction ops with
  | nil => rfl
  | cons k ks ih => simp only [token_is_one_of, is_token, h.1, ih]

theorem sim_uint_par (b1 b2 : List Nat) (pe1 pe2 : State → Res) (h : SimFun b1 b2 pe1 pe2) :
    SimFun b1 b2 (parse_uint_par b1 pe1) (parse_uint_par b2 pe2) := by
  intro s1 s2 hs
  have hk := hs.1
  unfold parse_uint_par match_token expect_token
  simp only [is_token, ← hk]
  by_cases h128 : s1.token.kind = TOKEN_UINT
  · have hv := hs.2.1 h128
    simp only [h128, beq_self_eq_true, if_true]
    rcases sim_next b1 b2 s1 s2 hs with ⟨e1, e2⟩ | ⟨t1, t2, e1, e2, ht⟩
    · rw [e1, e2]; exact relRes_error _ _ _
    · rw [e1, e2, hv]; exact ⟨rfl, ht⟩
  · have hne : (s1.token.kind == TOKEN_UINT) = false := by simpa using h128
    simp only [hne, Bool.false_eq_true, if_false]
    by_cases h40 : s1.token.kind = 40
    · simp only [h40, beq_self_eq_true, if_true]
      rcases sim_next b1 b2 s1 s2 hs with ⟨e1, e2⟩ | ⟨t1, t2, e1, e2, ht⟩
      · rw [e1, e2]; exact relRes_error _ _ _
      · rw [e1, e2]
        simp only []
        have hp := h t1 t2 ht
        cases r1 : pe1 t1 with
        | error x1 =>
          cases r2 : pe2 t2 with
          | error x2 => rw [r1, r2] at hp; exact hp
          | ok q2 => rw [r1, r2] at hp; exact hp.elim
        | ok q1 =>
          cases r2 : pe2 t2 with
          | error x2 => rw [r1, r2] at hp; exact hp.elim
          | ok q2 =>
            obtain ⟨v1, u1⟩ := q1
            obtain ⟨v2, u2⟩ := q2
            rw [r1, r2] at hp
            obtain ⟨hv, hu⟩ := hp
            simp only [← hu.1]
            by_cases h41 : u1.token.kind = 41
            · simp only [h41, beq_self_eq_true, if_true]
              rcases sim_next b1 b2 u1 u2 hu with ⟨e3, e4⟩ | ⟨w1, w2, e3, e4, hw⟩
              · rw [e3, e4]; exact relRes_error _ _ _
              · rw [e3, e4]; exact ⟨hv, hw⟩
            · have hne41 : (u1.token.kind == 41) = false := by simpa using h41
              simp only [hne41, Bool.false_eq_true, if_false]
              exact relRes_error _ _ _
    · have hne40 : (s1.token.kind == 40) = false := by simpa using h40
      simp only [hne40, Bool.false_eq_true, if_false]
      exact relRes_error _ _ _

theorem sim_un_minus (b1 b2 : List Nat) (pe1 pe2 : State → Res) (h : SimFun b1 b2 pe1 pe2) :
    SimFun b1 b2 (parse_un_minus b1 pe1) (parse_un_minus b2 pe2) := by
  intro s1 s2 hs
  have hu := sim_uint_par b1 b2 pe1 pe2 h
  unfold parse_un_minus
  simp only [is_token, ← hs.1]
  by_cases h45 : s1.token.kind = 45
  · simp only [h45, beq_self_eq_true, if_true]
    rcases sim_next b1 b2 s1 s2 hs with ⟨e1, e2⟩ | ⟨t1, t2, e1, e2, ht⟩
    · rw [e1, e2]; exact relRes_error _ _ _
    · rw [e1, e2]
      simp only []
      have hp := hu t1 t2 ht
      cases r1 : parse_uint_par b1 pe1 t1 with
      | error x1 =>
        cases r2 : parse_uint_par b2 pe2 t2 with
        | error x2 => rw [r1, r2] at hp; exact hp
        | ok q2 => rw [r1, r2] at hp; exact hp.elim
      | ok q1 =>
        cases r2 : parse_uint_par b2 pe2 t2 with
        | error x2 => rw [r1, r2] at hp; exact hp.elim
        | ok q2 =>
          obtain ⟨v1, u1⟩ := q1
          obtain ⟨v2, u2⟩ := q2
          rw [r1, r2] at hp
          exact ⟨by rw [hp.1], hp.2⟩
  · have hne : (s1.token.kind == 45) = false := by simpa using h45
    simp only [hne, Bool.false_eq_true, if_false]
    exact hu s1 s2 hs

theorem sim_loop (b1 b2 : List Nat) (h1 h2 : State → Res) (ops : List Nat)
    (h : SimFun b1 b2 h1 h2) :
    ∀ (f : Nat) (v : Int) (s1 s2 : State), Sim b1 b2 s1 s2 →
      RelRes b1 b2 (parse_bin_loop b1 h1 ops f v s1) (parse_bin_loop b2 h2 ops f v s2) := by
  intro f
  induction f with
  | zero => intro v s1 s2 _; exact relRes_error _ _ _
  | succ f ih =>
    intro v s1 s2 hs
    simp only [parse_bin_loop, ← sim_token_is_one_of b1 b2 s1 s2 hs ops, ← hs.1]
    split
    · rcases sim_next b1 b2 s1 s2 hs with ⟨e1, e2⟩ | ⟨t1, t2, e1, e2, ht⟩
      · rw [e1, e2]; exact relRes_error _ _ _
      · rw [e1, e2]
        simp only []
        have hp := h t1 t2 ht
        cases r1 : h1 t1 with
        | error x1 =>
          cases r2 : h2 t2 with
          | error x2 => rw [r1, r2] at hp; exact hp
          | ok q2 => rw [r1, r2] at hp; exact hp.elim
        | ok q1 =>
          cases r2 : h2 t2 with
          | error x2 => rw [r1, r2] at hp; exact hp.elim
          | ok q2 =>
            obtain ⟨v1, u1⟩ := q1
            obtain ⟨v2, u2⟩ := q2
            rw [r1, r2] at hp
            obtain ⟨hv, hu⟩ := hp
            simp only [← hv]
            cases apply_op (kind_to_char s1.token.kind) v v1 with
            | error x => exact relRes_error _ _ _
            | ok x => exact ih x u1 u2 hu
    · exact ⟨rfl, hs⟩

theorem sim_bin (b1 b2 : List Nat) (h1 h2 : State → Res) (ops : List Nat) (f : Nat)
    (h : SimFun b1 b2 h1 h2) :
    SimFun b1 b2 (parse_bin b1 h1 ops f) (parse_bin b2 h2 ops f) := by
  intro s1 s2 hs
  unfold parse_bin
  have hp := h s1 s2 hs
  cases r1 : h1 s1 with
  | error x1 =>
    cases r2 : h2 s2 with
    | error x2 => rw [r1, r2] at hp; exact hp
    | ok q2 => rw [r1, r2] at hp; exact hp.elim
  | ok q1 =>
    cases r2 : h2 s2 with
    | error x2 => rw [r1, r2] at hp; exact hp.elim
    | ok q2 =>
      obtain ⟨v1, u1⟩ := q1
      obtain ⟨v2, u2⟩ := q2
      rw [r1, r2] at hp
      obtain ⟨hv, hu⟩ := hp
      simp only [← hv]
      exact sim_loop b1 b2 h1 h2 ops h f v1 u1 u2 hu

/-- With equal fuel, `parse_expr` maps similar states to agreeing results. -/
theorem sim_parse_expr (b1 b2 : List Nat) (n : Nat) :
    SimFun b1 b2 (parse_expr b1 n) (parse_expr b2 n) := by
  induction n with
  | zero => intro s1 s2 _; exact relRes_error _ _ _
  | succ n ih =>
    exact sim_bin b1 b2 _ _ [43, 45] (n + 1)
      (sim_bin b1 b2 _ _ [42, 47] (n + 1) (sim_un_minus b1 b2 _ _ ih))

/-- The run of `parse_expr_str` never exhausts its fuel. -/
theorem outcome_ne_fuel (s : List Nat) (g : State) : outcome s g ≠ .error .fuel := by
  obtain ⟨a, hi, _⟩ := lexed_init s g
  have hst := (next_token_stream s _ a hi).2.1
  have hf := parse_expr_fueled s a hst
  unfold outcome parse_expr_str
  rw [hi]
  simp only []
  cases r : parse_expr s (s.length + 2) a with
  | error x =>
    simp only []
    intro h
    cases h
    exact hf r
  | ok q => simp

/-- Two strings with the same token sequence have the same outcome, whatever the initial
globals of the two runs. -/
theorem outcome_tokEq (s1 s2 : List Nat) (g1 g2 : State) (h : TokEq s1 s2) :
    outcome s1 g1 = outcome s2 g2 := by
  obtain ⟨a1, hi1, _⟩ := lexed_init s1 g1
  obtain ⟨a2, hi2, _⟩ := lexed_init s2 g2
  have hn1 := next_token_scan s1 { g1 with stream := 0 } (Nat.zero_le _)
  have hn2 := next_token_scan s2 { g2 with stream := 0 } (Nat.zero_le _)
  have hs0 : ∀ t1 t2, next_token s1 { g1 with stream := 0 } = .ok t1 →
      next_token s2 { g2 with stream := 0 } = .ok t2 → Sim s1 s2 t1 t2 := by
    intro t1 t2 e1 e2
    rw [hn1] at e1
    rw [hn2] at e2
    cases e1
    cases e2
    obtain ⟨hk, hv⟩ := tokEq_head _ _ h
    obtain ⟨hiff, htl⟩ := tokEq_tail _ _ h
    simp only [List.drop_zero, Nat.zero_add]
    refine ⟨hk, ?_, ?_⟩
    · intro hu
      obtain ⟨v, hv1⟩ := scan_kind_uint _ hu
      dsimp only
      rw [← hv, hv1]
      rfl
    · dsimp only
      by_cases c1 : (scan_token s1).2.2 ≤ s1.length
      · exact Or.inr ⟨c1, hiff.mp c1, htl c1⟩
      · exact Or.inl ⟨by omega, by have := fun hx => c1 (hiff.mpr hx); omega⟩
  have hs := hs0 a1 a2 hi1 hi2
  have hst1 := (next_token_stream s1 _ a1 hi1).2.1
  have hst2 := (next_token_stream s2 _ a2 hi2).2.1
  have hr := sim_parse_expr s1 s2 (s1.length + 2 + s2.length) a1 a2 hs
  have m1 := parse_expr_more_fuel s1 (s1.length + 2) s2.length a1 (parse_expr_fueled s1 a1 hst1)
  have m2 := parse_expr_more_fuel s2 (s2.length + 2) s1.length a2 (parse_expr_fueled s2 a2 hst2)
  have e2 : s2.length + 2 + s1.length = s1.length + 2 + s2.length := by omega
  rw [e2] at m2
  rw [m1, m2] at hr
  unfold outcome parse_expr_str
  rw [hi1, hi2]
  simp only []
  cases r1 : parse_expr s1 (s1.length + 2) a1 with
  | error x1 =>
    cases r2 : parse_expr s2 (s2.length + 2) a2 with
    | error x2 => rw [r1, r2] at hr; simp only []; exact congrArg _ hr
    | ok q2 => rw [r1, r2] at hr; exact hr.elim
  | ok q1 =>
    cases r2 : parse_expr s2 (s2.length + 2) a2 with
    | error x2 => rw [r1, r2] at hr; exact hr.elim
    | ok q2 =>
      obtain ⟨v1, u1⟩ := q1
      obtain ⟨v2, u2⟩ := q2
      rw [r1, r2] at hr
      simp only []
      exact congrArg _ hr.1

/-! ## White space at token boundaries -/

theorem tokEq_symm (r1 r2 : List Nat) (h : TokEq r1 r2) : TokEq r2 r1 := fun n => (h n).symm

theorem tokEq_trans (r1 r2 r3 : List Nat) (h1 : TokEq r1 r2) (h2 : TokEq r2 r3) :
    TokEq r1 r3 := fun n => (h1 n).trans (h2 n)

theorem skip_space_cons (c : Nat) (cs : List Nat) :
    skip_space (c :: cs) = if isspace c then skip_space cs + 1 else 0 := rfl

theorem scan_uint_cons (c : Nat) (cs : List Nat) (v : Nat) :
    scan_uint (c :: cs) v =
      if isdigit c then
        ((scan_uint cs ((v * 10 + c - 48) % 4294967296)).1,
          (scan_uint cs ((v * 10 + c - 48) % 4294967296)).2 + 1)
      else (v, 0) := rfl

theorem scan_name_cons (c : Nat) (cs : List Nat) :
    scan_name (c :: cs) = if isalnum c || c == 95 then scan_name cs + 1 else 0 := rfl

theorem skip_space_stable (a x y : List Nat) (h : skip_space (a ++ x) < a.length) :
    skip_space (a ++ y) = skip_space (a ++ x) := by
  induction a with
  | nil => simp at h
  | cons c cs ih =>
    rw [List.cons_append, skip_space_cons] at h
    rw [List.cons_append, List.cons_append, skip_space_cons, skip_space_cons]
    split
    · next hc =>
      rw [if_pos hc] at h
      simp only [List.length_cons] at h
      rw [ih (by omega)]
    · rfl

theorem scan_uint_exact (a x : List Nat) (v : Nat) (h : (scan_uint (a ++ x) v).2 = a.length) :
    AllDigit a ∧ isdigit (x.headD 0) = false := by
  induction a generalizing v with
  | nil =>
    refine ⟨fun _ hc => by simp at hc, ?_⟩
    by_contra hd
    have := scan_uint_pos x v (by simpa using hd)
    simp at h
    omega
  | cons c cs ih =>
    rw [List.cons_append, scan_uint_cons] at h
    split at h
    · next hc =>
      simp only [List.length_cons] at h
      obtain ⟨h1, h2⟩ := ih ((v * 10 + c - 48) % 4294967296) (by omega)
      refine ⟨?_, h2⟩
      intro d hd
      rcases List.mem_cons.mp hd with rfl | hd
      · exact hc
      · exact h1 d hd
    · simp at h

theorem scan_name_append (a y : List Nat) (ha : AllName a)
    (hy : (isalnum (y.headD 0) || y.headD 0 == 95) = false) : scan_name (a ++ y) = a.length := by
  induction a with
  | nil =>
    cases y with
    | nil => rfl
    | cons c cs =>
      simp only [List.headD_cons] at hy
      rw [List.nil_append, scan_name_cons, hy]
      rfl
  | cons c cs ih =>
    have hc := ha c (List.mem_cons_self _ _)
    have hcs : AllName cs := fun x hx => ha x (List.mem_cons_of_mem _ hx)
    rw [List.cons_append, scan_name_cons, if_pos hc, ih hcs]
    rfl

theorem scan_name_exact (a x : List Nat) (h : scan_name (a ++ x) = a.length) :
    AllName a ∧ (isalnum (x.headD 0) || x.headD 0 == 95) = false := by
  induction a with
  | nil =>
    refine ⟨fun _ hc => by simp at hc, ?_⟩
    cases x with
    | nil => rfl
    | cons c cs =>
      rw [List.nil_append, scan_name_cons] at h
      simp only [List.headD_cons]
      cases hb : (isalnum c || c == 95) with
      | false => rfl
      | true => rw [hb] at h; simp at h
  | cons c cs ih =>
    rw [List.cons_append, scan_name_cons] at h
    split at h
    · next hc =>
      simp only [List.length_cons] at h
      obtain ⟨h1, h2⟩ := ih (by omega)
      refine ⟨?_, h2⟩
      intro d hd
      rcases List.mem_cons.mp hd with rfl | hd
      · exact hc
      · exact h1 d hd
    · simp at h

theorem space_not_digit (c : Nat) (h : isspace c = true) : isdigit c = false := by
  simp [isspace] at h
  simp [isdigit]
  omega

theorem space_not_name (c : Nat) (h : isspace c = true) : (isalnum c || c == 95) = false := by
  simp only [isspace, Bool.or_eq_true, beq_iff_eq, Bool.and_eq_true, decide_eq_true_eq] at h
  simp only [isalnum, isdigit, Bool.or_eq_false_iff, Bool.and_eq_false_iff,
    decide_eq_false_iff_not, beq_eq_false_iff_ne]
  omega

theorem stable_digit (x y : List Nat) (h : Stable x y) (hx : isdigit (x.headD 0) = false) :
    isdigit (y.headD 0) = false := by
  rcases h with h | h
  · rw [h]; exact hx
  · exact space_not_digit _ h

theorem stable_name (x y : List Nat) (h : Stable x y)
    (hx : (isalnum (x.headD 0) || x.headD 0 == 95) = false) :
    (isalnum (y.headD 0) || y.headD 0 == 95) = false := by
  rcases h with h | h
  · rw [h]; exact hx
  · exact space_not_name _ h

theorem scan_consumed_gt (r : List Nat) : skip_space r < (scan_token r).2.2 := by
  unfold scan_token
  dsimp only
  split
  · next hd => have := scan_uint_pos _ 0 hd; dsimp only; omega
  · split
    · next hd hn => have := scan_name_pos _ hn; dsimp only; omega
    · dsimp only; omega

/-- The first token of `pre ++ x`, when it is all of `pre`, does not change if `x` is
replaced by a `y` whose first character ends the lexeme as well. -/
theorem scan_stable (pre x y : List Nat) (h : (scan_token (pre ++ x)).2.2 = pre.length)
    (hs : Stable x y) : scan_token (pre ++ y) = scan_token (pre ++ x) := by
  have hgt := scan_consumed_gt (pre ++ x)
  rw [h] at hgt
  have hk := skip_space_stable pre x y hgt
  have hdx : (pre ++ x).drop (skip_space (pre ++ x)) = pre.drop (skip_space (pre ++ x)) ++ x :=
    List.drop_append_of_le_length (by omega)
  have hdy : (pre ++ y).drop (skip_space (pre ++ x)) = pre.drop (skip_space (pre ++ x)) ++ y :=
    List.drop_append_of_le_length (by omega)
  have hlen : (pre.drop (skip_space (pre ++ x))).length = pre.length - skip_space (pre ++ x) :=
    List.length_drop _ _
  unfold scan_token at h ⊢
  dsimp only at h ⊢
  rw [hk, hdy, hdx]
  rw [hdx] at h
  cases ha : pre.drop (skip_space (pre ++ x)) with
  | nil => rw [ha] at hlen; simp at hlen; omega
  | cons c a =>
    rw [ha] at h hlen
    simp only [List.cons_append, List.headD_cons] at h ⊢
    split
    · next hd =>
      rw [if_pos hd] at h
      dsimp only at h
      have hex := scan_uint_exact (c :: a) x 0 (by rw [List.cons_append]; omega)
      have e1 := scan_uint_append (c :: a) x 0 hex.1 hex.2
      have e2 := scan_uint_append (c :: a) y 0 hex.1 (stable_digit x y hs hex.2)
      rw [List.cons_append] at e1 e2
      rw [e1, e2]
    · next hd =>
      rw [if_neg hd] at h
      split
      · next hn =>
        rw [if_pos hn] at h
        dsimp only at h
        have hex := scan_name_exact (c :: a) x (by rw [List.cons_append]; omega)
        have e1 := scan_name_append (c :: a) x hex.1 hex.2
        have e2 := scan_name_append (c :: a) y hex.1 (stable_name x y hs hex.2)
        rw [List.cons_append] at e1 e2
        rw [e1, e2]
      · rfl

theorem scan_space_lead (w x : List Nat) (hw : AllSpace w) :
    scan_token (w ++ x) =
      ((scan_token x).1, (scan_token x).2.1, w.length + (scan_token x).2.2) := by
  have hk := skip_space_append w x hw
  have hd : (w ++ x).drop (w.length + skip_space x) = x.drop (skip_space x) := by
    rw [← List.drop_drop]; simp
  unfold scan_token
  dsimp only
  rw [hk, hd]
  split
  · simp [Nat.add_assoc]
  · split <;> simp [Nat.add_assoc]

theorem tokEq_space_lead (w x : List Nat) (hw : AllSpace w) : TokEq x (w ++ x) := by
  intro n
  cases n with
  | zero => rfl
  | succ n =>
    have hd : (w ++ x).drop (w.length + (scan_token x).2.2) = x.drop (scan_token x).2.2 := by
      rw [← List.drop_drop]; simp
    simp only [toks, scan_space_lead w x hw, List.length_append, hd]
    by_cases c : (scan_token x).2.2 ≤ x.length
    · rw [if_pos c, if_pos (by omega)]
    · rw [if_neg c, if_neg (by omega)]

theorem tokEq_cons (pre x y : List Nat) (h : (scan_token (pre ++ x)).2.2 = pre.length)
    (hs : Stable x y) (ht : TokEq x y) : TokEq (pre ++ x) (pre ++ y) := by
  intro n
  cases n with
  | zero => rfl
  | succ n =>
    simp only [toks, scan_stable pre x y h hs, h, List.length_append, List.drop_left,
      Nat.le_add_right, if_true, ht n]

theorem allSpace_take_skip (r : List Nat) (q : Nat) (h : q ≤ skip_space r) :
    AllSpace (r.take q) := by
  induction r generalizing q with
  | nil => simp [AllSpace]
  | cons c cs ih =>
    cases q with
    | zero => simp [AllSpace]
    | succ q =>
      rw [skip_space_cons] at h
      split at h
      · next hc =>
        intro d hd
        rw [List.take_succ_cons] at hd
        rcases List.mem_cons.mp hd with rfl | hd
        · exact hc
        · exact ih q (by omega) d hd
      · omega

theorem skip_space_full (r : List Nat) (h : skip_space r = r.length) : AllSpace r := by
  have := allSpace_take_skip r r.length (by omega)
  rwa [List.take_length] at this

theorem stable_prepend (ws x : List Nat) (hws : AllSpace ws) : Stable x (ws ++ x) := by
  cases ws with
  | nil => exact Or.inl rfl
  | cons c cs => exact Or.inr (hws c (List.mem_cons_self _ _))

theorem stable_ins (r ws : List Nat) (q : Nat) (hws : AllSpace ws) : Stable r (ins r ws q) := by
  unfold ins
  cases r with
  | nil =>
    have := stable_prepend ws [] hws
    simpa using this
  | cons c cs =>
    cases q with
    | zero =>
      have := stable_prepend ws (c :: cs) hws
      simpa using this
    | succ q => exact Or.inl rfl

theorem ins_space (r ws : List Nat) (q : Nat) (hws : AllSpace ws) (hq : q ≤ skip_space r) :
    TokEq r (ins r ws q) := by
  have h1 := allSpace_take_skip r q hq
  have h2 := tokEq_space_lead (r.take q) (r.drop q) h1
  rw [List.take_append_drop] at h2
  have h3 := tokEq_space_lead (r.take q ++ ws) (r.drop q) (allSpace_append _ _ h1 hws)
  exact tokEq_trans _ _ _ (tokEq_symm _ _ h2) h3

theorem scan_over (r : List Nat) (h : r.length < (scan_token r).2.2) : AllSpace r := by
  have hk := skip_space_le r
  have hl : (r.drop (skip_space r)).length = r.length - skip_space r := List.length_drop _ _
  apply skip_space_full
  unfold scan_token at h
  dsimp only at h
  split at h
  · have := scan_uint_le (r.drop (skip_space r)) 0
    dsimp only at h
    omega
  · split at h
    · have := scan_name_le (r.drop (skip_space r))
      dsimp only at h
      omega
    · dsimp only at h
      omega

theorem ins_end (r ws : List Nat) (hws : AllSpace ws) :
    TokEq r (ins r ws (scan_token r).2.2) := by
  by_cases hn : (scan_token r).2.2 ≤ r.length
  · have hlen : (r.take (scan_token r).2.2).length = (scan_token r).2.2 := by
      rw [List.length_take]; omega
    have h : (scan_token (r.take (scan_token r).2.2 ++ r.drop (scan_token r).2.2)).2.2
        = (r.take (scan_token r).2.2).length := by
      rw [List.take_append_drop, hlen]
    have := tokEq_cons _ _ (ws ++ r.drop (scan_token r).2.2) h
      (stable_prepend ws _ hws) (tokEq_space_lead ws _ hws)
    rw [List.take_append_drop] at this
    unfold ins
    rw [List.append_assoc]
    exact this
  · have hsp := scan_over r (by omega)
    unfold ins
    rw [List.take_of_length_le (by omega), List.drop_of_length_le (by omega)]
    have h1 := tokEq_space_lead r [] hsp
    have h2 := tokEq_space_lead (r ++ ws) [] (allSpace_append _ _ hsp hws)
    rw [List.append_nil] at h1
    exact tokEq_trans _ _ _ (tokEq_symm _ _ h1) h2

theorem ins_split (r ws : List Nat) (n q : Nat) (h : n ≤ q) :
    ins r ws q = r.take n ++ ins (r.drop n) ws (q - n) := by
  unfold ins
  obtain ⟨d, rfl⟩ : ∃ d, q = n + d := ⟨q - n, by omega⟩
  rw [List.take_add, List.drop_drop, Nat.add_sub_cancel_left]
  simp [Nat.add_comm]

theorem ins_step (r ws : List Nat) (q : Nat) (hws : AllSpace ws)
    (hn : (scan_token r).2.2 ≤ r.length) (hq : (scan_token r).2.2 ≤ q)
    (ht : TokEq (r.drop (scan_token r).2.2)
      (ins (r.drop (scan_token r).2.2) ws (q - (scan_token r).2.2))) :
    TokEq r (ins r ws q) := by
  have hlen : (r.take (scan_token r).2.2).length = (scan_token r).2.2 := by
    rw [List.length_take]; omega
  have h : (scan_token (r.take (scan_token r).2.2 ++ r.drop (scan_token r).2.2)).2.2
      = (r.take (scan_token r).2.2).length := by
    rw [List.take_append_drop, hlen]
  have := tokEq_cons _ _ _ h (stable_ins _ ws (q - (scan_token r).2.2) hws) ht
  rw [List.take_append_drop] at this
  rw [ins_split r ws _ q hq]
  exact this

theorem next_token_pos (s : List Nat) (c : Nat) (st : State)
    (h : next_token s { State.zero with stream := c } = .ok st) :
    c ≤ s.length ∧ st.token.start = c + skip_space (s.drop c) ∧
      st.token.end_ = c + (scan_token (s.drop c)).2.2 ∧
      st.stream = c + (scan_token (s.drop c)).2.2 := by
  have hle := (next_token_stream s _ st h).2.2
  have hle' : c ≤ s.length := hle
  rw [next_token_scan s _ hle] at h
  cases h
  exact ⟨hle', rfl, rfl, rfl⟩

theorem cursor_from_ge (s : List Nat) (i c : Nat) : c ≤ cursor_from s i c := by
  induction i generalizing c with
  | zero => exact Nat.le_refl _
  | succ i ih =>
    simp only [cursor_from]
    cases hn : next_token s { State.zero with stream := c } with
    | error e => exact Nat.le_refl _
    | ok st =>
      simp only []
      have h1 := (next_token_stream s _ st hn).1
      have h1' : c < st.stream := h1
      have := ih st.stream
      omega

theorem boundary_tokEq (s ws : List Nat) (hws : AllSpace ws) :
    ∀ (i c : Nat) (st : State) (p : Nat),
      next_token s { State.zero with stream := cursor_from s i c } = .ok st →
      (p = st.token.start ∨ p = st.token.end_) →
      c ≤ p ∧ TokEq (s.drop c) (ins (s.drop c) ws (p - c)) := by
  intro i
  induction i with
  | zero =>
    intro c st p h hp
    obtain ⟨_, h1, h2, _⟩ := next_token_pos s c st h
    rcases hp with rfl | rfl
    · rw [h1]
      refine ⟨by omega, ?_⟩
      rw [Nat.add_sub_cancel_left]
      exact ins_space _ ws _ hws (Nat.le_refl _)
    · rw [h2]
      refine ⟨by omega, ?_⟩
      rw [Nat.add_sub_cancel_left]
      exact ins_end _ ws hws
  | succ i ih =>
    intro c st p h hp
    simp only [cursor_from] at h
    cases hn : next_token s { State.zero with stream := c } with
    | error e =>
      rw [hn] at h
      simp only [] at h
      rw [hn] at h
      cases h
    | ok st1 =>
      rw [hn] at h
      simp only [] at h
      obtain ⟨hc, _, _, h3⟩ := next_token_pos s c st1 hn
      obtain ⟨hle, ht⟩ := ih st1.stream st p h hp
      have hge := cursor_from_ge s i st1.stream
      have hin := (next_token_pos s _ st h).1
      have hl : (s.drop c).length = s.length - c := List.length_drop _ _
      refine ⟨by omega, ?_⟩
      apply ins_step _ ws _ hws (by omega) (by omega)
      rw [List.drop_drop]
      have e1 : c + (scan_token (s.drop c)).2.2 = st1.stream := h3.symm
      have e2 : p - c - (scan_token (s.drop c)).2.2 = p - st1.stream := by omega
      rw [e1, e2]
      exact ht

/-- Inserting white space at a token boundary does not change the token sequence. -/
theorem tokEq_boundary (s ws : List Nat) (p : Nat) (hws : AllSpace ws)
    (hp : IsTokenBoundary s p) : TokEq s (s.take p ++ ws ++ s.drop p) := by
  obtain ⟨i, st, h, hb⟩ := hp
  have := (boundary_tokEq s ws hws i 0 st p h hb).2
  simpa [ins] using this

/-! ## Division, double minus -/

/-- The input `X / Y` for operands `X` (a multiplicative chain) and `Y` (a unary). -/
theorem outcome_div (x y : Expr) (sx sy w ws : List Nat) (g : State) (hx : Renders x sx)
    (hy : Renders y sy) (hxl : x.level ≤ 2) (hyl : y.level ≤ 1) (hw : AllSpace w)
    (hws : AllSpace ws) :
    outcome (sx ++ (w ++ 47 :: sy) ++ ws) g = (Expr.bin .div x y).eval :=
  outcome_denotes _ _ g
    ⟨_, ws, Renders.bin .div x y sx w sy hw hxl (Nat.lt_succ_of_le hyl) hx hy, hws, rfl⟩

theorem eval_div (x y : Expr) (vx vy : Int) (hvx : x.eval = .ok vx) (hvy : y.eval = .ok vy) :
    (Expr.bin .div x y).eval =
      if vy = 0 ∨ (vx = -2147483648 ∧ vy = -1) then .error .trap else .ok (Int.tdiv vx vy) := by
  simp only [Expr.eval, hvx, hvy, arith]

/-- Two leading minus signs: the second one is not a primary. -/
theorem outcome_minus_minus (t : List Nat) (g : State) :
    outcome (45 :: 45 :: t) g = .error .abort := by
  obtain ⟨st1, hi, hL1⟩ := lexed_init (45 :: 45 :: t) g
  have hL1a : Lexed (45 :: 45 :: t) st1 ([] ++ 45 :: (45 :: t)) := hL1
  obtain ⟨hk, hle, hdrop⟩ := lexed_sym _ st1 [] _ 45 hL1a allSpace_nil (by decide) (by decide)
    (by decide)
  have hk45 : st1.token.kind = 45 := hk
  obtain ⟨st2, hn1⟩ := next_token_ok _ st1 hle
  have hL2 : Lexed (45 :: 45 :: t) st2 ([] ++ 45 :: t) := by
    have := lexed_next _ st1 st2 hle hn1
    rw [hdrop] at this
    exact this
  obtain ⟨hk2, _, _⟩ := lexed_sym _ st2 [] _ 45 hL2 allSpace_nil (by decide) (by decide)
    (by decide)
  have hk245 : st2.token.kind = 45 := hk2
  have hA : ∀ pe, parse_uint_par (45 :: 45 :: t) pe st2 = .error .abort := by
    intro pe
    simp [parse_uint_par, is_token, match_token, hk245]
  have hB : ∀ pe, parse_un_minus (45 :: 45 :: t) pe st1 = .error .abort := by
    intro pe
    simp [parse_un_minus, is_token, hk45, hn1, hA pe]
  unfold outcome parse_expr_str
  rw [hi]
  simp only []
  have hC : parse_expr (45 :: 45 :: t) ((45 :: 45 :: t).length + 2) st1 = .error .abort := by
    show parse_bin _ (parse_bin_mul_add _ (parse_expr _ ((45 :: 45 :: t).length + 1)) _)
      [43, 45] _ st1 = _
    simp only [parse_bin, parse_bin_mul_add, hB]
  rw [hC]

theorem outcome_neg_paren_neg (d : List Nat) (g : State) (h : IsLiteral d) :
    outcome ([45, 40, 45] ++ d ++ [41]) g = .ok (wrap32 (-(wrap32 (-(lit_val d))))) := by
  have hR : Renders (.neg (.paren (.neg (.lit (decimal d)))))
      ([] ++ 45 :: ([] ++ 40 :: (([] ++ 45 :: d) ++ ([] ++ [41])))) :=
    Renders.neg [] _ _ allSpace_nil rfl
      (Renders.paren [] [] _ _ allSpace_nil allSpace_nil
        (Renders.neg [] _ _ allSpace_nil rfl (renders_lit d h)))
  have h := outcome_denotes _ _ g ⟨_, [], hR, allSpace_nil, rfl⟩
  simpa [Expr.eval, lit_val] using h

theorem wrap32_neg_neg (x : Int) (h : InRange x) : wrap32 (-(wrap32 (-x))) = x := by
  unfold InRange at h
  unfold wrap32
  omega

/-! ## The three branches of `next_token` -/

theorem scan_uint_spec (r : List Nat) (v : Nat) :
    AllDigit (r.take (scan_uint r v).2) ∧
      isdigit ((r.drop (scan_uint r v).2).headD 0) = false ∧
      (scan_uint r v).1 = acc_uint (r.take (scan_uint r v).2) v := by
  have hle := scan_uint_le r v
  have hlen : (r.take (scan_uint r v).2).length = (scan_uint r v).2 := by
    rw [List.length_take]; omega
  have hex := scan_uint_exact (r.take (scan_uint r v).2) (r.drop (scan_uint r v).2) v
    (by rw [List.take_append_drop, hlen])
  have hap := scan_uint_append (r.take (scan_uint r v).2) (r.drop (scan_uint r v).2) v
    hex.1 hex.2
  rw [List.take_append_drop] at hap
  exact ⟨hex.1, hex.2, congrArg Prod.fst hap⟩

theorem scan_name_spec (r : List Nat) :
    AllName (r.take (scan_name r)) ∧
      (isalnum ((r.drop (scan_name r)).headD 0) || (r.drop (scan_name r)).headD 0 == 95)
        = false := by
  have hle := scan_name_le r
  have hlen : (r.take (scan_name r)).length = scan_name r := by
    rw [List.length_take]; omega
  exact scan_name_exact (r.take (scan_name r)) (r.drop (scan_name r))
    (by rw [List.take_append_drop, hlen])

theorem char_to_kind_ne (c : Nat) : char_to_kind c ≠ TOKEN_UINT ∧ char_to_kind c ≠ TOKEN_NAME := by
  unfold char_to_kind TOKEN_UINT TOKEN_NAME
  split <;> omega

theorem next_token_single (buf : List Nat) (st : State) (h : st.stream ≤ buf.length)
    (hd : isdigit (first_char (buf.drop st.stream)) = false)
    (hn : is_name_start (first_char (buf.drop st.stream)) = false) :
    next_token buf st = .ok
      { token := { kind := char_to_kind (first_char (buf.drop st.stream)),
                   start := st.stream + skip_space (buf.drop st.stream),
                   end_ := st.stream + skip_space (buf.drop st.stream) + 1,
                   val := st.token.val },
        stream := st.stream + skip_space (buf.drop st.stream) + 1 } := by
  unfold first_char at hd hn
  unfold next_token first_char
  rw [if_neg (by omega)]
  dsimp only
  rw [← List.drop_drop]
  rw [if_neg (by rw [hd]; decide), if_neg (by rw [hn]; decide)]

theorem next_token_name (buf : List Nat) (st : State) (h : st.stream ≤ buf.length)
    (hn : is_name_start (first_char (buf.drop st.stream)) = true) :
    next_token buf st = .ok
      { token := { kind := TOKEN_NAME,
                   start := st.stream + skip_space (buf.drop st.stream),
                   end_ := st.stream + skip_space (buf.drop st.stream) +
                     scan_name (buf.drop (st.stream + skip_space (buf.drop st.stream))),
                   val := st.token.val },
        stream := st.stream + skip_space (buf.drop st.stream) +
          scan_name (buf.drop (st.stream + skip_space (buf.drop st.stream))) } := by
  have hd : isdigit (first_char (buf.drop st.stream)) = false := by
    simp only [is_name_start, Bool.or_eq_true, Bool.and_eq_true, decide_eq_true_eq,
      beq_iff_eq] at hn
    simp only [isdigit, Bool.and_eq_false_iff, decide_eq_false_iff_not]
    omega
  unfold first_char at hd hn
  unfold next_token
  rw [if_neg (by omega)]
  dsimp only
  rw [← List.drop_drop]
  rw [if_neg (by rw [hd]; decide), if_pos hn]

theorem next_token_digit (buf : List Nat) (st : State) (h : st.stream ≤ buf.length)
    (hd : isdigit (first_char (buf.drop st.stream)) = true) :
    next_token buf st = .ok
      { token := { kind := TOKEN_UINT,
                   start := st.stream + skip_space (buf.drop st.stream),
                   end_ := st.stream + skip_space (buf.drop st.stream) +
                     (scan_uint (buf.drop (st.stream + skip_space (buf.drop st.stream))) 0).2,
                   val :=
                     (scan_uint (buf.drop (st.stream + skip_space (buf.drop st.stream))) 0).1 },
        stream := st.stream + skip_space (buf.drop st.stream) +
          (scan_uint (buf.drop (st.stream + skip_space (buf.drop st.stream))) 0).2 } := by
  unfold first_char at hd
  unfold next_token
  rw [if_neg (by omega)]
  dsimp only
  rw [← List.drop_drop]
  rw [if_pos hd]

theorem first_char_eq (buf : List Nat) (c : Nat) :
    (buf.drop (c + skip_space (buf.drop c))).headD 0 = first_char (buf.drop c) := by
  unfold first_char
  rw [List.drop_drop]

theorem kind_to_char_round (c : Nat) (h : c < 256) :
    kind_to_char (char_to_kind c) = if c < 128 then (c : Int) else (c : Int) - 256 := by
  unfold kind_to_char char_to_kind
  by_cases hc : c < 128
  · have e : c % 256 = c := Nat.mod_eq_of_lt h
    simp only [if_pos hc, e]
  · have e : (c + 4294967040) % 256 = c := by omega
    simp only [if_neg hc, e]

/-- A token of kind `TOKEN_UINT` comes from the digit branch: its lexeme is a literal and its
value is the one decoded from that lexeme. -/
theorem next_token_uint (buf : List Nat) (st st1 : State) (hn : next_token buf st = .ok st1)
    (hk : st1.token.kind = TOKEN_UINT) :
    IsLiteral ((buf.drop st1.token.start).take (st1.token.end_ - st1.token.start)) ∧
    st1.token.val
      = decimal ((buf.drop st1.token.start).take (st1.token.end_ - st1.token.start))
        % 4294967296 := by
  have hle := (next_token_stream buf st st1 hn).2.2
  by_cases hd : isdigit (first_char (buf.drop st.stream)) = true
  · rw [next_token_digit buf st hle hd] at hn
    cases hn
    dsimp only
    rw [Nat.add_sub_cancel_left]
    obtain ⟨h1, _, h3⟩ :=
      scan_uint_spec (buf.drop (st.stream + skip_space (buf.drop st.stream))) 0
    have hpos := scan_uint_pos (buf.drop (st.stream + skip_space (buf.drop st.stream))) 0
      (by rw [first_char_eq]; exact hd)
    have hle2 := scan_uint_le (buf.drop (st.stream + skip_space (buf.drop st.stream))) 0
    refine ⟨⟨?_, h1⟩, ?_⟩
    · intro hnil
      have := congrArg List.length hnil
      rw [List.length_take] at this
      simp only [List.length_nil] at this
      omega
    · rw [h3, acc_uint_zero _ h1]
  · have hd' : isdigit (first_char (buf.drop st.stream)) = false := by simpa using hd
    by_cases hs : is_name_start (first_char (buf.drop st.stream)) = true
    · rw [next_token_name buf st hle hs] at hn
      cases hn
      simp [TOKEN_NAME, TOKEN_UINT] at hk
    · have hs' : is_name_start (first_char (buf.drop st.stream)) = false := by simpa using hs
      rw [next_token_single buf st hle hd' hs'] at hn
      cases hn
      exact absurd hk (char_to_kind_ne _).1

/-! ## The terminator token is never consumed -/

theorem scan_terminator (r : List Nat) (h : r.length < (scan_token r).2.2) :
    (scan_token r).1 = 0 ∧ (scan_token r).2.2 = r.length + 1 := by
  have hk := skip_space_le r
  have hl : (r.drop (skip_space r)).length = r.length - skip_space r := List.length_drop _ _
  unfold scan_token at h ⊢
  dsimp only at h ⊢
  split
  · next hd =>
    rw [if_pos hd] at h
    have := scan_uint_le (r.drop (skip_space r)) 0
    dsimp only at h
    omega
  · next hd =>
    rw [if_neg hd] at h
    split
    · next hn =>
      rw [if_pos hn] at h
      have := scan_name_le (r.drop (skip_space r))
      dsimp only at h
      omega
    · next hn =>
      rw [if_neg hn] at h
      dsimp only at h ⊢
      have hnil : r.drop (skip_space r) = [] := List.drop_of_length_le (by omega)
      rw [hnil]
      exact ⟨rfl, by omega⟩

theorem next_token_inv (buf : List Nat) (st st1 : State) (h : next_token buf st = .ok st1) :
    Inv buf st1 := by
  have hle := (next_token_stream buf st st1 h).2.2
  rw [next_token_scan buf st hle] at h
  cases h
  have hl : (buf.drop st.stream).length = buf.length - st.stream := List.length_drop _ _
  by_cases hc : (scan_token (buf.drop st.stream)).2.2 ≤ (buf.drop st.stream).length
  · left
    dsimp only
    omega
  · right
    obtain ⟨h1, h2⟩ := scan_terminator (buf.drop st.stream) (by omega)
    dsimp only
    exact ⟨h1, by omega⟩

/-- A token that is not the terminator can be consumed: the call stays inside the buffer. -/
theorem next_token_of_inv (buf : List Nat) (st : State) (h : Inv buf st)
    (hk : st.token.kind ≠ 0) : ∃ st1, next_token buf st = .ok st1 ∧ Inv buf st1 := by
  rcases h with h | ⟨h, _⟩
  · obtain ⟨st1, h1⟩ := next_token_ok buf st h
    exact ⟨st1, h1, next_token_inv buf st st1 h1⟩
  · exact absurd h hk

theorem inb_uint_par (buf : List Nat) (pe : State → Res) (h : InBounds buf pe) :
    InBounds buf (parse_uint_par buf pe) := by
  intro st hi
  unfold parse_uint_par match_token expect_token
  simp only [is_token]
  by_cases h128 : st.token.kind = TOKEN_UINT
  · obtain ⟨st1, e1, i1⟩ := next_token_of_inv buf st hi (by rw [h128]; decide)
    simp only [h128, beq_self_eq_true, if_true, e1]
    refine ⟨by simp, ?_⟩
    intro v st2 hr
    cases hr
    exact i1
  · have hne : (st.token.kind == TOKEN_UINT) = false := by simpa using h128
    simp only [hne, Bool.false_eq_true, if_false]
    by_cases h40 : st.token.kind = 40
    · obtain ⟨st1, e1, i1⟩ := next_token_of_inv buf st hi (by rw [h40]; decide)
      simp only [h40, beq_self_eq_true, if_true, e1]
      obtain ⟨p1, p2⟩ := h st1 i1
      cases hp : pe st1 with
      | error x =>
        simp only []
        refine ⟨?_, by simp⟩
        intro hx
        cases hx
        exact p1 hp
      | ok q =>
        obtain ⟨val, st2⟩ := q
        have i2 := p2 val st2 hp
        simp only []
        by_cases h41 : st2.token.kind = 41
        · obtain ⟨st3, e3, i3⟩ := next_token_of_inv buf st2 i2 (by rw [h41]; decide)
          simp only [h41, beq_self_eq_true, if_true, e3]
          refine ⟨by simp, ?_⟩
          intro v st4 hr
          cases hr
          exact i3
        · have hne41 : (st2.token.kind == 41) = false := by simpa using h41
          simp only [hne41, Bool.false_eq_true, if_false]
          exact ⟨by simp, by simp⟩
    · have hne40 : (st.token.kind == 40) = false := by simpa using h40
      simp only [hne40, Bool.false_eq_true, if_false]
      exact ⟨by simp, by simp⟩

theorem inb_un_minus (buf : List Nat) (pe : State → Res) (h : InBounds buf pe) :
    InBounds buf (parse_un_minus buf pe) := by
  intro st hi
  have hu := inb_uint_par buf pe h
  unfold parse_un_minus
  simp only [is_token]
  by_cases h45 : st.token.kind = 45
  · obtain ⟨st1, e1, i1⟩ := next_token_of_inv buf st hi (by rw [h45]; decide)
    simp only [h45, beq_self_eq_true, if_true, e1]
    obtain ⟨p1, p2⟩ := hu st1 i1
    cases hp : parse_uint_par buf pe st1 with
    | error x =>
      simp only []
      refine ⟨?_, by simp⟩
      intro hx
      cases hx
      exact p1 hp
    | ok q =>
      obtain ⟨val, st2⟩ := q
      simp only []
      refine ⟨by simp, ?_⟩
      intro v st3 hr
      cases hr
      exact p2 val st2 hp
  · have hne : (st.token.kind == 45) = false := by simpa using h45
    simp only [hne, Bool.false_eq_true, if_false]
    exact hu st hi

theorem one_of_ne_zero (st : State) (ops : List Nat) (h0 : 0 ∉ ops)
    (h : token_is_one_of st ops = true) : st.token.kind ≠ 0 := by
  induction ops with
  | nil => simp [token_is_one_of] at h
  | cons k ks ih =>
    simp only [token_is_one_of, is_token] at h
    by_cases hk : st.token.kind = k
    · intro hz
      apply h0
      rw [← hk, hz]
      exact List.mem_cons_self _ _
    · have hne : (st.token.kind == k) = false := by simpa using hk
      simp only [hne, Bool.false_eq_true, if_false] at h
      exact ih (fun hm => h0 (List.mem_cons_of_mem _ hm)) h

theorem inb_loop (buf : List Nat) (higher : State → Res) (ops : List Nat) (h0 : 0 ∉ ops)
    (h : InBounds buf higher) :
    ∀ (f : Nat) (v : Int) (st : State), Inv buf st →
      parse_bin_loop buf higher ops f v st ≠ .error .oob ∧
      ∀ v1 st1, parse_bin_loop buf higher ops f v st = .ok (v1, st1) → Inv buf st1 := by
  intro f
  induction f with
  | zero => intro v st _; exact ⟨by simp [parse_bin_loop], by simp [parse_bin_loop]⟩
  | succ f ih =>
    intro v st hi
    simp only [parse_bin_loop]
    split
    · next hone =>
      obtain ⟨st1, e1, i1⟩ := next_token_of_inv buf st hi (one_of_ne_zero st ops h0 hone)
      simp only [e1]
      obtain ⟨p1, p2⟩ := h st1 i1
      cases hp : higher st1 with
      | error x =>
        simp only []
        refine ⟨?_, by simp⟩
        intro hx
        cases hx
        exact p1 hp
      | ok q =>
        obtain ⟨rv, st2⟩ := q
        simp only []
        cases ha : apply_op (kind_to_char st.token.kind) v rv with
        | error x =>
          simp only []
          refine ⟨?_, by simp⟩
          intro hx
          cases hx
          have := apply_op_error _ _ _ _ ha
          cases this
        | ok y =>
          simp only []
          exact ih y st2 (p2 rv st2 hp)
    · refine ⟨by simp, ?_⟩
      intro v1 st1 hr
      cases hr
      exact hi

theorem inb_bin (buf : List Nat) (higher : State → Res) (ops : List Nat) (f : Nat)
    (h0 : 0 ∉ ops) (h : InBounds buf higher) : InBounds buf (parse_bin buf higher ops f) := by
  intro st hi
  unfold parse_bin
  obtain ⟨p1, p2⟩ := h st hi
  cases hp : higher st with
  | error x =>
    simp only []
    refine ⟨?_, by simp⟩
    intro hx
    cases hx
    exact p1 hp
  | ok q =>
    obtain ⟨v, st1⟩ := q
    simp only []
    exact inb_loop buf higher ops h0 h f v st1 (p2 v st1 hp)

theorem inb_parse_expr (buf : List Nat) (n : Nat) : InBounds buf (parse_expr buf n) := by
  induction n with
  | zero => intro st _; exact ⟨by simp [parse_expr], by simp [parse_expr]⟩
  | succ n ih =>
    exact inb_bin buf _ [43, 45] (n + 1) (by decide)
      (inb_bin buf _ [42, 47] (n + 1) (by decide) (inb_un_minus buf _ ih))

/-- A run of `parse_expr_str` never reads outside the buffer and leaves the cursor at most
one past the terminator. -/
theorem parse_expr_str_in_bounds (s : List Nat) (g : State) :
    parse_expr_str s g ≠ .error .oob ∧
    ∀ v st, parse_expr_str s g = .ok (v, st) → Inv s st := by
  obtain ⟨a, hi, _⟩ := lexed_init s g
  have hinv := next_token_inv s _ a hi
  unfold parse_expr_str
  rw [hi]
  exact inb_parse_expr s (s.length + 2) a hinv

theorem outcome_ne_oob (s : List Nat) (g : State) : outcome s g ≠ .error .oob := by
  have h := (parse_expr_str_in_bounds s g).1
  unfold outcome
  cases r : parse_expr_str s g with
  | error x =>
    simp only []
    intro hx
    cases hx
    exact h r
  | ok q => simp

theorem uint_par_terminator (buf : List Nat) (pe : State → Res) (st : State)
    (hk : st.token.kind = 0) : parse_uint_par buf pe st = .error .abort := by
  simp [parse_uint_par, is_token, match_token, hk]

theorem loop_terminator (buf : List Nat) (higher : State → Res) (a b f : Nat) (v : Int)
    (st : State) (hk : st.token.kind = 0) (ha : a ≠ 0) (hb : b ≠ 0) :
    parse_bin_loop buf higher [a, b] (f + 1) v st = .ok (v, st) :=
  loop_exit buf higher [a, b] f v st
    (one_of_false st a b (by rw [hk]; exact fun h => ha h.symm)
      (by rw [hk]; exact fun h => hb h.symm))

theorem next_token_ok_iff (b : List Nat) (t : State) :
    (∃ t1, next_token b t = .ok t1) ↔ t.stream ≤ b.length := by
  constructor
  · rintro ⟨t1, h⟩
    exact (next_token_stream b t t1 h).2.2
  · exact next_token_ok b t

theorem loop_unfold (buf : List Nat) (higher : State → Res) (ops : List Nat) (f : Nat)
    (v : Int) (st st1 : State) (h : token_is_one_of st ops = true)
    (hn : next_token buf st = .ok st1) :
    parse_bin_loop buf higher ops (f + 1) v st =
      match higher st1 with
      | .error e => .error e
      | .ok (rv, st2) =>
        match apply_op (kind_to_char st.token.kind) v rv with
        | .error e => .error e
        | .ok x => parse_bin_loop buf higher ops f x st2 := by
  simp only [parse_bin_loop, h, if_true, hn]

theorem loop_mul_div (buf : List Nat) (higher : State → Res) (f : Nat) (v : Int) (st : State) :
    parse_bin_loop buf higher [42, 47] (f + 1) v st =
      if st.token.kind = 42 then
        match next_token buf st with
        | .error e => .error e
        | .ok st1 =>
          match higher st1 with
          | .error e => .error e
          | .ok (rv, st2) => parse_bin_loop buf higher [42, 47] f (wrap32 (v * rv)) st2
      else if st.token.kind = 47 then
        match next_token buf st with
        | .error e => .error e
        | .ok st1 =>
          match higher st1 with
          | .error e => .error e
          | .ok (rv, st2) =>
            match apply_op 47 v rv with
            | .error e => .error e
            | .ok x => parse_bin_loop buf higher [42, 47] f x st2
      else .ok (v, st) := by
  by_cases h1 : st.token.kind = 42
  · have hc : kind_to_char 42 = 42 := by decide
    simp only [parse_bin_loop, token_is_one_of, is_token, h1, beq_self_eq_true, if_true, hc]
    cases next_token buf st with
    | error e => rfl
    | ok st1 =>
      simp only []
      cases higher st1 with
      | error e => rfl
      | ok q => simp [apply_op]
  · by_cases h2 : st.token.kind = 47
    · have hc : kind_to_char 47 = 47 := by decide
      simp [parse_bin_loop, token_is_one_of, is_token, h2, hc]
    · simp [parse_bin_loop, token_is_one_of, is_token, h1, h2]

theorem loop_add_sub (buf : List Nat) (higher : State → Res) (f : Nat) (v : Int) (st : State) :
    parse_bin_loop buf higher [43, 45] (f + 1) v st =
      if st.token.kind = 43 then
        match next_token buf st with
        | .error e => .error e
        | .ok st1 =>
          match higher st1 with
          | .error e => .error e
          | .ok (rv, st2) => parse_bin_loop buf higher [43, 45] f (wrap32 (v + rv)) st2
      else if st.token.kind = 45 then
        match next_token buf st with
        | .error e => .error e
        | .ok st1 =>
          match higher st1 with
          | .error e => .error e
          | .ok (rv, st2) => parse_bin_loop buf higher [43, 45] f (wrap32 (v - rv)) st2
      else .ok (v, st) := by
  by_cases h1 : st.token.kind = 43
  · have hc : kind_to_char 43 = 43 := by decide
    cases hn : next_token buf st with
    | error e => simp [parse_bin_loop, token_is_one_of, is_token, h1, hn]
    | ok st1 =>
      cases hh : higher st1 with
      | error e => simp [parse_bin_loop, token_is_one_of, is_token, h1, hn, hh]
      | ok q => simp [parse_bin_loop, token_is_one_of, is_token, h1, hn, hh, hc, apply_op]
  · by_cases h2 : st.token.kind = 45
    · have hc : kind_to_char 45 = 45 := by decide
      cases hn : next_token buf st with
      | error e => simp [parse_bin_loop, token_is_one_of, is_token, h2, hn]
      | ok st1 =>
        cases hh : higher st1 with
        | error e => simp [parse_bin_loop, token_is_one_of, is_token, h2, hn, hh]
        | ok q => simp [parse_bin_loop, token_is_one_of, is_token, h2, hn, hh, hc, apply_op]
    · simp [parse_bin_loop, token_is_one_of, is_token, h1, h2]

theorem one_of_char (st : State) (a b : Nat) (ha : a < 128) (hb : b < 128)
    (h : token_is_one_of st [a, b] = true) :
    (kind_to_char st.token.kind = (a : Int) ∨ kind_to_char st.token.kind = (b : Int)) ∧
    kind_to_char st.token.kind = (st.token.kind : Int) := by
  have hk := (one_of_iff st a b).mp h
  have hlt : st.token.kind < 128 := by rcases hk with h | h <;> omega
  have e : st.token.kind % 256 = st.token.kind := Nat.mod_eq_of_lt (by omega)
  have hc : kind_to_char st.token.kind = (st.token.kind : Int) := by
    unfold kind_to_char
    rw [e, if_pos hlt]
  refine ⟨?_, hc⟩
  rw [hc]
  rcases hk with h | h
  · exact Or.inl (by rw [h])
  · exact Or.inr (by rw [h])

/-! ## Evaluation of well-formed input -/

/-- C1: for every expression tree of the grammar in which no division has a zero divisor or
the operands `-2^31` and `-1`, `parse_expr_str` on any rendering of the tree (white space
allowed before every token and at the end) returns the value of the tree under the reference
semantics, from any initial globals. -/
theorem parse_expr_str_reference_value (e : Expr) (s ws : List Nat) (g : State)
    (hR : Renders e s) (hws : AllSpace ws) (hsafe : e.NoTrap) :
    outcome (s ++ ws) g = .ok e.value := by
  rw [outcome_denotes (s ++ ws) e g ⟨s, ws, hR, hws, rfl⟩, eval_of_no_trap e hsafe]

/-- Witness for C1: the input `2 *(3+ 4)` divided by `-5`, with a trailing blank, has value `-2`. -/
theorem parse_expr_str_reference_value_witness :
    outcome ([50, 32, 42, 40, 51, 43, 32, 52, 41, 47, 45, 53] ++ [32]) State.zero
      = .ok (-2) :=
  parse_expr_str_reference_value
    (.bin .div
      (.bin .mul (.lit (decimal [50]))
        (.paren (.bin .add (.lit (decimal [51])) (.lit (decimal [52])))))
      (.neg (.lit (decimal [53]))))
    [50, 32, 42, 40, 51, 43, 32, 52, 41, 47, 45, 53] [32] State.zero
    (Renders.bin .div _ _ _ [] _ allSpace_nil (by decide) (by decide)
      (Renders.bin .mul _ _ _ [32] _ allSpace_one (by decide) (by decide)
        (Renders.lit [] [50] allSpace_nil (by decide) (by decide))
        (Renders.paren [] [] _ _ allSpace_nil allSpace_nil
          (Renders.bin .add _ _ _ [] _ allSpace_nil (by decide) (by decide)
            (Renders.lit [] [51] allSpace_nil (by decide) (by decide))
            (Renders.lit [32] [52] allSpace_one (by decide) (by decide)))))
      (Renders.neg [] _ _ allSpace_nil (by decide)
        (Renders.lit [] [53] allSpace_nil (by decide) (by decide))))
    allSpace_one
    (by decide)

/-- C2: parenthesization is transparent. For every well-formed expression string `E`, the
outcome on `(E)` is the outcome on `E` (the same integer, or the same trap), and so for `E`
wrapped in any number `k` of parentheses, whatever the initial globals of the two runs. -/
theorem parenthesization_transparent (E : List Nat) (k : Nat) (g1 g2 : State)
    (hE : WellFormed E) :
    outcome (40 :: (E ++ [41])) g1 = outcome E g2 ∧
    outcome (List.replicate k 40 ++ E ++ List.replicate k 41) g1 = outcome E g2 := by
  obtain ⟨e, he⟩ := hE
  obtain ⟨e1, h1, h2⟩ := denotes_parens k E e he
  refine ⟨?_, ?_⟩
  · rw [outcome_denotes _ _ g1 (denotes_paren E e he), outcome_denotes _ _ g2 he]
    rfl
  · rw [outcome_denotes _ _ g1 h1, outcome_denotes _ _ g2 he, h2]

/-- Witness for C2: `1 + 2`, once and three times parenthesized. -/
theorem parenthesization_transparent_witness :
    WellFormed [49, 32, 43, 32, 50] ∧
    outcome (40 :: ([49, 32, 43, 32, 50] ++ [41])) State.zero
      = outcome [49, 32, 43, 32, 50] State.zero ∧
    outcome (List.replicate 3 40 ++ [49, 32, 43, 32, 50] ++ List.replicate 3 41) State.zero
      = outcome [49, 32, 43, 32, 50] State.zero :=
  have hw : WellFormed [49, 32, 43, 32, 50] :=
    ⟨_, _, [], Renders.bin .add _ _ _ [32] _ allSpace_one (by decide) (by decide)
      (Renders.lit [] [49] allSpace_nil (by decide) (by decide))
      (Renders.lit [32] [50] allSpace_one (by decide) (by decide)), allSpace_nil, rfl⟩
  ⟨hw, parenthesization_transparent [49, 32, 43, 32, 50] 3 State.zero State.zero hw⟩

/-- C3: subtraction is left-associative. For literals `a`, `b`, `c` the input `a - b - c`
evaluates to `(a - b) - c` in 32-bit wrapping arithmetic; this differs from `a - (b - c)`
whenever `2 * c` is not `0` modulo `2^32`; and `1 - 2 - 3` gives `-4`. -/
theorem subtraction_left_assoc (da db dc : List Nat) (g : State) (ha : IsLiteral da)
    (hb : IsLiteral db) (hc : IsLiteral dc) :
    outcome (da ++ [32, 45, 32] ++ db ++ [32, 45, 32] ++ dc) g
      = .ok (wrap32 (wrap32 (lit_val da - lit_val db) - lit_val dc)) ∧
    (wrap32 (2 * lit_val dc) ≠ 0 →
      outcome (da ++ [32, 45, 32] ++ db ++ [32, 45, 32] ++ dc) g
        ≠ .ok (wrap32 (lit_val da - wrap32 (lit_val db - lit_val dc)))) ∧
    outcome [49, 32, 45, 32, 50, 32, 45, 32, 51] g = .ok (-4) := by
  refine ⟨outcome_sub_sub da db dc g ha hb hc, ?_, ?_⟩
  · intro h2
    rw [outcome_sub_sub da db dc g ha hb hc]
    intro h
    injection h with h
    unfold wrap32 at h h2
    omega
  · exact outcome_sub_sub [49] [50] [51] g (by decide) (by decide) (by decide)

/-- Witness for C3: `10 - 2 - 3` is `5`, not `11`. -/
theorem subtraction_left_assoc_witness :
    IsLiteral [49, 48] ∧ IsLiteral [50] ∧ IsLiteral [51] ∧
    outcome [49, 48, 32, 45, 32, 50, 32, 45, 32, 51] State.zero = .ok 5 :=
  ⟨by decide, by decide, by decide,
    (subtraction_left_assoc [49, 48] [50] [51] State.zero (by decide) (by decide)
      (by decide)).1⟩

/-- C4: multiplication binds tighter than addition on either side. For literals the input
`a + b * c` evaluates to `a + (b * c)` and `a * b + c * d` to `(a * b) + (c * d)` in 32-bit
wrapping arithmetic; `2 + 3 * 4` gives `14` and `2 * 3 + 4 * 5` gives `26`. -/
theorem multiplication_binds_tighter (da db dc dd : List Nat) (g : State) (ha : IsLiteral da)
    (hb : IsLiteral db) (hc : IsLiteral dc) (hd : IsLiteral dd) :
    outcome (da ++ [32, 43, 32] ++ db ++ [32, 42, 32] ++ dc) g
      = .ok (wrap32 (lit_val da + wrap32 (lit_val db * lit_val dc))) ∧
    outcome (da ++ [32, 42, 32] ++ db ++ [32, 43, 32] ++ dc ++ [32, 42, 32] ++ dd) g
      = .ok (wrap32 (wrap32 (lit_val da * lit_val db) + wrap32 (lit_val dc * lit_val dd))) ∧
    outcome [50, 32, 43, 32, 51, 32, 42, 32, 52] g = .ok 14 ∧
    outcome [50, 32, 42, 32, 51, 32, 43, 32, 52, 32, 42, 32, 53] g = .ok 26 :=
  ⟨outcome_add_mul da db dc g ha hb hc, outcome_mul_add_mul da db dc dd g ha hb hc hd,
    outcome_add_mul [50] [51] [52] g (by decide) (by decide) (by decide),
    outcome_mul_add_mul [50] [51] [52] [53] g (by decide) (by decide) (by decide) (by decide)⟩

/-- Witness for C4: `1 + 20 * 3` is `61`. -/
theorem multiplication_binds_tighter_witness :
    IsLiteral [49] ∧ IsLiteral [50, 48] ∧ IsLiteral [51] ∧ IsLiteral [52] ∧
    outcome [49, 32, 43, 32, 50, 48, 32, 42, 32, 51] State.zero = .ok 61 :=
  ⟨by decide, by decide, by decide, by decide,
    (multiplication_binds_tighter [49] [50, 48] [51] [52] State.zero (by decide) (by decide)
      (by decide) (by decide)).1⟩

/-- C5: unary minus binds tighter than any binary operator. For literals `a`, `b` and each
operator `op` of `+ - * /` (for `/` with `b` non-zero and the quotient representable) the
input `a op -b` evaluates to `a op (-b)` in 32-bit wrapping arithmetic; `2 + -3` gives `-1`. -/
theorem unary_minus_binds_tighter (op : Op) (da db : List Nat) (g : State)
    (ha : IsLiteral da) (hb : IsLiteral db)
    (hdiv : op = .div →
      lit_val db ≠ 0 ∧ InRange (Int.tdiv (lit_val da) (wrap32 (-(lit_val db))))) :
    outcome (da ++ [32, op.char, 32, 45] ++ db) g
      = .ok (op.apply (lit_val da) (wrap32 (-(lit_val db)))) ∧
    outcome [50, 32, 43, 32, 45, 51] g = .ok (-1) := by
  refine ⟨?_, outcome_bin_neg .add [50] [51] g (by decide) (by decide)⟩
  rw [outcome_bin_neg op da db g ha hb]
  apply arith_apply
  intro hop
  obtain ⟨h0, hq⟩ := hdiv hop
  have hr := lit_val_range db
  have hn0 : wrap32 (-(lit_val db)) ≠ 0 := by
    unfold InRange at hr; unfold wrap32; omega
  refine ⟨hn0, fun hc => ?_⟩
  have := (tdiv_overflow _ _ (lit_val_range da) (wrap32_range _) hn0).mpr hc
  unfold InRange at hq
  omega

/-- Witness for C5: `7 / -2` is `-3`. -/
theorem unary_minus_binds_tighter_witness :
    IsLiteral [55] ∧ IsLiteral [50] ∧
    outcome [55, 32, 47, 32, 45, 50] State.zero = .ok (-3) :=
  ⟨by decide, by decide,
    (unary_minus_binds_tighter .div [55] [50] State.zero (by decide) (by decide)
      (fun _ => ⟨by decide, by decide, by decide⟩)).1⟩

/-- C6: white space between tokens never changes the result. For every input string `s`,
every token boundary `p` in it (the start or the end of the lexeme of a token of `s`) and
every run `ws` of white-space characters (space, tab, newline, vertical tab, form feed,
carriage return), the string with `ws` inserted at `p` has the outcome of `s`: the same
integer, or the same abnormal end, whatever the initial globals of the two runs. -/
theorem whitespace_insensitive (s ws : List Nat) (p : Nat) (g1 g2 : State)
    (hws : AllSpace ws) (hp : IsTokenBoundary s p) :
    outcome (s.take p ++ ws ++ s.drop p) g1 = outcome s g2 :=
  (outcome_tokEq s (s.take p ++ ws ++ s.drop p) g2 g1 (tokEq_boundary s ws p hws hp)).symm

/-- Witness for C6: a blank and a tab inserted between `1` and `+` of `1+2`. -/
theorem whitespace_insensitive_witness :
    AllSpace [32, 9] ∧ IsTokenBoundary [49, 43, 50] 1 ∧
    outcome [49, 32, 9, 43, 50] State.zero = outcome [49, 43, 50] State.zero ∧
    outcome [49, 43, 50] State.zero = .ok 3 :=
  have hb : IsTokenBoundary [49, 43, 50] 1 :=
    ⟨0, { token := { kind := 128, start := 0, end_ := 1, val := 1 }, stream := 1 }, rfl,
      Or.inr rfl⟩
  ⟨by decide, hb,
    whitespace_insensitive [49, 43, 50] [32, 9] 1 State.zero State.zero (by decide) hb, rfl⟩

/-- Counterexample to C7 as stated: `1/0` is a well-formed expression, yet on `(1/0` the run
ends with the divide trap of `idiv`, not with an abort. -/
theorem unclosed_paren_trap :
    WellFormed [49, 47, 48] ∧ outcome (40 :: [49, 47, 48]) State.zero = .error .trap ∧
    outcome (40 :: [49, 47, 48]) State.zero ≠ .error .abort :=
  ⟨⟨_, _, [], Renders.bin .div _ _ _ [] _ allSpace_nil (by decide) (by decide)
      (Renders.lit [] [49] allSpace_nil (by decide) (by decide))
      (Renders.lit [] [48] allSpace_nil (by decide) (by decide)), allSpace_nil, rfl⟩,
    rfl, fun h => Err.noConfusion (Except.error.inj h)⟩

/-- C7 (amended): malformed input never yields a value. `parse_expr_str` aborts on the empty
string, on every whitespace-only string, and on every string `(E` where `E` is a well-formed
expression that evaluates to an integer; when the evaluation of `E` ends in the divide trap,
so does the run on `(E`; and a well-formed `E` does one or the other. -/
theorem malformed_input_no_value (ws E : List Nat) (g : State)
    (hws : AllSpace ws) (hE : WellFormed E) :
    outcome [] g = .error .abort ∧
    outcome ws g = .error .abort ∧
    ((∃ v, outcome E g = .ok v) → outcome (40 :: E) g = .error .abort) ∧
    (outcome E g = .error .trap → outcome (40 :: E) g = .error .trap) ∧
    ((∃ v, outcome E g = .ok v) ∨ outcome E g = .error .trap) := by
  obtain ⟨e, he⟩ := hE
  rw [outcome_unclosed E e g he, outcome_denotes E e g he]
  refine ⟨outcome_blank [] g allSpace_nil, outcome_blank ws g hws, ?_, ?_, ?_⟩
  · rintro ⟨v, hv⟩
    rw [hv]
  · intro ht
    rw [ht]
  · cases h : e.eval with
    | ok v => exact Or.inl ⟨v, rfl⟩
    | error x => rw [eval_error_trap e x h]; exact Or.inr rfl

/-- Witness for C7: blanks only, and `(1 + 2`. -/
theorem malformed_input_no_value_witness :
    AllSpace [32, 9, 10] ∧ WellFormed [49, 32, 43, 32, 50] ∧
    outcome [32, 9, 10] State.zero = .error .abort ∧
    outcome (40 :: [49, 32, 43, 32, 50]) State.zero = .error .abort :=
  have hw : WellFormed [49, 32, 43, 32, 50] :=
    ⟨_, _, [], Renders.bin .add _ _ _ [32] _ allSpace_one (by decide) (by decide)
      (Renders.lit [] [49] allSpace_nil (by decide) (by decide))
      (Renders.lit [32] [50] allSpace_one (by decide) (by decide)), allSpace_nil, rfl⟩
  have h := malformed_input_no_value [32, 9, 10] [49, 32, 43, 32, 50] State.zero
    (by decide) hw
  ⟨by decide, hw, h.2.1, h.2.2.1 ⟨3, rfl⟩⟩

/-- C8: trailing input after a valid expression is ignored. For every well-formed expression
string `E` and every suffix `t` whose first token is none of `+ - * /`, the outcome on
`E`, a blank, `t` is the outcome on `E` and is not an abort; `1 + 2 )`, `3 4` and `5 x`
give `3`, `3` and `5`. -/
theorem trailing_input_ignored (E t : List Nat) (g1 g2 : State) (hE : WellFormed E)
    (h1 : first_char t ≠ 43) (h2 : first_char t ≠ 45) (h3 : first_char t ≠ 42)
    (h4 : first_char t ≠ 47) :
    outcome (E ++ [32] ++ t) g1 = outcome E g2 ∧
    outcome (E ++ [32] ++ t) g1 ≠ .error .abort ∧
    outcome [49, 32, 43, 32, 50, 32, 41] g1 = .ok 3 ∧
    outcome [51, 32, 52] g1 = .ok 3 ∧
    outcome [53, 32, 120] g1 = .ok 5 := by
  obtain ⟨e, he⟩ := hE
  have hx := outcome_trailing E t e g1 he h3 h4 h1 h2
  refine ⟨?_, ?_, ?_, ?_, ?_⟩
  · rw [hx, outcome_denotes E e g2 he]
  · rw [hx]
    intro h
    have := eval_error_trap e _ h
    cases this
  · have := outcome_trailing [49, 32, 43, 32, 50] [41]
      (.bin .add (.lit (decimal [49])) (.lit (decimal [50]))) g1
      ⟨_, [], Renders.bin .add _ _ _ [32] _ allSpace_one (by decide) (by decide)
        (Renders.lit [] [49] allSpace_nil (by decide) (by decide))
        (Renders.lit [32] [50] allSpace_one (by decide) (by decide)), allSpace_nil, rfl⟩
      (by decide) (by decide) (by decide) (by decide)
    exact this
  · have := outcome_trailing [51] [52] (.lit (decimal [51])) g1
      ⟨_, [], Renders.lit [] [51] allSpace_nil (by decide) (by decide), allSpace_nil, rfl⟩
      (by decide) (by decide) (by decide) (by decide)
    exact this
  · have := outcome_trailing [53] [120] (.lit (decimal [53])) g1
      ⟨_, [], Renders.lit [] [53] allSpace_nil (by decide) (by decide), allSpace_nil, rfl⟩
      (by decide) (by decide) (by decide) (by decide)
    exact this

/-- Witness for C8: `2 * 3` followed by ` (9` gives `6`. -/
theorem trailing_input_ignored_witness :
    WellFormed [50, 32, 42, 32, 51] ∧
    outcome ([50, 32, 42, 32, 51] ++ [32] ++ [40, 57]) State.zero
      = outcome [50, 32, 42, 32, 51] State.zero ∧
    outcome [50, 32, 42, 32, 51] State.zero = .ok 6 :=
  have hw : WellFormed [50, 32, 42, 32, 51] :=
    ⟨_, _, [], Renders.bin .mul _ _ _ [32] _ allSpace_one (by decide) (by decide)
      (Renders.lit [] [50] allSpace_nil (by decide) (by decide))
      (Renders.lit [32] [51] allSpace_one (by decide) (by decide)), allSpace_nil, rfl⟩
  ⟨hw, (trailing_input_ignored [50, 32, 42, 32, 51] [40, 57] State.zero State.zero hw
    (by decide) (by decide) (by decide) (by decide)).1, rfl⟩

/-- C9: integer literals are decoded in a wrapping unsigned 32-bit accumulator. For every
non-empty digit string `d`, `next_token` on `d` yields a `TOKEN_UINT` token whose value is the
decimal value of `d` modulo `2^32` and whose span is all of `d`, and `parse_expr_str` on `d`
returns that value read as a signed 32-bit integer; `4294967296` gives `0` and `4294967295`
gives `-1`. -/
theorem literal_decoding (d : List Nat) (st g : State) (hd : IsLiteral d)
    (hs : st.stream = 0) :
    next_token d st = .ok
      { token := { kind := TOKEN_UINT, start := 0, end_ := d.length,
                   val := decimal d % 4294967296 },
        stream := d.length } ∧
    outcome d g = .ok (to_int32 (decimal d % 4294967296)) ∧
    outcome [52, 50, 57, 52, 57, 54, 55, 50, 57, 54] g = .ok 0 ∧
    outcome [52, 50, 57, 52, 57, 54, 55, 50, 57, 53] g = .ok (-1) :=
  ⟨next_token_literal d st hd hs, outcome_literal d g hd,
    outcome_literal [52, 50, 57, 52, 57, 54, 55, 50, 57, 54] g (by decide),
    outcome_literal [52, 50, 57, 52, 57, 54, 55, 50, 57, 53] g (by decide)⟩

/-- Witness for C9: the literal `4294967301` is decoded to `5`. -/
theorem literal_decoding_witness :
    IsLiteral [52, 50, 57, 52, 57, 54, 55, 51, 48, 49] ∧
    next_token [52, 50, 57, 52, 57, 54, 55, 51, 48, 49] State.zero = .ok
      { token := { kind := 128, start := 0, end_ := 10, val := 5 }, stream := 10 } :=
  ⟨by decide,
    (literal_decoding [52, 50, 57, 52, 57, 54, 55, 51, 48, 49] State.zero State.zero
      (by decide) rfl).1⟩

/-- C10: overflow wraps and never traps. For literals `a`, `b` the inputs `a + b`, `a - b`
and `a * b` evaluate to the exact result reduced modulo `2^32` and read as a signed 32-bit
integer, and `-a` to the wrapped negation of `a`; `2147483647 + 1` and `-2147483648` both
give `-2147483648`. -/
theorem overflow_wraps (da db : List Nat) (g : State) (ha : IsLiteral da)
    (hb : IsLiteral db) :
    outcome (da ++ [32, 43, 32] ++ db) g = .ok (wrap32 ((decimal da : Int) + decimal db)) ∧
    outcome (da ++ [32, 45, 32] ++ db) g = .ok (wrap32 ((decimal da : Int) - decimal db)) ∧
    outcome (da ++ [32, 42, 32] ++ db) g = .ok (wrap32 ((decimal da : Int) * decimal db)) ∧
    outcome (45 :: da) g = .ok (wrap32 (-(decimal da : Int))) ∧
    outcome [50, 49, 52, 55, 52, 56, 51, 54, 52, 55, 32, 43, 32, 49] g
      = .ok (-2147483648) ∧
    outcome [45, 50, 49, 52, 55, 52, 56, 51, 54, 52, 56] g = .ok (-2147483648) := by
  have e1 := outcome_lit_bin .add da db g ha hb
  have e2 := outcome_lit_bin .sub da db g ha hb
  have e3 := outcome_lit_bin .mul da db g ha hb
  have e4 := outcome_neg_lit da g ha
  have ma := wrap32_modEq (decimal da)
  have mb := wrap32_modEq (decimal db)
  refine ⟨?_, ?_, ?_, ?_, ?_, ?_⟩
  · simp only [Op.char, arith] at e1
    rw [e1, lit_val_wrap, lit_val_wrap, wrap32_congr _ _ (ma.add mb)]
  · simp only [Op.char, arith] at e2
    rw [e2, lit_val_wrap, lit_val_wrap, wrap32_congr _ _ (ma.sub mb)]
  · simp only [Op.char, arith] at e3
    rw [e3, lit_val_wrap, lit_val_wrap, wrap32_congr _ _ (ma.mul mb)]
  · rw [e4, lit_val_wrap, wrap32_congr _ _ ma.neg]
  · exact outcome_lit_bin .add [50, 49, 52, 55, 52, 56, 51, 54, 52, 55] [49] g (by decide)
      (by decide)
  · exact outcome_neg_lit [50, 49, 52, 55, 52, 56, 51, 54, 52, 56] g (by decide)

/-- Witness for C10: `65536 * 65537` wraps to `65536`. -/
theorem overflow_wraps_witness :
    IsLiteral [54, 53, 53, 51, 54] ∧ IsLiteral [54, 53, 53, 51, 55] ∧
    outcome [54, 53, 53, 51, 54, 32, 42, 32, 54, 53, 53, 51, 55] State.zero = .ok 65536 :=
  ⟨by decide, by decide,
    (overflow_wraps [54, 53, 53, 51, 54] [54, 53, 53, 51, 55] State.zero (by decide)
      (by decide)).2.2.1⟩

/-! ## Division, termination, the lexer, and the shared state -/

/-- Counterexample to C11 as stated: the operands `-2147483648` and `-1` are well-formed,
have the values `-2^31` and `-1`, the divisor is not zero, and the division ends in the
divide trap of `idiv` instead of returning a quotient. -/
theorem division_overflow_trap :
    (Expr.neg (.lit (decimal [50, 49, 52, 55, 52, 56, 51, 54, 52, 56]))).eval
      = .ok (-2147483648) ∧
    (Expr.neg (.lit (decimal [49]))).eval = .ok (-1) ∧
    outcome [45, 50, 49, 52, 55, 52, 56, 51, 54, 52, 56, 32, 47, 32, 45, 49] State.zero
      = .error .trap :=
  ⟨rfl, rfl, rfl⟩

/-- C11 (amended): division is truncating integer division and does not trap when the
divisor is non-zero and the operands are not `-2^31` and `-1`. For well-formed operands `X`
(a multiplicative chain) and `Y` (a unary) with values `x` and `y`, `y` non-zero, the input
`X / Y` returns the quotient truncated toward zero, whose magnitude is the integer quotient
of the magnitudes; for `x = -2^31` and `y = -1` the run ends in the divide trap. `4 / 2`
gives `2`, `-7 / 2` gives `-3` and `7 / -2` gives `-3`. -/
theorem division_truncates (x y : Expr) (sx sy w ws : List Nat) (vx vy : Int) (g : State)
    (hx : Renders x sx) (hy : Renders y sy) (hxl : x.level ≤ 2) (hyl : y.level ≤ 1)
    (hw : AllSpace w) (hws : AllSpace ws)
    (hvx : x.eval = .ok vx) (hvy : y.eval = .ok vy) (h0 : vy ≠ 0) :
    (¬ (vx = -2147483648 ∧ vy = -1) →
      outcome (sx ++ (w ++ 47 :: sy) ++ ws) g = .ok (Int.tdiv vx vy) ∧
      (Int.tdiv vx vy).natAbs = vx.natAbs / vy.natAbs ∧ InRange (Int.tdiv vx vy)) ∧
    ((vx = -2147483648 ∧ vy = -1) →
      outcome (sx ++ (w ++ 47 :: sy) ++ ws) g = .error .trap) ∧
    outcome [52, 32, 47, 32, 50] g = .ok 2 ∧
    outcome [45, 55, 32, 47, 32, 50] g = .ok (-3) ∧
    outcome [55, 32, 47, 32, 45, 50] g = .ok (-3) := by
  have h := outcome_div x y sx sy w ws g hx hy hxl hyl hw hws
  rw [eval_div x y vx vy hvx hvy] at h
  refine ⟨?_, ?_, ?_, ?_, ?_⟩
  · intro hn
    rw [h, if_neg (by simp [h0, hn])]
    exact ⟨rfl, Int.natAbs_tdiv vx vy,
      tdiv_range vx vy (eval_range x vx hvx) (eval_range y vy hvy) h0 hn⟩
  · intro hn
    rw [h, if_pos (Or.inr hn)]
  · exact outcome_lit_bin .div [52] [50] g (by decide) (by decide)
  · exact outcome_div (.neg (.lit (decimal [55]))) (.lit (decimal [50])) [45, 55] [32, 50]
      [32] [] g (Renders.neg [] _ _ allSpace_nil rfl (renders_lit [55] (by decide)))
      (renders_lit_sp [50] (by decide)) (by decide) (by decide) allSpace_one allSpace_nil
  · exact outcome_bin_neg .div [55] [50] g (by decide) (by decide)

/-- Witness for C11: `(9 - 30) * 2 / (5)` is `-42 / 5`, which is `-8`. -/
theorem division_truncates_witness :
    outcome ([40, 57, 45, 51, 48, 41, 42, 50] ++ ([32] ++ 47 :: [40, 53, 41]) ++ [])
      State.zero = .ok (Int.tdiv (-42) 5) ∧ Int.tdiv (-42) 5 = -8 :=
  ⟨((division_truncates
    (.bin .mul (.paren (.bin .sub (.lit (decimal [57])) (.lit (decimal [51, 48]))))
      (.lit (decimal [50])))
    (.paren (.lit (decimal [53])))
    [40, 57, 45, 51, 48, 41, 42, 50] [40, 53, 41] [32] [] (-42) 5 State.zero
    (Renders.bin .mul _ _ _ [] _ allSpace_nil (by decide) (by decide)
      (Renders.paren [] [] _ _ allSpace_nil allSpace_nil
        (Renders.bin .sub _ _ _ [] _ allSpace_nil (by decide) (by decide)
          (Renders.lit [] [57] allSpace_nil (by decide) (by decide))
          (Renders.lit [] [51, 48] allSpace_nil (by decide) (by decide))))
      (Renders.lit [] [50] allSpace_nil (by decide) (by decide)))
    (Renders.paren [] [] _ _ allSpace_nil allSpace_nil
      (Renders.lit [] [53] allSpace_nil (by decide) (by decide)))
    (by decide) (by decide) allSpace_one allSpace_nil (by rfl) (by rfl) (by decide)).1
    (by decide)).1, by decide⟩

/-- Counterexample to C13 as stated: `--3` aborts, while `-(-3)` returns `3`. -/
theorem double_minus_aborts :
    outcome [45, 45, 51] State.zero = .error .abort ∧
    outcome [45, 40, 45, 51, 41] State.zero = .ok 3 ∧
    outcome [45, 45, 51] State.zero ≠ outcome [45, 40, 45, 51, 41] State.zero :=
  ⟨rfl, rfl, fun h => Except.noConfusion h⟩

/-- C13 (amended): only one leading minus sign is recognized per unary. For every literal
`n` the run on `--n` aborts, because the second minus sign is not the start of a primary,
while the run on `-(-n)` returns `n` read as a signed 32-bit integer. -/
theorem double_minus (d : List Nat) (g : State) (hd : IsLiteral d) :
    outcome ([45, 45] ++ d) g = .error .abort ∧
    outcome ([45, 40, 45] ++ d ++ [41]) g = .ok (lit_val d) := by
  refine ⟨outcome_minus_minus d g, ?_⟩
  rw [outcome_neg_paren_neg d g hd, wrap32_neg_neg _ (lit_val_range d)]

/-- Witness for C13: `--12` and `-(-12)`. -/
theorem double_minus_witness :
    IsLiteral [49, 50] ∧ outcome [45, 45, 49, 50] State.zero = .error .abort ∧
    outcome [45, 40, 45, 49, 50, 41] State.zero = .ok 12 :=
  ⟨by decide, double_minus [49, 50] State.zero (by decide)⟩

/-- C14: single-character tokens and lexer totality. With the cursor at or before the
terminator, if the first non-whitespace character `c` at or after the cursor (`0` for the
terminator) is not a digit, a letter or an underscore, `next_token` emits a token whose kind
is the character code of `c` (stored in the unsigned enum; it is `c` itself for ASCII, and
read back as a `char` it is the signed code of `c`), the lexeme starts at `c` and
`end = start + 1` is the new cursor; and `next_token` succeeds for every buffer content. -/
theorem single_character_token (buf : List Nat) (st : State) (h : st.stream ≤ buf.length)
    (hd : isdigit (first_char (buf.drop st.stream)) = false)
    (hn : is_name_start (first_char (buf.drop st.stream)) = false) :
    next_token buf st = .ok
      { token := { kind := char_to_kind (first_char (buf.drop st.stream)),
                   start := st.stream + skip_space (buf.drop st.stream),
                   end_ := st.stream + skip_space (buf.drop st.stream) + 1,
                   val := st.token.val },
        stream := st.stream + skip_space (buf.drop st.stream) + 1 } ∧
    (first_char (buf.drop st.stream) < 128 →
      char_to_kind (first_char (buf.drop st.stream)) = first_char (buf.drop st.stream)) ∧
    (first_char (buf.drop st.stream) < 256 →
      kind_to_char (char_to_kind (first_char (buf.drop st.stream)))
        = if first_char (buf.drop st.stream) < 128 then (first_char (buf.drop st.stream) : Int)
          else (first_char (buf.drop st.stream) : Int) - 256) ∧
    (buf.drop (st.stream + skip_space (buf.drop st.stream))).headD 0
      = first_char (buf.drop st.stream) ∧
    isspace (first_char (buf.drop st.stream)) = false ∧
    AllSpace ((buf.drop st.stream).take (skip_space (buf.drop st.stream))) ∧
    (∀ (b : List Nat) (s : State), s.stream ≤ b.length → ∃ t, next_token b s = .ok t) := by
  refine ⟨next_token_single buf st h hd hn, ?_, kind_to_char_round _, first_char_eq buf _,
    skip_space_stop _, allSpace_take_skip _ _ (Nat.le_refl _), next_token_ok⟩
  intro hc
  unfold char_to_kind
  rw [if_pos hc]

/-- Witness for C14: in ` +1` with the cursor at `0` the token is `+`, of kind `43`, spanning
positions `1` to `2`. -/
theorem single_character_token_witness :
    next_token [32, 43, 49] State.zero = .ok
      { token := { kind := 43, start := 1, end_ := 2, val := 0 }, stream := 2 } :=
  (single_character_token [32, 43, 49] State.zero (by decide) (by decide) (by decide)).1

/-- C15: identifier tokens cover a maximal run. With the cursor at or before the terminator,
if the first non-whitespace character at or after the cursor is a letter or an underscore,
`next_token` emits a `TOKEN_NAME` token whose span is non-empty, lies inside the buffer,
consists only of letters, digits and underscores, and is maximal: the character at `end`
(`0` for the terminator) is none of these. -/
theorem identifier_token (buf : List Nat) (st : State) (h : st.stream ≤ buf.length)
    (hn : is_name_start (first_char (buf.drop st.stream)) = true) :
    ∃ st1, next_token buf st = .ok st1 ∧
      st1.token.kind = TOKEN_NAME ∧
      st1.token.start = st.stream + skip_space (buf.drop st.stream) ∧
      st1.token.start < st1.token.end_ ∧ st1.token.end_ ≤ buf.length ∧
      st1.stream = st1.token.end_ ∧
      AllName ((buf.drop st1.token.start).take (st1.token.end_ - st1.token.start)) ∧
      (isalnum ((buf.drop st1.token.end_).headD 0) || (buf.drop st1.token.end_).headD 0 == 95)
        = false := by
  refine ⟨_, next_token_name buf st h hn, rfl, rfl, ?_, ?_, rfl, ?_, ?_⟩
  · have := scan_name_pos (buf.drop (st.stream + skip_space (buf.drop st.stream)))
      (by rw [first_char_eq]; exact hn)
    dsimp only
    omega
  · have h1 := scan_name_le (buf.drop (st.stream + skip_space (buf.drop st.stream)))
    have h2 := skip_space_le (buf.drop st.stream)
    rw [List.length_drop] at h1 h2
    dsimp only
    omega
  · dsimp only
    rw [Nat.add_sub_cancel_left]
    exact (scan_name_spec _).1
  · dsimp only
    rw [← List.drop_drop]
    exact (scan_name_spec _).2

/-- Witness for C15: in ` ab_1+` with the cursor at `0` the name `ab_1` spans positions `1`
to `5`. -/
theorem identifier_token_witness :
    ∃ st1, next_token [32, 97, 98, 95, 49, 43] State.zero = .ok st1 ∧
      st1.token.kind = TOKEN_NAME ∧ st1.token.start = 0 + skip_space [32, 97, 98, 95, 49, 43] ∧
      st1.token.start < st1.token.end_ ∧ st1.token.end_ ≤ 6 ∧ st1.stream = st1.token.end_ ∧
      AllName ((List.drop st1.token.start [32, 97, 98, 95, 49, 43]).take
        (st1.token.end_ - st1.token.start)) ∧
      (isalnum ((List.drop st1.token.end_ [32, 97, 98, 95, 49, 43]).headD 0) ||
        (List.drop st1.token.end_ [32, 97, 98, 95, 49, 43]).headD 0 == 95) = false :=
  identifier_token [32, 97, 98, 95, 49, 43] State.zero (by decide) (by decide)

/-- C16: token span and cursor invariant. After a call of `next_token` with the cursor at or
before the terminator, `old cursor ≤ token.start < token.end = new cursor`, the new cursor
is at most one past the terminator, every character between the old cursor and
`token.start` is white space, and the character at `token.start` is not; hence the cursor
only moves forward. -/
theorem token_span_invariant (buf : List Nat) (st : State) (h : st.stream ≤ buf.length) :
    ∃ st1, next_token buf st = .ok st1 ∧
      st.stream ≤ st1.token.start ∧ st1.token.start ≤ buf.length ∧
      st1.token.start < st1.token.end_ ∧ st1.token.end_ = st1.stream ∧
      st1.stream ≤ buf.length + 1 ∧ st.stream < st1.stream ∧
      AllSpace ((buf.drop st.stream).take (st1.token.start - st.stream)) ∧
      isspace ((buf.drop st1.token.start).headD 0) = false := by
  have hs := next_token_scan buf st h
  have hst := next_token_stream buf st _ hs
  have hk := skip_space_le (buf.drop st.stream)
  have hgt := scan_consumed_gt (buf.drop st.stream)
  rw [List.length_drop] at hk
  refine ⟨_, hs, ?_, ?_, ?_, rfl, hst.2.1, hst.1, ?_, ?_⟩
  · dsimp only; omega
  · dsimp only; omega
  · dsimp only; omega
  · dsimp only
    rw [Nat.add_sub_cancel_left]
    exact allSpace_take_skip _ _ (Nat.le_refl _)
  · dsimp only
    rw [first_char_eq]
    exact skip_space_stop _

/-- Witness for C16: the second token of `12 +3`, read from cursor `2`. -/
theorem token_span_invariant_witness :
    ∃ st1, next_token [49, 50, 32, 43, 51] { State.zero with stream := 2 } = .ok st1 ∧
      2 ≤ st1.token.start ∧ st1.token.start ≤ 5 ∧
      st1.token.start < st1.token.end_ ∧ st1.token.end_ = st1.stream ∧
      st1.stream ≤ 5 + 1 ∧ 2 < st1.stream ∧
      AllSpace ((List.drop 2 [49, 50, 32, 43, 51]).take (st1.token.start - 2)) ∧
      isspace ((List.drop st1.token.start [49, 50, 32, 43, 51]).headD 0) = false :=
  token_span_invariant [49, 50, 32, 43, 51] { State.zero with stream := 2 } (by decide)

/-- C20: token kinds never collide. For every byte value `c` the kind that the
single-character branch of `next_token` stores is different from `TOKEN_UINT` and
`TOKEN_NAME`, so a token read by that branch has neither kind; consequently a current
token of kind `TOKEN_UINT` has a lexeme that is a non-empty run of digits, its `val` is the
value decoded from that lexeme by the same `next_token` call, and that is the value
`parse_uint_par` returns. -/
theorem token_kinds_never_collide (c : Nat) (buf : List Nat) (st st1 : State)
    (pe : State → Res) (hn : next_token buf st = .ok st1)
    (hk : st1.token.kind = TOKEN_UINT) :
    char_to_kind c ≠ TOKEN_UINT ∧ char_to_kind c ≠ TOKEN_NAME ∧
    (∀ (b : List Nat) (s t : State), next_token b s = .ok t →
      isdigit (first_char (b.drop s.stream)) = false →
      is_name_start (first_char (b.drop s.stream)) = false →
      t.token.kind = char_to_kind (first_char (b.drop s.stream)) ∧
        t.token.kind ≠ TOKEN_UINT ∧ t.token.kind ≠ TOKEN_NAME) ∧
    IsLiteral ((buf.drop st1.token.start).take (st1.token.end_ - st1.token.start)) ∧
    st1.token.val
      = decimal ((buf.drop st1.token.start).take (st1.token.end_ - st1.token.start))
        % 4294967296 ∧
    parse_uint_par buf pe st1 =
      match next_token buf st1 with
      | .ok st2 =>
        .ok (to_int32 (decimal ((buf.drop st1.token.start).take
          (st1.token.end_ - st1.token.start)) % 4294967296), st2)
      | .error e => .error e := by
  obtain ⟨h1, h2⟩ := next_token_uint buf st st1 hn hk
  refine ⟨(char_to_kind_ne c).1, (char_to_kind_ne c).2, ?_, h1, h2, ?_⟩
  · intro b s t ht hd hs
    have hle := (next_token_stream b s t ht).2.2
    rw [next_token_single b s hle hd hs] at ht
    cases ht
    exact ⟨rfl, (char_to_kind_ne _).1, (char_to_kind_ne _).2⟩
  · simp only [parse_uint_par, is_token, hk, beq_self_eq_true, if_true, ← h2]

/-- Witness for C20: the byte `128` gets kind `4294967168`, and the literal `42` of `(42)`
is decoded by the call that reads it. -/
theorem token_kinds_never_collide_witness :
    next_token [40, 52, 50, 41] { State.zero with stream := 1 } = .ok
      { token := { kind := 128, start := 1, end_ := 3, val := 42 }, stream := 3 } ∧
    char_to_kind 128 = 4294967168 ∧
    decimal ((List.drop 1 [40, 52, 50, 41]).take (3 - 1)) % 4294967296 = 42 ∧
    IsLiteral ((List.drop 1 [40, 52, 50, 41]).take (3 - 1)) :=
  ⟨rfl, rfl, by decide,
    (token_kinds_never_collide 128 [40, 52, 50, 41] { State.zero with stream := 1 }
      { token := { kind := 128, start := 1, end_ := 3, val := 42 }, stream := 3 }
      (fun _ => .error .abort) rfl rfl).2.2.2.1⟩

/-- C12: every invocation runs to completion. For every input string the run of
`parse_expr_str` ends: it never exhausts the fuel `length + 2`, and it ends by returning an
integer or by aborting the process, through `exit` or through the divide trap. The recursion
is well-founded because the cursor strictly advances: every `next_token` moves it forward
and not beyond one past the terminator; the nested `parse_expr` call of `parse_uint_par`
and every iteration of the loop of `parse_bin` come after such a call; so any fuel of at
least `length + 2 - cursor` suffices, and more fuel never changes a result. -/
theorem runs_to_completion (s : List Nat) (g : State) :
    outcome s g ≠ .error .fuel ∧
    ((∃ v, outcome s g = .ok v) ∨ outcome s g = .error .abort ∨ outcome s g = .error .trap) ∧
    (∀ st st1, next_token s st = .ok st1 →
      st.stream < st1.stream ∧ st1.stream ≤ s.length + 1) ∧
    (∀ (pe : State → Res) (st st1 : State), st.token.kind = 40 →
      next_token s st = .ok st1 →
      parse_uint_par s pe st =
        match pe st1 with
        | .error e => .error e
        | .ok (val, st2) =>
          match expect_token s st2 41 with
          | .error e => .error e
          | .ok (_, st3) => .ok (val, st3)) ∧
    (∀ (higher : State → Res) (ops : List Nat) (f : Nat) (v : Int) (st st1 : State),
      token_is_one_of st ops = true → next_token s st = .ok st1 →
      parse_bin_loop s higher ops (f + 1) v st =
        match higher st1 with
        | .error e => .error e
        | .ok (rv, st2) =>
          match apply_op (kind_to_char st.token.kind) v rv with
          | .error e => .error e
          | .ok x => parse_bin_loop s higher ops f x st2) ∧
    (∀ n st, st.stream ≤ s.length + 1 → s.length + 2 ≤ n + st.stream →
      parse_expr s n st ≠ .error .fuel) ∧
    (∀ n k st, parse_expr s n st ≠ .error .fuel →
      parse_expr s (n + k) st = parse_expr s n st) := by
  have hf := outcome_ne_fuel s g
  have ho := outcome_ne_oob s g
  refine ⟨hf, ?_, ?_, ?_, ?_, ?_, ?_⟩
  · cases h : outcome s g with
    | ok v => exact Or.inl ⟨v, rfl⟩
    | error e =>
      cases e with
      | abort => exact Or.inr (Or.inl rfl)
      | trap => exact Or.inr (Or.inr rfl)
      | oob => exact absurd h ho
      | fuel => exact absurd h hf
  · intro st st1 h
    exact ⟨(next_token_stream s st st1 h).1, (next_token_stream s st st1 h).2.1⟩
  · intro pe st st1 hk hn
    exact parse_uint_par_paren s pe st st1 hk hn
  · intro higher ops f v st st1 h hn
    exact loop_unfold s higher ops f v st st1 h hn
  · intro n st h1 h2
    exact fueled_parse_expr s n st (by omega) h1
  · intro n k st h
    exact parse_expr_more_fuel s n k st h

/-- Witness for C12: the runs on `((1` and `1/0` end, the first by `exit`, the second by the
divide trap. -/
theorem runs_to_completion_witness :
    outcome [40, 40, 49] State.zero ≠ .error .fuel ∧
    outcome [40, 40, 49] State.zero = .error .abort ∧
    outcome [49, 47, 48] State.zero = .error .trap :=
  ⟨(runs_to_completion [40, 40, 49] State.zero).1, rfl, rfl⟩

/-- C17: the parser never consumes the end-of-input token. A run of `parse_expr_str` never
has `next_token` read outside the buffer (the lexer fails exactly when called with the
cursor beyond the terminator, and no run ends in that failure), and it leaves the cursor at
most one past the terminator; the priming call of `init_stream` is made on the reset cursor
and succeeds whatever token the globals still hold. In a state whose current token is the
terminator (kind `0`) no routine of the parser advances the lexer: `match_token` declines, `expect_token`,
`parse_uint_par` and `parse_un_minus` abort, and the loop of `parse_bin` returns with the
state unchanged, for both operator tiers. -/
theorem terminator_not_consumed (s buf : List Nat) (g st : State) (pe higher : State → Res)
    (f : Nat) (v : Int) (hk : st.token.kind = 0) :
    outcome s g ≠ .error .oob ∧
    parse_expr_str s g ≠ .error .oob ∧
    (∀ v1 st1, parse_expr_str s g = .ok (v1, st1) → st1.stream ≤ s.length + 1) ∧
    (∀ (b : List Nat) (t : State), (∃ t1, next_token b t = .ok t1) ↔ t.stream ≤ b.length) ∧
    (∃ st1, init_stream s g = .ok st1 ∧ st1.stream ≤ s.length + 1) ∧
    match_token buf st 40 = .ok (false, st) ∧
    expect_token buf st 41 = .error .abort ∧
    parse_uint_par buf pe st = .error .abort ∧
    parse_un_minus buf pe st = .error .abort ∧
    parse_bin_loop buf higher [42, 47] (f + 1) v st = .ok (v, st) ∧
    parse_bin_loop buf higher [43, 45] (f + 1) v st = .ok (v, st) := by
  have hb := parse_expr_str_in_bounds s g
  refine ⟨outcome_ne_oob s g, hb.1, ?_, next_token_ok_iff, ?_, ?_, ?_,
    uint_par_terminator buf pe st hk, ?_,
    loop_terminator buf higher 42 47 f v st hk (by decide) (by decide),
    loop_terminator buf higher 43 45 f v st hk (by decide) (by decide)⟩
  · intro v1 st1 h
    rcases hb.2 v1 st1 h with h1 | ⟨_, h1⟩ <;> omega
  · obtain ⟨st1, hi, _⟩ := lexed_init s g
    exact ⟨st1, hi, (next_token_stream s _ st1 hi).2.1⟩
  · simp [match_token, is_token, hk]
  · simp [expect_token, is_token, hk]
  · exact lift_unary buf pe st _ (uint_par_terminator buf pe st hk) (by rw [hk]; decide)

/-- Witness for C17: after `1 + 2` the current token is the terminator, the cursor is `6`,
one past it, and the run has not read further. -/
theorem terminator_not_consumed_witness :
    parse_expr_str [49, 32, 43, 32, 50] State.zero = .ok
      (3, { token := { kind := 0, start := 5, end_ := 6, val := 2 }, stream := 6 }) ∧
    outcome [49, 32, 43, 32, 50] State.zero ≠ .error .oob ∧
    parse_bin_loop [49, 32, 43, 32, 50] (fun _ => .error .abort) [43, 45] (0 + 1) 3
      { token := { kind := 0, start := 5, end_ := 6, val := 2 }, stream := 6 }
      = .ok (3, { token := { kind := 0, start := 5, end_ := 6, val := 2 }, stream := 6 }) :=
  have h := terminator_not_consumed [49, 32, 43, 32, 50] [49, 32, 43, 32, 50] State.zero
    { token := { kind := 0, start := 5, end_ := 6, val := 2 }, stream := 6 }
    (fun _ => .error .abort) (fun _ => .error .abort) 0 3 rfl
  ⟨rfl, h.1, h.2.2.2.2.2.2.2.2.2.2⟩

/-- C18: `apply_op` only receives an operator of the calling tier. When the loop of
`parse_bin` takes its branch, the operator passed on, `token.kind` narrowed to `char`, is the
kind itself and is `*` or `/` in the multiplicative tier and `+` or `-` in the additive
tier. So one iteration in the multiplicative tier multiplies on `*` and calls the division
branch of `apply_op` only with `/`, and one iteration in the additive tier adds on `+` and
subtracts on `-`, without any division. -/
theorem apply_op_tier (buf : List Nat) (higher : State → Res) (f : Nat) (v : Int)
    (st : State) :
    (token_is_one_of st [42, 47] = true →
      (kind_to_char st.token.kind = 42 ∨ kind_to_char st.token.kind = 47) ∧
      kind_to_char st.token.kind = (st.token.kind : Int)) ∧
    (token_is_one_of st [43, 45] = true →
      (kind_to_char st.token.kind = 43 ∨ kind_to_char st.token.kind = 45) ∧
      kind_to_char st.token.kind = (st.token.kind : Int)) ∧
    (∀ pe n, parse_bin_mul_add buf pe n = parse_bin buf (parse_un_minus buf pe) [42, 47] n) ∧
    (∀ pe n, parse_bin_add_sub buf pe n
      = parse_bin buf (parse_bin_mul_add buf pe n) [43, 45] n) ∧
    parse_bin_loop buf higher [42, 47] (f + 1) v st =
      (if st.token.kind = 42 then
        match next_token buf st with
        | .error e => .error e
        | .ok st1 =>
          match higher st1 with
          | .error e => .error e
          | .ok (rv, st2) => parse_bin_loop buf higher [42, 47] f (wrap32 (v * rv)) st2
      else if st.token.kind = 47 then
        match next_token buf st with
        | .error e => .error e
        | .ok st1 =>
          match higher st1 with
          | .error e => .error e
          | .ok (rv, st2) =>
            match apply_op 47 v rv with
            | .error e => .error e
            | .ok x => parse_bin_loop buf higher [42, 47] f x st2
      else .ok (v, st)) ∧
    parse_bin_loop buf higher [43, 45] (f + 1) v st =
      (if st.token.kind = 43 then
        match next_token buf st with
        | .error e => .error e
        | .ok st1 =>
          match higher st1 with
          | .error e => .error e
          | .ok (rv, st2) => parse_bin_loop buf higher [43, 45] f (wrap32 (v + rv)) st2
      else if st.token.kind = 45 then
        match next_token buf st with
        | .error e => .error e
        | .ok st1 =>
          match higher st1 with
          | .error e => .error e
          | .ok (rv, st2) => parse_bin_loop buf higher [43, 45] f (wrap32 (v - rv)) st2
      else .ok (v, st)) :=
  ⟨fun h => one_of_char st 42 47 (by decide) (by decide) h,
    fun h => one_of_char st 43 45 (by decide) (by decide) h,
    fun _ _ => rfl, fun _ _ => rfl,
    loop_mul_div buf higher f v st, loop_add_sub buf higher f v st⟩

/-- Witness for C18: with `/` as the current token of `6/3` the operator passed on is `47`. -/
theorem apply_op_tier_witness :
    token_is_one_of { token := { kind := 47, start := 1, end_ := 2, val := 6 }, stream := 2 }
      [42, 47] = true ∧
    kind_to_char 47 = 47 :=
  ⟨rfl,
    ((apply_op_tier [54, 47, 51] (fun _ => .error .abort) 0 6
      { token := { kind := 47, start := 1, end_ := 2, val := 6 }, stream := 2 }).1 rfl).2⟩

/-- C19: the outcome of `parse_expr_str` depends only on its argument. For every input
string `s` and any two initial values `g1`, `g2` of the globals `token` and `stream` the two
runs have the same outcome; in particular a run on `s` from the globals left behind by an
earlier run, on any string `s0`, that returned. -/
theorem outcome_independent_of_globals (s s0 : List Nat) (g1 g2 g : State) :
    outcome s g1 = outcome s g2 ∧
    (∀ v g0, parse_expr_str s0 g = .ok (v, g0) → outcome s g0 = outcome s g) :=
  ⟨outcome_tokEq s s g1 g2 (tokEq_refl s), fun _ g0 _ => outcome_tokEq s s g0 g (tokEq_refl s)⟩

/-- Witness for C19: `2*3` evaluated after a run on `7` that returned, and from the zero
globals. -/
theorem outcome_independent_of_globals_witness :
    parse_expr_str [55] State.zero = .ok
      (7, { token := { kind := 0, start := 1, end_ := 2, val := 7 }, stream := 2 }) ∧
    outcome [50, 42, 51]
      { token := { kind := 0, start := 1, end_ := 2, val := 7 }, stream := 2 }
      = outcome [50, 42, 51] State.zero ∧
    outcome [50, 42, 51] State.zero = .ok 6 :=
  ⟨rfl,
    (outcome_independent_of_globals [50, 42, 51] [55] State.zero State.zero State.zero).2 7
      { token := { kind := 0, start := 1, end_ := 2, val := 7 }, stream := 2 } rfl, rfl⟩

end Calc
